import Mathlib

/-!
# Verification of the Legit-Owner-Calculator core

This file gives a shallow embedding, in Lean 4, of the calculator core found in
`src/app/(tabs)/index.tsx`: the display formatter (`formatNumber`), the display
parser (`parseDisplayValue`), the entry validator (`isNumericEntry`), and the
React-state action handlers (`handleDigitPress`, `handleOperatorPress`,
`handleEqualsPress`, `handlePercent`, `handleUnaryCommand`, `handleMemoryAction`,
clears and backspace), together with theorems settling the specification claims.

Modelling conventions:

* JavaScript numbers are modelled by exact rationals, represented as a pair of an
  integer numerator and a positive integer denominator (`Q`), kept unreduced so
  that every arithmetic operation is structurally recursive and kernel-reducible
  (no `Nat.gcd`).  `+`, `-`, `*`, `/` on in-range doubles are exact in this model;
  overflow to `Infinity` at 1.8e308 is not modelled (no claim touches it).
* Non-finite numbers (`NaN`, `Infinity`) are modelled by `none : Option Q`; the
  code only ever observes non-finite values through `Number.isFinite` guards, so
  the distinction between `NaN` and the infinities is unobservable in the core.
* `Number.prototype.toString` is modelled by `jsToString`, following the ECMAScript
  layout algorithm (plain decimal for magnitudes in [1e-6, 1e21), exponential
  notation otherwise).  JavaScript prints the shortest decimal that round-trips
  through the double; every double's printed form has at most 17 significant
  digits, so on rationals with at most 17 significant decimal digits (the image of
  the doubles) `jsToString` prints the exact expansion, and on other rationals
  (which can only arise in this model where JavaScript would have rounded to a
  double) it falls back to rounding to 17 significant digits.
* `Math.round` is modelled per ECMAScript as ⌊x + 1/2⌋ (ties toward +∞), and
  `Number.prototype.toExponential(6)` per ECMAScript (ties on the magnitude toward
  the larger mantissa, i.e. away from zero).
* `Math.sqrt` (a correctly-rounded double operation) is modelled by an exact
  integer-square-root extension `jsSqrt`; the claims that mention square roots
  depend only on the result being a finite number, not on its value, except on
  perfect squares where the model agrees with JavaScript.
* The random/timestamp memory-entry ids are modelled by a fresh-counter field
  `nextId`; the source only requires ids to be unique within a session.
-/

/-! ## Executable rationals without gcd -/

/-- Powers of ten as a structurally recursive function (kernel-reducible,
unlike `Monoid.npow`). -/
def pow10 : Nat → Nat
  | 0 => 1
  | k + 1 => 10 * pow10 k

/-- Powers of two, structurally recursive. -/
def pow2 : Nat → Nat
  | 0 => 1
  | k + 1 => 2 * pow2 k

theorem pow10_eq (k : Nat) : pow10 k = 10 ^ k := by
  induction k with
  | zero => rfl
  | succ k ih => simp [pow10, ih, Nat.pow_succ]; ring

theorem pow2_eq (k : Nat) : pow2 k = 2 ^ k := by
  induction k with
  | zero => rfl
  | succ k ih => simp [pow2, ih, Nat.pow_succ]; ring

theorem pow10_pos (k : Nat) : 0 < pow10 k := by
  rw [pow10_eq]; exact Nat.pos_pow_of_pos k (by norm_num)

/-- A JavaScript number value: an exact rational as an unreduced
numerator/denominator pair with positive denominator.  All operations are
structurally recursive, so concrete computations reduce in the kernel. -/
structure Q where
  num : Int
  den : Int
  dpos : 0 < den

/-- The rational value of a `Q`. -/
def Q.val (a : Q) : ℚ := (a.num : ℚ) / (a.den : ℚ)

def Q.ofInt (n : Int) : Q := ⟨n, 1, Int.one_pos⟩

/-- The decimal fraction `m / 10^k`. -/
def Q.dec (m : Int) (k : Nat) : Q :=
  ⟨m, (pow10 k : Nat), Int.natCast_pos.mpr (pow10_pos k)⟩

def Q.add (a b : Q) : Q :=
  ⟨a.num * b.den + b.num * a.den, a.den * b.den, mul_pos a.dpos b.dpos⟩

def Q.neg (a : Q) : Q := ⟨-a.num, a.den, a.dpos⟩

def Q.sub (a b : Q) : Q := a.add b.neg

def Q.mul (a b : Q) : Q :=
  ⟨a.num * b.num, a.den * b.den, mul_pos a.dpos b.dpos⟩

/-- Division.  The `d = 0` case (division by the zero value) is junk and is
guarded at every call site, mirroring the source's `right === 0` check. -/
def Q.div (a b : Q) : Q :=
  let n := a.num * b.den
  let d := a.den * b.num
  if h : 0 < d then ⟨n, d, h⟩
  else if h2 : d < 0 then ⟨-n, -d, Int.neg_pos.mpr h2⟩
  else ⟨0, 1, Int.one_pos⟩

/-- Value equality test (`===` on numbers). -/
def Q.beq (a b : Q) : Bool := a.num * b.den == b.num * a.den

/-- Value strict-order test (`<` on numbers). -/
def Q.blt (a b : Q) : Bool := decide (a.num * b.den < b.num * a.den)

/-- Value order test (`<=` on numbers). -/
def Q.ble (a b : Q) : Bool := decide (a.num * b.den ≤ b.num * a.den)

/-- Test against literal zero (`value === 0`). -/
def Q.isZero (a : Q) : Bool := a.num == 0

/-- Absolute value (`Math.abs`). -/
def Q.babs (a : Q) : Q := ⟨(a.num.natAbs : Int), a.den, a.dpos⟩

/-- Floor, computed by flooring integer division. -/
def Q.floor (a : Q) : Int := a.num.fdiv a.den

/-- One half, used to express ECMAScript `Math.round`. -/
def Q.half : Q := ⟨1, 2, by norm_num⟩

/-- ECMAScript `Math.round`: the closest integer, ties toward +∞, i.e.
⌊x + 1/2⌋. -/
def jsRound (a : Q) : Int := (a.add Q.half).floor

/-- `Number.EPSILON` = 2^(-52), exactly. -/
def EPS : Q := ⟨1, (pow2 52 : Nat), Int.natCast_pos.mpr (by rw [pow2_eq]; positivity)⟩

/-- `10^z` for a signed exponent `z`, as a `Q`. -/
def pow10Q (z : Int) : Q :=
  if 0 ≤ z then Q.ofInt (pow10 z.toNat : Nat)
  else Q.dec 1 (-z).toNat

/-! ### Value lemmas for `Q` -/

theorem Q.den_ne (a : Q) : (a.den : ℚ) ≠ 0 := by
  exact_mod_cast ne_of_gt (by exact_mod_cast a.dpos : (0:ℚ) < a.den)

theorem Q.val_ofInt (n : Int) : (Q.ofInt n).val = (n : ℚ) := by
  simp [Q.val, Q.ofInt]

theorem Q.val_dec (m : Int) (k : Nat) : (Q.dec m k).val = (m : ℚ) / (10 ^ k : ℚ) := by
  simp only [Q.val, Q.dec]
  norm_num [pow10_eq]


theorem Q.val_add (a b : Q) : (a.add b).val = a.val + b.val := by
  have ha := a.den_ne; have hb := b.den_ne
  simp only [Q.val, Q.add]
  push_cast
  field_simp

theorem Q.val_neg (a : Q) : a.neg.val = -a.val := by
  simp [Q.val, Q.neg, neg_div]

theorem Q.val_sub (a b : Q) : (a.sub b).val = a.val - b.val := by
  rw [Q.sub, Q.val_add, Q.val_neg]; ring

theorem Q.val_mul (a b : Q) : (a.mul b).val = a.val * b.val := by
  have ha := a.den_ne; have hb := b.den_ne
  simp only [Q.val, Q.mul]
  push_cast
  field_simp

theorem Q.beq_iff (a b : Q) : a.beq b = true ↔ a.val = b.val := by
  have ha : (0:ℚ) < a.den := by exact_mod_cast a.dpos
  have hb : (0:ℚ) < b.den := by exact_mod_cast b.dpos
  rw [Q.beq, beq_iff_eq, Q.val, Q.val, div_eq_div_iff (ne_of_gt ha) (ne_of_gt hb)]
  constructor
  · intro h; exact_mod_cast congrArg (fun z : Int => (z : ℚ)) h
  · intro h; exact_mod_cast h

theorem Q.blt_iff (a b : Q) : a.blt b = true ↔ a.val < b.val := by
  have ha : (0:ℚ) < a.den := by exact_mod_cast a.dpos
  have hb : (0:ℚ) < b.den := by exact_mod_cast b.dpos
  rw [Q.blt, decide_eq_true_iff, Q.val, Q.val, div_lt_div_iff ha hb]
  constructor
  · intro h; exact_mod_cast h
  · intro h; exact_mod_cast h

theorem Q.ble_iff (a b : Q) : a.ble b = true ↔ a.val ≤ b.val := by
  have ha : (0:ℚ) < a.den := by exact_mod_cast a.dpos
  have hb : (0:ℚ) < b.den := by exact_mod_cast b.dpos
  rw [Q.ble, decide_eq_true_iff, Q.val, Q.val, div_le_div_iff ha hb]
  constructor
  · intro h; exact_mod_cast h
  · intro h; exact_mod_cast h

theorem Q.isZero_iff (a : Q) : a.isZero = true ↔ a.val = 0 := by
  rw [Q.isZero, beq_iff_eq, Q.val, div_eq_zero_iff]
  have := a.den_ne
  constructor
  · intro h; left; exact_mod_cast h
  · rintro (h | h)
    · exact_mod_cast h
    · exact absurd h this

theorem Q.val_babs (a : Q) : a.babs.val = |a.val| := by
  have ha : (0:ℚ) < (a.den : ℚ) := by exact_mod_cast a.dpos
  simp only [Q.val, Q.babs, abs_div, abs_of_pos ha]
  congr 1
  rw [Int.cast_natAbs]
  simp

theorem Q.val_div (a b : Q) (hb : b.val ≠ 0) : (a.div b).val = a.val / b.val := by
  have ha : (0:ℚ) < (a.den : ℚ) := by exact_mod_cast a.dpos
  have hbd : (0:ℚ) < (b.den : ℚ) := by exact_mod_cast b.dpos
  have hbn : (b.num : ℚ) ≠ 0 := by
    intro h
    apply hb
    rw [Q.val, div_eq_zero_iff]; left; exact h
  have hbn' : b.num ≠ 0 := by exact_mod_cast hbn
  have had : (a.den : ℚ) ≠ 0 := ne_of_gt ha
  have hbd' : (b.den : ℚ) ≠ 0 := ne_of_gt hbd
  rw [Q.div]
  rcases lt_trichotomy (a.den * b.num) 0 with h | h | h
  · have hnotpos : ¬ 0 < a.den * b.num := by omega
    simp only [hnotpos, h, dif_neg, dif_pos, not_false_iff]
    simp only [Q.val]
    push_cast
    rw [neg_div_neg_eq]
    field_simp
  · exact absurd h (by
      intro hc
      rcases mul_eq_zero.mp hc with h1 | h1
      · exact absurd h1 (by exact_mod_cast ne_of_gt a.dpos)
      · exact hbn' h1)
  · simp only [h, dif_pos]
    simp only [Q.val]
    push_cast
    field_simp

theorem Q.val_floor (a : Q) : a.floor = ⌊a.val⌋ := by
  have h0 : (0:Int) ≤ a.den := le_of_lt a.dpos
  have hnat : ((a.den.toNat : ℤ)) = a.den := Int.toNat_of_nonneg h0
  have hval : a.val = (a.num : ℚ) / ((a.den.toNat : ℕ) : ℚ) := by
    rw [Q.val]; congr 1; exact_mod_cast hnat.symm
  rw [Q.floor, Int.fdiv_eq_ediv _ h0, hval, Rat.floor_intCast_div_natCast, hnat]

/-! ## Digit strings -/

/-- The character for a single decimal digit. -/
def digitChar : Nat → Char
  | 0 => '0' | 1 => '1' | 2 => '2' | 3 => '3' | 4 => '4'
  | 5 => '5' | 6 => '6' | 7 => '7' | 8 => '8' | _ => '9'

/-- Is `c` one of the ten ASCII digits? -/
def isDigitC (c : Char) : Bool := decide ('0' ≤ c) && decide (c ≤ '9')

/-- Numeric value of a digit character. -/
def charVal (c : Char) : Nat := c.toNat - 48

/-- Decimal digit characters of `n`, most significant first, accumulated in
`acc`; `fuel` bounds the recursion depth (any `fuel` with `n < 10^fuel` is
enough). -/
def natCharsCore : Nat → Nat → List Char → List Char
  | 0, _, acc => acc
  | fuel + 1, n, acc =>
    if n < 10 then digitChar n :: acc
    else natCharsCore fuel (n / 10) (digitChar (n % 10) :: acc)

/-- Decimal digit characters of `n`, most significant first. -/
def natChars (n : Nat) : List Char := natCharsCore (n + 1) n []

/-- Value of a digit string continuing a prefix of value `a`. -/
def charsValFrom (a : Nat) (cs : List Char) : Nat :=
  cs.foldl (fun x c => 10 * x + charVal c) a

/-- Value of a digit string (`"305"` ↦ `305`). -/
def charsVal (cs : List Char) : Nat := charsValFrom 0 cs

/-- Group a REVERSED digit list into blocks of three separated by `','`
(still reversed).  Groups of `Intl`/`toLocaleString('en-US')` formatting. -/
def chunk3Rev : List Char → List Char
  | a :: b :: c :: d :: rest => a :: b :: c :: ',' :: chunk3Rev (d :: rest)
  | xs => xs

/-- Insert en-US thousands separators into a digit list. -/
def group3 (ds : List Char) : List Char := (chunk3Rev ds.reverse).reverse

/-- `n.toLocaleString('en-US')` for a natural number. -/
def groupedNat (n : Nat) : List Char := group3 (natChars n)

/-- `toLocaleString('en-US')` of a sign-magnitude integer (the sign kept
separately so that the double `-0` renders as `"-0"`, per ES2020 `Intl`).
The source's subsequent
`.replace(/ /g, ',')` is a no-op in the en-US locale (narrow no-break
spaces only appear in some other locales) and is therefore not modelled. -/
def intGrouped (p : Bool × Nat) : List Char :=
  if p.1 then '-' :: groupedNat p.2 else groupedNat p.2

/-- Remove every comma (`displayValue.replace(/,/g, '')`). -/
def stripCommas (cs : List Char) : List Char := cs.filter (fun c => c != ',')

/-- `String.prototype.split('.')`: the list of `'.'`-separated segments. -/
def splitDot : List Char → List (List Char)
  | [] => [[]]
  | '.' :: rest => [] :: splitDot rest
  | c :: rest =>
    match splitDot rest with
    | [] => [[c]]
    | seg :: segs => (c :: seg) :: segs

/-- Longest leading run of digits, with its value: the core of `parseInt`. -/
def leadDigits (cs : List Char) : List Char := cs.takeWhile isDigitC

/-- Split an optional leading sign (`'-'` or `'+'`) off a numeric literal:
the sign flag (`true` = negative) and the remainder. -/
def signSplit : List Char → Bool × List Char
  | '-' :: r => (true, r)
  | '+' :: r => (false, r)
  | cs => (false, cs)

/-- `parseInt(s, 10)` restricted to the strings that occur here (no leading
whitespace is ever present in a `toString` output): an optional sign followed
by the longest digit run; `none` models `NaN`. -/
def jsParseIntLead (cs : List Char) : Option (Bool × Nat) :=
  let p := signSplit cs
  if (leadDigits p.2).isEmpty then none
  else some (p.1, charsVal (leadDigits p.2))

/-! ## `Number.prototype.toString` -/

/-- Smallest `k` (starting from `k0`) with `den ∣ num * 10^k`, if any is found
within `fuel` steps. -/
def fracLenCore : Nat → Int → Int → Nat → Option Nat
  | 0, _, _, _ => none
  | fuel + 1, num, den, k =>
    if num * (pow10 k : Nat) % den == 0 then some k
    else fracLenCore fuel num den (k + 1)

/-- Drop trailing `'0'` characters. -/
def stripTrailZeros (ds : List Char) : List Char :=
  (ds.reverse.dropWhile (fun c => c == '0')).reverse

/-- For a positive `q`, the pair `(sds, n)` of the significant-digit characters
(no trailing zeros) and the decimal exponent with `q = 0.sds × 10^n`, provided
`q` has a terminating decimal expansion discoverable within the fuel bound. -/
def posDigits (q : Q) : Option (List Char × Int) :=
  match fracLenCore (q.den.natAbs + 1) q.num q.den 0 with
  | none => none
  | some k =>
    let M := ((q.num * (pow10 k : Nat)) / q.den).natAbs
    let ds := natChars M
    some (stripTrailZeros ds, (ds.length : Int) - (k : Int))

/-- Number of digit characters of `n`. -/
def intLen (n : Nat) : Nat := (natChars n).length

/-- For positive `q`, the decimal exponent `n` with `10^(n-1) ≤ q < 10^n`. -/
def decExpPos (q : Q) : Int :=
  let d : Int := (intLen q.num.natAbs : Int) - (intLen q.den.natAbs : Int)
  if q.blt (pow10Q d) then d else d + 1

/-- Significant digits of `q > 0` rounded to 17 significant decimal places
(ties toward +∞ on the magnitude): the fallback used for values that are not
exactly representable with at most 17 significant digits.  Such values do not
exist in JavaScript (every double prints with at most 17 significant digits);
they can only arise in this exact-rational model. -/
def round17 (q : Q) : List Char × Int :=
  let n := decExpPos q
  let m := (jsRound (q.mul (pow10Q (17 - n)))).toNat
  if m == pow10 17 then (['1'], n + 1)
  else (stripTrailZeros (natChars m), n)

/-- Significant digits and decimal exponent of `q > 0`:
exact when `q` has at most 17 significant decimal digits, else rounded. -/
def posDigits17 (q : Q) : List Char × Int :=
  match posDigits q with
  | some (sds, n) => if sds.length ≤ 17 then (sds, n) else round17 q
  | none => round17 q

/-- ECMAScript plain-decimal layout for the value `0.sds × 10^n`
(used when `-6 < n ≤ 21`). -/
def renderPosPlain (sds : List Char) (n : Int) : List Char :=
  if (sds.length : Int) ≤ n then sds ++ List.replicate (n - sds.length).toNat '0'
  else if 0 < n then sds.take n.toNat ++ '.' :: sds.drop n.toNat
  else '0' :: '.' :: (List.replicate (-n).toNat '0' ++ sds)

/-- Characters of a signed exponent as printed by `toString` exponential
notation (with explicit `+`). -/
def expChars (e : Int) : List Char :=
  if e < 0 then '-' :: natChars (-e).toNat else '+' :: natChars e.toNat

/-- ECMAScript exponential layout for the value `0.sds × 10^n`. -/
def renderPosExp (sds : List Char) (n : Int) : List Char :=
  (match sds with
   | [] => ['0']
   | [d] => [d]
   | d :: rest => d :: '.' :: rest) ++ 'e' :: expChars (n - 1)

/-- `Number.prototype.toString()` on this model (ECMAScript 6.1.6.1.20):
plain decimal for magnitudes in [1e-6, 1e21), exponential otherwise. -/
def jsToString (v : Q) : List Char :=
  if v.isZero then ['0']
  else
    let p := posDigits17 v.babs
    let body :=
      if -6 < p.2 ∧ p.2 ≤ 21 then renderPosPlain p.1 p.2 else renderPosExp p.1 p.2
    if v.num < 0 then '-' :: body else body

/-- `Number.prototype.toExponential(6)` (ECMAScript): seven significant
digits, ties on the magnitude rounded to the larger mantissa. -/
def toExp6 (v : Q) : List Char :=
  if v.isZero then ['0', '.', '0', '0', '0', '0', '0', '0', 'e', '+', '0']
  else
    let a := v.babs
    let e := decExpPos a - 1
    let m := (jsRound (a.mul (pow10Q (6 - e)))).toNat
    let me := if m == pow10 7 then (pow10 6, e + 1) else (m, e)
    let ds := natChars me.1
    let body := ds.take 1 ++ '.' :: ds.drop 1 ++ 'e' :: expChars me.2
    if v.num < 0 then '-' :: body else body

/-- `.replace(/\+/, '')`: drop the first `'+'`. -/
def replaceFirstPlus : List Char → List Char
  | [] => []
  | c :: rest => if c = '+' then rest else c :: replaceFirstPlus rest

/-! ## `formatNumber`, `parseDisplayValue`, `isNumericEntry` -/

/-- The divide-by-zero sentinel. -/
def sentinelDiv : String := "Cannot divide by zero"

/-- The invalid-input sentinel (negative square root). -/
def sentinelInvalid : String := "Invalid input"

/--
`formatNumber` from the source, with `none` standing for a non-finite
argument:

```js
const formatNumber = (value) => {
  if (!Number.isFinite(value)) return 'Cannot divide by zero';
  const absValue = Math.abs(value);
  if (absValue !== 0 && (absValue >= 1e12 || absValue < 1e-9))
    return value.toExponential(6).replace(/\+/, '');
  const [integerPart, decimalPart] = value.toString().split('.');
  const formattedInteger = parseInt(integerPart, 10).toLocaleString('en-US')
    .replace(/ /g, ',');
  if (!decimalPart) return formattedInteger;
  return `${formattedInteger}.${decimalPart}`;
};
```
-/
def formatNumber : Option Q → String
  | none => sentinelDiv
  | some value =>
    let a := value.babs
    if (!a.isZero) && ((pow10Q 12).ble a || a.blt (pow10Q (-9))) then
      ⟨replaceFirstPlus (toExp6 value)⟩
    else
      let segs := splitDot (jsToString value)
      let integerPart := segs.headD []
      let fi :=
        match jsParseIntLead integerPart with
        | none => ['N', 'a', 'N']
        | some i => intGrouped i
      match segs.drop 1 with
      | [] => ⟨fi⟩
      | [] :: _ => ⟨fi⟩
      | dp :: _ => ⟨fi ++ '.' :: dp⟩

/-- Split an optional `'.'`-led fraction off the rest of a numeric literal:
the fraction digits and the remainder. -/
def fracSplit : List Char → List Char × List Char
  | '.' :: r => (leadDigits r, r.drop (leadDigits r).length)
  | cs => ([], cs)

/-- The state of the little `Number(string)` parser after the significand:
exponent part of a JavaScript numeric literal, or `none` for `NaN`. -/
def parseExpPart (cs : List Char) : Option Int :=
  match cs with
  | [] => some 0
  | e :: rest =>
    if e == 'e' || e == 'E' then
      let p := signSplit rest
      let E := leadDigits p.2
      if E.isEmpty then none
      else if (p.2.drop E.length).isEmpty then
        some (if p.1 then -(charsVal E : Int) else (charsVal E : Int))
      else none
    else none

/-- `Number(string)` on the strings that occur as (comma-stripped) display
values: empty string is `0`; an optional sign, integer digits, optional
fraction, optional exponent; anything else (including the error sentinels,
which contain letters) is `NaN`, modelled as `none`.  `Number`'s whitespace
trimming and non-decimal literal forms (`"Infinity"`, hex, binary) never occur
here and are not modelled. -/
def jsNumber (cs : List Char) : Option Q :=
  if cs.isEmpty then some (Q.ofInt 0)
  else
    let sr := signSplit cs
    let I := leadDigits sr.2
    let cs2 := sr.2.drop I.length
    let fr := fracSplit cs2
    if I.isEmpty && fr.1.isEmpty then none
    else
      match parseExpPart fr.2 with
      | none => none
      | some e10 =>
        let base : Int := (charsVal I : Int) * (pow10 fr.1.length : Nat) + (charsVal fr.1 : Int)
        let signed : Int := if sr.1 then -base else base
        let mant : Q := Q.dec signed fr.1.length
        some (mant.mul (pow10Q e10))

/-- `parseDisplayValue` from the source:

```js
const parseDisplayValue = (displayValue) => {
  if (displayValue === 'Cannot divide by zero') return NaN;
  return Number(displayValue.replace(/,/g, ''));
};
```
-/
def parseDisplayValue (s : String) : Option Q :=
  if s = sentinelDiv then none
  else jsNumber (stripCommas s.data)

/-- The states of the scanner for the regex `^-?\d+(\.\d+)?$` used by
`isNumericEntry`. -/
inductive NState | n0 | nm | nint | ndot | nfrac | nrej
deriving DecidableEq

/-- One step of the `^-?\d+(\.\d+)?$` scanner. -/
def nStep : NState → Char → NState
  | .n0, c => if isDigitC c then .nint else if c == '-' then .nm else .nrej
  | .nm, c => if isDigitC c then .nint else .nrej
  | .nint, c => if isDigitC c then .nint else if c == '.' then .ndot else .nrej
  | .ndot, c => if isDigitC c then .nfrac else .nrej
  | .nfrac, c => if isDigitC c then .nfrac else .nrej
  | .nrej, _ => .nrej

/-- Run the `^-?\d+(\.\d+)?$` scanner. -/
def nScan (cs : List Char) : NState := cs.foldl nStep .n0

/-- `^-?\d+(\.\d+)?$.test(cs)`. -/
def numPat (cs : List Char) : Bool := nScan cs == .nint || nScan cs == .nfrac

/-- `isNumericEntry` from the source:

```js
const isNumericEntry = (value) => /^-?\d+(\.\d+)?$/.test(value.replace(/,/g, ''));
```
-/
def isNumericEntry (s : String) : Bool := numPat (stripCommas s.data)

/-! ## Calculator state and action handlers -/

/-- The four binary operators. -/
inductive Operator | add | sub | mul | div
deriving DecidableEq

/-- The memory-row actions `MC`, `MR`, `M+`, `M-`, `MS`, `Mv`. -/
inductive MemAction | mc | mr | mAdd | mSub | ms | mv
deriving DecidableEq

/-- A memory entry; the random/timestamp id of the source is modelled by a
natural number drawn from the session's fresh counter. -/
structure MemoryEntry where
  id : Nat
  value : Q

/-- The session state: the React `useState` cells of `HomeScreen` that the
calculator core reads or writes, plus the fresh-id counter modelling
`createMemoryEntry`'s id generation. -/
structure CalcState where
  displayValue : String
  waitingForOperand : Bool
  pendingOperator : Option Operator
  storedValue : Option Q
  memoryEntries : List MemoryEntry
  memoryExpanded : Bool
  nextId : Nat

/-- The initial state: display `"0"`, nothing pending, empty memory. -/
def initState : CalcState :=
  { displayValue := "0", waitingForOperand := false, pendingOperator := none
    storedValue := none, memoryEntries := [], memoryExpanded := false, nextId := 0 }

/-- `handleDigitPress` (the UI only wires the digit labels `'0'`–`'9'`). -/
def handleDigitPress (digit : String) (s : CalcState) : CalcState :=
  if !isNumericEntry s.displayValue || s.waitingForOperand then
    { s with displayValue := digit, waitingForOperand := false }
  else if s.displayValue = "0" then { s with displayValue := digit }
  else { s with displayValue := s.displayValue ++ digit }

/-- `handleDecimalPress`. -/
def handleDecimalPress (s : CalcState) : CalcState :=
  if !isNumericEntry s.displayValue then
    { s with displayValue := "0.", waitingForOperand := false }
  else if s.waitingForOperand then
    { s with displayValue := "0.", waitingForOperand := false }
  else if s.displayValue.data.contains '.' then s
  else { s with displayValue := s.displayValue ++ "." }

/-- `performOperation`; `none` is the non-finite result (`÷0` gives
`Infinity` in the source). -/
def performOperation (op : Operator) (left right : Q) : Option Q :=
  match op with
  | .add => some (left.add right)
  | .sub => some (left.sub right)
  | .mul => some (left.mul right)
  | .div => if right.isZero then none else some (left.div right)

/-- The rounded value committed by `commitValue`:
`Math.round((value + Number.EPSILON) * 1e12) / 1e12`. -/
def roundTo12 (value : Q) : Q :=
  Q.dec (jsRound ((value.add EPS).mul (pow10Q 12))) 12

/-- `commitValue`: non-finite values collapse to the divide-by-zero sentinel
and clear the operator chain; finite values are rounded to 12 decimal places
and formatted into the display. -/
def commitValue (v : Option Q) (s : CalcState) : CalcState :=
  match v with
  | none =>
    { s with displayValue := sentinelDiv, storedValue := none
             pendingOperator := none, waitingForOperand := false }
  | some value => { s with displayValue := formatNumber (some (roundTo12 value)) }

/-- `handleOperatorPress`. -/
def handleOperatorPress (op : Operator) (s : CalcState) : CalcState :=
  match parseDisplayValue s.displayValue with
  | none => s
  | some currentValue =>
    match s.storedValue, s.pendingOperator with
    | some sv, some p =>
      if !s.waitingForOperand then
        match performOperation p sv currentValue with
        | none => commitValue none s
        | some computed =>
          { s with storedValue := some computed
                   displayValue := formatNumber (some computed)
                   pendingOperator := some op, waitingForOperand := true }
      else { s with pendingOperator := some op, waitingForOperand := true }
    | _, _ =>
      { s with storedValue := some currentValue
               pendingOperator := some op, waitingForOperand := true }

/-- `handleEqualsPress`: commit the result, store it back when finite, and
always set `waitingForOperand` afterwards. -/
def handleEqualsPress (s : CalcState) : CalcState :=
  match s.pendingOperator, s.storedValue with
  | some p, some sv =>
    match parseDisplayValue s.displayValue with
    | none => s
    | some currentValue =>
      match performOperation p sv currentValue with
      | none => { commitValue none s with waitingForOperand := true }
      | some r =>
        { commitValue (some r) s with storedValue := some r, waitingForOperand := true }
  | _, _ => s

/-- `handlePercent`: commit the percentage and set `waitingForOperand`. -/
def handlePercent (s : CalcState) : CalcState :=
  match parseDisplayValue s.displayValue with
  | none => s
  | some currentValue =>
    match s.storedValue, s.pendingOperator with
    | some sv, some _ =>
      { commitValue (some ((sv.mul currentValue).div (Q.ofInt 100))) s with
        waitingForOperand := true }
    | _, _ =>
      { commitValue (some (currentValue.div (Q.ofInt 100))) s with
        waitingForOperand := true }

/-- Linear-search natural square root (structurally recursive, so concrete
values reduce in the kernel; only small values are ever evaluated). -/
def natSqrtCore : Nat → Nat → Nat → Nat
  | 0, _, r => r
  | fuel + 1, n, r => if (r + 1) * (r + 1) ≤ n then natSqrtCore fuel n (r + 1) else r

/-- `Math.sqrt` model: exact on (representation-level) perfect squares,
some finite value elsewhere (JavaScript returns the correctly rounded double;
every claim involving square roots depends only on finiteness). -/
def jsSqrt (q : Q) : Q :=
  ⟨(natSqrtCore (q.num * q.den).toNat (q.num * q.den).toNat 0 : Nat), q.den, q.dpos⟩

/-- The four unary commands `±`, `1/x`, `x²`, `√x`. -/
inductive UnaryCommand | negate | reciprocal | square | squareRoot
deriving DecidableEq

/-- `handleUnaryCommand`. -/
def handleUnaryCommand (command : UnaryCommand) (s : CalcState) : CalcState :=
  match parseDisplayValue s.displayValue with
  | none => s
  | some currentValue =>
    match command with
    | .negate => commitValue (some currentValue.neg) s
    | .reciprocal =>
      if currentValue.isZero then commitValue none s
      else commitValue (some ((Q.ofInt 1).div currentValue)) s
    | .square => commitValue (some (currentValue.mul currentValue)) s
    | .squareRoot =>
      if currentValue.blt (Q.ofInt 0) then
        { s with displayValue := sentinelInvalid, storedValue := none
                 pendingOperator := none, waitingForOperand := false }
      else commitValue (some (jsSqrt currentValue)) s

/-- `handleClearEntry`. -/
def handleClearEntry (s : CalcState) : CalcState :=
  { s with displayValue := "0", waitingForOperand := true }

/-- `handleClearAll`. -/
def handleClearAll (s : CalcState) : CalcState :=
  { s with displayValue := "0", storedValue := none
           pendingOperator := none, waitingForOperand := false }

/-- `handleBackspace` (`slice(0, -1)` is `dropLast`). -/
def handleBackspace (s : CalcState) : CalcState :=
  if !isNumericEntry s.displayValue then { s with displayValue := "0" }
  else if s.displayValue.length ≤ 1 then { s with displayValue := "0" }
  else
    let next : String := ⟨s.displayValue.data.dropLast⟩
    if next = "-" || next = "" then { s with displayValue := "0" }
    else { s with displayValue := next }

/-- The value `numericDisplay || 0` used by every memory action:
`parseDisplayValue(displayValue)` with both `NaN` and `0` itself coerced to
the literal `0`. -/
def memCurrent (s : CalcState) : Q :=
  match parseDisplayValue s.displayValue with
  | some q => if q.isZero then Q.ofInt 0 else q
  | none => Q.ofInt 0

/-- `handleMemoryAction`. -/
def handleMemoryAction (action : MemAction) (s : CalcState) : CalcState :=
  let numericDisplay : Q := memCurrent s
  match action with
  | .mc => { s with memoryEntries := [], memoryExpanded := false }
  | .mr =>
    match s.memoryEntries with
    | [] => s
    | e :: _ =>
      let s1 := commitValue (some e.value) s
      { s1 with waitingForOperand := true }
  | .mAdd =>
    match s.memoryEntries with
    | [] =>
      { s with memoryEntries := [⟨s.nextId, numericDisplay⟩], nextId := s.nextId + 1 }
    | first :: rest =>
      { s with memoryEntries := ⟨first.id, first.value.add numericDisplay⟩ :: rest }
  | .mSub =>
    match s.memoryEntries with
    | [] =>
      { s with memoryEntries := [⟨s.nextId, numericDisplay.neg⟩], nextId := s.nextId + 1 }
    | first :: rest =>
      { s with memoryEntries := ⟨first.id, first.value.sub numericDisplay⟩ :: rest }
  | .ms =>
    { s with memoryEntries := ⟨s.nextId, numericDisplay⟩ :: s.memoryEntries
             nextId := s.nextId + 1 }
  | .mv => { s with memoryExpanded := !s.memoryExpanded }

/-- The closed set of user actions dispatched by the screen
(`handleButtonPress`, `handleCommand`, and the memory row). -/
inductive CalcAction
  | digit (d : Fin 10)
  | decimal
  | op (o : Operator)
  | equals
  | percent
  | clearEntry
  | clearAll
  | backspace
  | unary (u : UnaryCommand)
  | memory (m : MemAction)

/-- The digit label for digit `d`. -/
def digitLabel (d : Fin 10) : String := ⟨[digitChar d.val]⟩

/-- The dispatcher: one user action applied to the session state. -/
def applyAction (a : CalcAction) (s : CalcState) : CalcState :=
  match a with
  | .digit d => handleDigitPress (digitLabel d) s
  | .decimal => handleDecimalPress s
  | .op o => handleOperatorPress o s
  | .equals => handleEqualsPress s
  | .percent => handlePercent s
  | .clearEntry => handleClearEntry s
  | .clearAll => handleClearAll s
  | .backspace => handleBackspace s
  | .unary u => handleUnaryCommand u s
  | .memory m => handleMemoryAction m s

/-- Run an action sequence from the initial state. -/
def runCalc (acts : List CalcAction) : CalcState :=
  acts.foldl (fun s a => applyAction a s) initState

/-! ## Decidable equality for states -/

instance : DecidableEq Q := fun a b =>
  decidable_of_iff (a.num = b.num ∧ a.den = b.den) (by cases a; cases b; simp)

instance : DecidableEq MemoryEntry := fun a b =>
  decidable_of_iff (a.id = b.id ∧ a.value = b.value) (by cases a; cases b; simp)

instance : DecidableEq CalcState := fun a b =>
  decidable_of_iff
    (a.displayValue = b.displayValue ∧ a.waitingForOperand = b.waitingForOperand ∧
      a.pendingOperator = b.pendingOperator ∧ a.storedValue = b.storedValue ∧
      a.memoryEntries = b.memoryEntries ∧ a.memoryExpanded = b.memoryExpanded ∧
      a.nextId = b.nextId)
    (by cases a; cases b; simp)

/-! ## Claim C1: the standard chain and repeated Equals -/

/-- Claim C1, counterexample.  After `Digit(2), Operator(+), Digit(3), Equals`
the display is `"5"`, but pressing `Equals` a second time displays `"10"`,
not `"8"` as the claim states: `handleEqualsPress` re-applies the pending
operator to the stored result and the parsed display (which is also the
result), not to the previous right operand. -/
theorem claim_C1_counterexample :
    (runCalc [.digit 2, .op .add, .digit 3, .equals, .equals]).displayValue = "10"
    ∧ (runCalc [.digit 2, .op .add, .digit 3, .equals, .equals]).displayValue ≠ "8" := by
  constructor
  · decide
  · decide

/-- Claim C1, amended.  `Digit(2), Operator(+), Digit(3), Equals` displays
`"5"`; after that press the stored operand is the result `5` and the `+`
operator is still pending, so a second `Equals` computes `5 + 5` and displays
`"10"` (repeated `Equals` re-applies the pending operator with the stored
result as left operand and the displayed result as right operand). -/
theorem claim_C1 :
    (runCalc [.digit 2, .op .add, .digit 3, .equals]).displayValue = "5"
    ∧ (runCalc [.digit 2, .op .add, .digit 3, .equals]).storedValue = some (Q.ofInt 5)
    ∧ (runCalc [.digit 2, .op .add, .digit 3, .equals]).pendingOperator = some .add
    ∧ (runCalc [.digit 2, .op .add, .digit 3, .equals, .equals]).displayValue = "10" := by
  refine ⟨by decide, by decide, by decide, by decide⟩

/-! ## Claim C3: divide-by-zero error state and recovery -/

/-- Claim C3, confirmed.  `Digit(5), Operator(÷), Digit(0), Equals` yields the
entry `"Cannot divide by zero"` with the stored operand and pending operator
cleared; in that state `Operator(+)`, `Equals`, `Percent` and each of the four
unary commands leave the state unchanged, and a subsequent `Digit(1)` displays
`"1"` with the error cleared (a fresh numeric entry, not awaiting an
operand). -/
theorem claim_C3 :
    (runCalc [.digit 5, .op .div, .digit 0, .equals]).displayValue = sentinelDiv
    ∧ (runCalc [.digit 5, .op .div, .digit 0, .equals]).storedValue = none
    ∧ (runCalc [.digit 5, .op .div, .digit 0, .equals]).pendingOperator = none
    ∧ applyAction (.op .add) (runCalc [.digit 5, .op .div, .digit 0, .equals])
        = runCalc [.digit 5, .op .div, .digit 0, .equals]
    ∧ applyAction .equals (runCalc [.digit 5, .op .div, .digit 0, .equals])
        = runCalc [.digit 5, .op .div, .digit 0, .equals]
    ∧ applyAction .percent (runCalc [.digit 5, .op .div, .digit 0, .equals])
        = runCalc [.digit 5, .op .div, .digit 0, .equals]
    ∧ applyAction (.unary .negate) (runCalc [.digit 5, .op .div, .digit 0, .equals])
        = runCalc [.digit 5, .op .div, .digit 0, .equals]
    ∧ applyAction (.unary .reciprocal) (runCalc [.digit 5, .op .div, .digit 0, .equals])
        = runCalc [.digit 5, .op .div, .digit 0, .equals]
    ∧ applyAction (.unary .square) (runCalc [.digit 5, .op .div, .digit 0, .equals])
        = runCalc [.digit 5, .op .div, .digit 0, .equals]
    ∧ applyAction (.unary .squareRoot) (runCalc [.digit 5, .op .div, .digit 0, .equals])
        = runCalc [.digit 5, .op .div, .digit 0, .equals]
    ∧ (runCalc [.digit 5, .op .div, .digit 0, .equals, .op .add, .digit 1]).displayValue = "1"
    ∧ (runCalc [.digit 5, .op .div, .digit 0, .equals, .op .add, .digit 1]).waitingForOperand
        = false
    ∧ isNumericEntry
        (runCalc [.digit 5, .op .div, .digit 0, .equals, .op .add, .digit 1]).displayValue
        = true := by
  refine ⟨by decide, by decide, by decide, by decide, by decide, by decide, by decide,
    by decide, by decide, by decide, by decide, by decide, by decide⟩

/-! ## Claim C5: operator pressed while awaiting an operand -/

/-- Claim C5, confirmed.  Pressing an operator while `waitingForOperand` is
set with a pending operator and stored operand present only replaces the
pending operator (display and stored operand untouched, no recomputation);
and `Digit(5), Operator(+), Operator(×), Digit(3), Equals` displays `"15"`. -/
theorem claim_C5 (s : CalcState) (o p : Operator) (sv cv : Q)
    (hw : s.waitingForOperand = true)
    (hp : s.pendingOperator = some p)
    (hs : s.storedValue = some sv)
    (hc : parseDisplayValue s.displayValue = some cv) :
    applyAction (.op o) s = { s with pendingOperator := some o, waitingForOperand := true }
    ∧ (runCalc [.digit 5, .op .add, .op .mul, .digit 3, .equals]).displayValue = "15" := by
  constructor
  · simp [applyAction, handleOperatorPress, hc, hp, hs, hw]
  · decide

/-- Witness for claim C5 at the state reached by `Digit(5), Operator(+)`. -/
theorem claim_C5_witness :
    applyAction (.op .mul) (runCalc [.digit 5, .op .add])
      = { runCalc [.digit 5, .op .add] with
          pendingOperator := some Operator.mul, waitingForOperand := true }
    ∧ (runCalc [.digit 5, .op .add, .op .mul, .digit 3, .equals]).displayValue = "15" :=
  claim_C5 (runCalc [.digit 5, .op .add]) .mul .add (Q.ofInt 5) (Q.ofInt 5)
    (by decide) (by decide) (by decide) (by decide)

/-! ## Claim C6: percent semantics -/

/-- Claim C6, confirmed.  With a finite parsed display value, `Percent`
commits `storedOperand * currentValue / 100` when a stored operand and a
pending operator are both present, and `currentValue / 100` otherwise, then
sets `waitingForOperand`; `Digit(2), Digit(0), Digit(0), Operator(+),
Digit(1), Digit(0), Percent` displays `"20"` and a following `Equals`
displays `"220"`. -/
theorem claim_C6 (s : CalcState) (cv sv : Q) (p : Operator)
    (hc : parseDisplayValue s.displayValue = some cv) :
    (s.storedValue = some sv → s.pendingOperator = some p →
      applyAction .percent s
        = { s with
            displayValue := formatNumber (some (roundTo12 ((sv.mul cv).div (Q.ofInt 100))))
            waitingForOperand := true })
    ∧ (s.storedValue = none ∨ s.pendingOperator = none →
      applyAction .percent s
        = { s with
            displayValue := formatNumber (some (roundTo12 (cv.div (Q.ofInt 100))))
            waitingForOperand := true })
    ∧ (runCalc [.digit 2, .digit 0, .digit 0, .op .add,
                .digit 1, .digit 0, .percent]).displayValue = "20"
    ∧ (runCalc [.digit 2, .digit 0, .digit 0, .op .add,
                .digit 1, .digit 0, .percent, .equals]).displayValue = "220" := by
  refine ⟨?_, ?_, by decide, by decide⟩
  · intro hs hp
    simp [applyAction, handlePercent, hc, hs, hp, commitValue]
  · intro h
    rcases h with h | h
    · cases hp : s.pendingOperator with
      | none => simp [applyAction, handlePercent, hc, h, hp, commitValue]
      | some p' => simp [applyAction, handlePercent, hc, h, hp, commitValue]
    · cases hs : s.storedValue with
      | none => simp [applyAction, handlePercent, hc, h, hs, commitValue]
      | some sv' => simp [applyAction, handlePercent, hc, h, hs, commitValue]

/-- Witness for claim C6 at the state reached by
`Digit(2), Digit(0), Digit(0), Operator(+), Digit(1), Digit(0)`. -/
theorem claim_C6_witness :
    applyAction .percent
        (runCalc [.digit 2, .digit 0, .digit 0, .op .add, .digit 1, .digit 0])
      = { runCalc [.digit 2, .digit 0, .digit 0, .op .add, .digit 1, .digit 0] with
          displayValue :=
            formatNumber (some (roundTo12
              (((Q.ofInt 200).mul (Q.ofInt 10)).div (Q.ofInt 100))))
          waitingForOperand := true }
    ∧ (runCalc [.digit 2, .digit 0, .digit 0, .op .add,
                .digit 1, .digit 0, .percent]).displayValue = "20"
    ∧ (runCalc [.digit 2, .digit 0, .digit 0, .op .add,
                .digit 1, .digit 0, .percent, .equals]).displayValue = "220" :=
  have h := claim_C6
    (runCalc [.digit 2, .digit 0, .digit 0, .op .add, .digit 1, .digit 0])
    (Q.ofInt 10) (Q.ofInt 200) .add (by decide)
  ⟨h.1 (by decide) (by decide), h.2.2.1, h.2.2.2⟩

/-! ## Claim C2: the commit rounding policy -/

/-- Rounding half away from zero, as the claim words the tie-break
(defined from the claim, for comparison against the code's `Math.round`). -/
def specRoundAway (a : Q) : Int :=
  if a.blt (Q.ofInt 0) then -(jsRound a.babs) else jsRound a.babs

/-- Claim C2, counterexample.  At the finite value
`v = -10 + 5e-13 - Number.EPSILON` the scaled value `(v + EPSILON) * 1e12` is
the exact tie `-9999999999999.5`; the code's `Math.round` (ties toward `+∞`)
commits `"-9.999999999999"` while the claimed round-half-away-from-zero
policy would commit `"-10"`.  Moreover the claimed key sequence
`Digit(0), Decimal, Digit(1), Operator(+), Digit(0), Decimal, Digit(2),
Equals` displays `"3"`, not `"0.3"`: a digit pressed while the entry is
`"0."` fails `isNumericEntry` (the regex requires a digit after the point),
so `handleDigitPress` replaces the entry instead of appending. -/
theorem claim_C2_counterexample :
    (commitValue (some (((Q.ofInt (-10)).add (Q.dec 5 13)).sub EPS)) initState).displayValue
        = "-9.999999999999"
    ∧ formatNumber (some (Q.dec (specRoundAway
          ((((((Q.ofInt (-10)).add (Q.dec 5 13)).sub EPS)).add EPS).mul (pow10Q 12))) 12))
        = "-10"
    ∧ (commitValue (some (((Q.ofInt (-10)).add (Q.dec 5 13)).sub EPS)) initState).displayValue
        ≠ formatNumber (some (Q.dec (specRoundAway
            ((((((Q.ofInt (-10)).add (Q.dec 5 13)).sub EPS)).add EPS).mul (pow10Q 12))) 12))
    ∧ (runCalc [.digit 0, .decimal, .digit 1, .op .add,
                .digit 0, .decimal, .digit 2, .equals]).displayValue = "3"
    ∧ (runCalc [.digit 0, .decimal, .digit 1, .op .add,
                .digit 0, .decimal, .digit 2, .equals]).displayValue ≠ "0.3" := by
  refine ⟨by decide, by decide, by decide, by decide, by decide⟩

/-- Claim C2, amended.  For every finite `v`, `commitValue` commits the
formatted result of `round((v + EPSILON) * 1e12) / 1e12`, where the rounding
of the scaled value breaks ties toward `+∞` (`⌊x + 1/2⌋`: away from zero for
positive scaled values, toward zero for negative ones — not away from zero
for both signs).  The key sequence `Digit(0), Decimal, Digit(1), Operator(+),
Digit(0), Decimal, Digit(2), Equals` displays `"3"`, not `"0.3"`, because a
digit pressed on the entry `"0."` starts a fresh entry (see the
counterexample), so the additions actually performed are `1 + 2`. -/
theorem claim_C2 (v : Q) (s : CalcState) (k : Int) :
    (commitValue (some v) s).displayValue
        = formatNumber (some (Q.dec (jsRound ((v.add EPS).mul (pow10Q 12))) 12))
    ∧ jsRound ⟨2 * k + 1, 2, by norm_num⟩ = k + 1
    ∧ (runCalc [.digit 0, .decimal, .digit 1, .op .add,
                .digit 0, .decimal, .digit 2, .equals]).displayValue = "3" := by
  refine ⟨rfl, ?_, by decide⟩
  show ((Q.mk (2 * k + 1) 2 (by norm_num)).add Q.half).floor = k + 1
  have h4 : ((Q.mk (2 * k + 1) 2 (by norm_num)).add Q.half).num = 4 * (k + 1) := by
    show (2 * k + 1) * 2 + 1 * 2 = 4 * (k + 1)
    ring
  have hd : ((Q.mk (2 * k + 1) 2 (by norm_num)).add Q.half).den = 4 := rfl
  rw [Q.floor, h4, hd]
  exact Int.mul_fdiv_cancel_left (k + 1) (by norm_num)

/-- Witness for claim C2 at `v = 1`, the initial state, and `k = -3`
(so `jsRound (-5/2) = -2`: a negative half-tie rounds toward `+∞`). -/
theorem claim_C2_witness :
    (commitValue (some (Q.ofInt 1)) initState).displayValue
        = formatNumber (some (Q.dec (jsRound (((Q.ofInt 1).add EPS).mul (pow10Q 12))) 12))
    ∧ jsRound ⟨2 * (-3 : Int) + 1, 2, by norm_num⟩ = -3 + 1
    ∧ (runCalc [.digit 0, .decimal, .digit 1, .op .add,
                .digit 0, .decimal, .digit 2, .equals]).displayValue = "3" :=
  claim_C2 (Q.ofInt 1) initState (-3)

/-! ## Claim C8: memory bank add and store -/

/-- Claim C8, confirmed.  `M+` on an empty bank creates exactly one entry
holding the current value (tagged with the session's fresh id); on a
non-empty bank it mutates only the head entry's value, preserving its id and
the rest of the bank (so the length is unchanged).  `MS` always prepends a
brand-new head entry holding the current value (its id is fresh, hence
distinct from every existing entry's id whenever ids are below the
counter, as they always are for reachable states), and `MR` directly after
`MS` commits that new head's value into the display. -/
theorem claim_C8 (s : CalcState) (e : MemoryEntry) (rest : List MemoryEntry) :
    (s.memoryEntries = [] →
      (applyAction (.memory .mAdd) s).memoryEntries = [⟨s.nextId, memCurrent s⟩]
      ∧ (applyAction (.memory .mAdd) s).memoryEntries.length = 1)
    ∧ (s.memoryEntries = e :: rest →
      (applyAction (.memory .mAdd) s).memoryEntries
        = ⟨e.id, e.value.add (memCurrent s)⟩ :: rest
      ∧ (applyAction (.memory .mAdd) s).memoryEntries.length = s.memoryEntries.length)
    ∧ (applyAction (.memory .ms) s).memoryEntries
        = ⟨s.nextId, memCurrent s⟩ :: s.memoryEntries
    ∧ (applyAction (.memory .ms) s).memoryEntries.length = s.memoryEntries.length + 1
    ∧ ((∀ e' ∈ s.memoryEntries, e'.id < s.nextId) →
        ∀ e' ∈ s.memoryEntries, e'.id ≠ s.nextId)
    ∧ (applyAction (.memory .mr) (applyAction (.memory .ms) s)).displayValue
        = formatNumber (some (roundTo12 (memCurrent s))) := by
  refine ⟨?_, ?_, ?_, ?_, ?_, ?_⟩
  · intro h
    constructor
    · simp [applyAction, handleMemoryAction, h]
    · simp [applyAction, handleMemoryAction, h]
  · intro h
    constructor
    · simp [applyAction, handleMemoryAction, h]
    · simp [applyAction, handleMemoryAction, h]
  · simp [applyAction, handleMemoryAction]
  · simp [applyAction, handleMemoryAction]
  · intro h e' he'
    exact Nat.ne_of_lt (h e' he')
  · simp [applyAction, handleMemoryAction, commitValue]

/-- Witness for claim C8 at the initial state and at the one-entry bank
reached by `Digit(7), M+`. -/
theorem claim_C8_witness :
    (applyAction (.memory .mAdd) initState).memoryEntries = [⟨0, memCurrent initState⟩]
    ∧ (applyAction (.memory .mAdd) (runCalc [.digit 7, .memory .mAdd])).memoryEntries
        = ⟨0, (Q.ofInt 7).add (memCurrent (runCalc [.digit 7, .memory .mAdd]))⟩ :: []
    ∧ (applyAction (.memory .ms) (runCalc [.digit 7, .memory .mAdd])).memoryEntries
        = ⟨1, memCurrent (runCalc [.digit 7, .memory .mAdd])⟩
            :: (runCalc [.digit 7, .memory .mAdd]).memoryEntries
    ∧ (applyAction (.memory .mr)
        (applyAction (.memory .ms) (runCalc [.digit 7, .memory .mAdd]))).displayValue
        = formatNumber (some (roundTo12 (memCurrent (runCalc [.digit 7, .memory .mAdd])))) :=
  ⟨((claim_C8 initState ⟨0, Q.ofInt 0⟩ []).1 (by decide)).1,
   ((claim_C8 (runCalc [.digit 7, .memory .mAdd]) ⟨0, Q.ofInt 7⟩ []).2.1 (by decide)).1,
   (claim_C8 (runCalc [.digit 7, .memory .mAdd]) ⟨0, Q.ofInt 7⟩ []).2.2.1,
   (claim_C8 (runCalc [.digit 7, .memory .mAdd]) ⟨0, Q.ofInt 7⟩ []).2.2.2.2.2⟩

/-! ## Claim C10: unary commands as pure display updates -/

/-- Claim C10, counterexample.  At the state reached by `Digit(9),
Operator(+)` (where `waitingForOperand` is already set), `SquareRoot` indeed
changes only the entry (to `"3"`), leaving `waitingForOperand`,
`storedOperand`, `pendingOperator` and the memory bank unchanged — but the
digit `5` pressed immediately afterwards starts a fresh entry `"5"` instead
of appending to give `"35"`, because the unary command does not *clear* an
already-set `waitingForOperand`.  This refutes the claim's consequence that
a digit after a unary action always appends to the committed result. -/
theorem claim_C10_counterexample :
    (applyAction (.unary .squareRoot) (runCalc [.digit 9, .op .add])).waitingForOperand
        = (runCalc [.digit 9, .op .add]).waitingForOperand
    ∧ (applyAction (.unary .squareRoot) (runCalc [.digit 9, .op .add])).storedValue
        = (runCalc [.digit 9, .op .add]).storedValue
    ∧ (applyAction (.unary .squareRoot) (runCalc [.digit 9, .op .add])).pendingOperator
        = (runCalc [.digit 9, .op .add]).pendingOperator
    ∧ (applyAction (.unary .squareRoot) (runCalc [.digit 9, .op .add])).memoryEntries
        = (runCalc [.digit 9, .op .add]).memoryEntries
    ∧ (applyAction (.unary .squareRoot) (runCalc [.digit 9, .op .add])).displayValue = "3"
    ∧ (applyAction (.digit 5)
        (applyAction (.unary .squareRoot) (runCalc [.digit 9, .op .add]))).displayValue
        ≠ (applyAction (.unary .squareRoot) (runCalc [.digit 9, .op .add])).displayValue
            ++ digitLabel 5 := by
  refine ⟨by decide, by decide, by decide, by decide, by decide, by decide⟩

/-- Claim C10, amended.  For every state whose entry parses to a finite
value, `Negate`, `Square`, `Reciprocal` (of a nonzero value) and `SquareRoot`
(of a non-negative value) change only the entry: `waitingForOperand`,
`storedOperand`, `pendingOperator` and the memory bank are all left exactly
as they were (in particular the unary action never *sets*
`awaitingOperand`).  A digit pressed immediately afterwards appends to the
committed result provided `waitingForOperand` was (and hence still is) false
and the committed display is a plain numeric entry other than `"0"` — for
exponential-notation results or an already-set `waitingForOperand` the digit
starts a fresh entry instead. -/
theorem claim_C10 (s : CalcState) (cv : Q) (d : Fin 10)
    (hc : parseDisplayValue s.displayValue = some cv) :
    applyAction (.unary .negate) s
        = { s with displayValue := formatNumber (some (roundTo12 cv.neg)) }
    ∧ (cv.isZero = false →
        applyAction (.unary .reciprocal) s
          = { s with displayValue := formatNumber (some (roundTo12 ((Q.ofInt 1).div cv))) })
    ∧ applyAction (.unary .square) s
        = { s with displayValue := formatNumber (some (roundTo12 (cv.mul cv))) }
    ∧ (cv.blt (Q.ofInt 0) = false →
        applyAction (.unary .squareRoot) s
          = { s with displayValue := formatNumber (some (roundTo12 (jsSqrt cv))) })
    ∧ (∀ s' : CalcState, s'.waitingForOperand = false →
        isNumericEntry s'.displayValue = true → s'.displayValue ≠ "0" →
        applyAction (.digit d) s'
          = { s' with displayValue := s'.displayValue ++ digitLabel d }) := by
  refine ⟨?_, ?_, ?_, ?_, ?_⟩
  · simp [applyAction, handleUnaryCommand, hc, commitValue]
  · intro hz
    simp [applyAction, handleUnaryCommand, hc, hz, commitValue]
  · simp [applyAction, handleUnaryCommand, hc, commitValue]
  · intro hlt
    simp [applyAction, handleUnaryCommand, hc, hlt, commitValue]
  · intro s' hw hn hne
    simp [applyAction, handleDigitPress, hw, hn, hne]

/-- Witness for claim C10 at the state reached by `Digit(4)` (for the unary
equations) and the state reached by `Digit(1), Digit(2)` (for the
digit-append consequence). -/
theorem claim_C10_witness :
    applyAction (.unary .negate) (runCalc [.digit 4])
        = { runCalc [.digit 4] with
            displayValue := formatNumber (some (roundTo12 (Q.ofInt 4).neg)) }
    ∧ applyAction (.unary .reciprocal) (runCalc [.digit 4])
        = { runCalc [.digit 4] with
            displayValue := formatNumber (some (roundTo12 ((Q.ofInt 1).div (Q.ofInt 4)))) }
    ∧ applyAction (.unary .square) (runCalc [.digit 4])
        = { runCalc [.digit 4] with
            displayValue :=
              formatNumber (some (roundTo12 ((Q.ofInt 4).mul (Q.ofInt 4)))) }
    ∧ applyAction (.unary .squareRoot) (runCalc [.digit 4])
        = { runCalc [.digit 4] with
            displayValue := formatNumber (some (roundTo12 (jsSqrt (Q.ofInt 4)))) }
    ∧ applyAction (.digit 3) (runCalc [.digit 1, .digit 2])
        = { runCalc [.digit 1, .digit 2] with
            displayValue := (runCalc [.digit 1, .digit 2]).displayValue ++ digitLabel 3 } :=
  have h := claim_C10 (runCalc [.digit 4]) (Q.ofInt 4) 3 (by decide)
  ⟨h.1, h.2.1 (by decide), h.2.2.1, h.2.2.2.1 (by decide),
   h.2.2.2.2 (runCalc [.digit 1, .digit 2]) (by decide) (by decide) (by decide)⟩

/-! ## Claim C4: the shape of reachable display strings -/

/-- The states of a scanner for the display-entry shape
`-? (digit | ',')+ ('.' digit*)?`: an optional minus sign, a nonempty run of
digits and commas, and optionally a decimal point followed by digits. -/
inductive EState | start | afterMinus | body | fracDot | frac | rej
deriving DecidableEq

/-- One step of the entry-shape scanner. -/
def eStep : EState → Char → EState
  | .start, c => if isDigitC c || c == ',' then .body
                 else if c == '-' then .afterMinus else .rej
  | .afterMinus, c => if isDigitC c || c == ',' then .body else .rej
  | .body, c => if isDigitC c || c == ',' then .body
                else if c == '.' then .fracDot else .rej
  | .fracDot, c => if isDigitC c then .frac else .rej
  | .frac, c => if isDigitC c then .frac else .rej
  | .rej, _ => .rej

/-- Run the entry-shape scanner from a given state. -/
def eScanFrom (e : EState) (cs : List Char) : EState := cs.foldl eStep e

/-- Does `cs` have the display-entry shape? -/
def entryPat (cs : List Char) : Bool :=
  eScanFrom .start cs == .body || eScanFrom .start cs == .fracDot
    || eScanFrom .start cs == .frac

/-- Run the `^-?\d+(\.\d+)?$` scanner from a given state. -/
def nScanFrom (n : NState) (cs : List Char) : NState := cs.foldl nStep n

theorem nScanFrom_eq (cs : List Char) : nScanFrom .n0 cs = nScan cs := rfl

theorem eScanFrom_append (e : EState) (l r : List Char) :
    eScanFrom e (l ++ r) = eScanFrom (eScanFrom e l) r := List.foldl_append ..

theorem nScanFrom_append (n : NState) (l r : List Char) :
    nScanFrom n (l ++ r) = nScanFrom (nScanFrom n l) r := List.foldl_append ..

theorem eStep_ne_start (e : EState) (c : Char) : eStep e c ≠ .start := by
  cases e <;> simp only [eStep] <;> (try split_ifs) <;> simp

theorem eStep_eq_afterMinus {e : EState} {c : Char} (h : eStep e c = .afterMinus) :
    e = .start ∧ c = '-' := by
  cases e <;> simp only [eStep] at h <;> (try split_ifs at h) <;> simp_all

theorem eScanFrom_start_eq_start {cs : List Char}
    (h : eScanFrom .start cs = .start) : cs = [] := by
  induction cs using List.reverseRecOn with
  | nil => rfl
  | append_singleton l c _ =>
    rw [eScanFrom_append] at h
    exact absurd h (eStep_ne_start _ _)

theorem eScanFrom_start_eq_afterMinus {cs : List Char}
    (h : eScanFrom .start cs = .afterMinus) : cs = ['-'] := by
  induction cs using List.reverseRecOn with
  | nil => simp [eScanFrom] at h
  | append_singleton l c _ =>
    rw [eScanFrom_append] at h
    obtain ⟨hl, hc⟩ := eStep_eq_afterMinus h
    rw [eScanFrom_start_eq_start hl, hc]
    rfl

/-- The simulation relation between the entry-shape scanner state on a string
and the `isNumericEntry` scanner state on the comma-stripped string. -/
def rel : EState → NState → Bool
  | .start, .n0 => true
  | .afterMinus, .nm => true
  | .body, .n0 => true
  | .body, .nm => true
  | .body, .nint => true
  | .fracDot, .ndot => true
  | .fracDot, .nrej => true
  | .frac, .nfrac => true
  | .frac, .nrej => true
  | .rej, _ => true
  | _, _ => false

theorem isDigitC_comma : isDigitC ',' = false := by decide

theorem isDigitC_minus : isDigitC '-' = false := by decide

theorem isDigitC_dot : isDigitC '.' = false := by decide

theorem rel_step (e : EState) (n : NState) (c : Char) (h : rel e n = true) :
    rel (eStep e c) (if c == ',' then n else nStep n c) = true := by
  by_cases hc : c == ','
  · have hc' : c = ',' := eq_of_beq hc
    subst hc'
    cases e <;> cases n <;> simp [rel, eStep, isDigitC_comma] at h ⊢
  · by_cases hd : isDigitC c = true
    · cases e <;> cases n <;> simp_all [rel, eStep, nStep, hc, hd]
    · by_cases hm : c == '-'
      · have hm' : c = '-' := eq_of_beq hm
        subst hm'
        cases e <;> cases n <;> simp_all [rel, eStep, nStep]
      · by_cases hp : c == '.'
        · have hp' : c = '.' := eq_of_beq hp
          subst hp'
          cases e <;> cases n <;> simp_all [rel, eStep, nStep]
        · cases e <;> cases n <;> simp_all [rel, eStep, nStep, hc, hd, hm, hp]

theorem stripCommas_cons (c : Char) (cs : List Char) :
    stripCommas (c :: cs) = if c = ',' then stripCommas cs else c :: stripCommas cs := by
  by_cases hc : c = ','
  · subst hc; simp [stripCommas]
  · simp [stripCommas, List.filter_cons, hc]

theorem rel_scan (cs : List Char) (e : EState) (n : NState) (h : rel e n = true) :
    rel (eScanFrom e cs) (nScanFrom n (stripCommas cs)) = true := by
  induction cs generalizing e n with
  | nil => exact h
  | cons c cs ih =>
    have hstep := rel_step e n c h
    have h2 : eScanFrom e (c :: cs) = eScanFrom (eStep e c) cs := rfl
    rw [stripCommas_cons, h2]
    by_cases hc : c = ','
    · rw [if_pos hc]
      rw [if_pos (by simp [hc] : (c == ',') = true)] at hstep
      exact ih _ _ hstep
    · rw [if_neg hc]
      have h3 : nScanFrom n (c :: stripCommas cs) = nScanFrom (nStep n c) (stripCommas cs) := rfl
      rw [h3]
      rw [if_neg (by simp [hc] : ¬(c == ',') = true)] at hstep
      exact ih _ _ hstep

/-- On a string that passes both the entry-shape test and `isNumericEntry`,
the entry scanner ends in `body` or `frac` (never on a trailing dot). -/
theorem eScan_body_or_frac {cs : List Char}
    (he : entryPat cs = true) (hn : numPat (stripCommas cs) = true) :
    eScanFrom .start cs = .body ∨ eScanFrom .start cs = .frac := by
  have h := rel_scan cs .start .n0 rfl
  rw [nScanFrom_eq] at h
  rw [entryPat] at he
  rw [numPat] at hn
  cases hes : eScanFrom EState.start cs <;> rw [hes] at he h <;>
    cases hns : nScan (stripCommas cs) <;> rw [hns] at hn h <;>
      simp_all [rel]

theorem eStep_eq_fracDot {e : EState} {c : Char} (h : eStep e c = .fracDot) : c = '.' := by
  cases e <;> simp only [eStep] at h <;> (try split_ifs at h) <;> simp_all

theorem eStep_eq_frac {e : EState} {c : Char} (h : eStep e c = .frac) :
    e = .fracDot ∨ e = .frac := by
  cases e <;> simp only [eStep] at h <;> (try split_ifs at h) <;> simp_all

theorem eScan_no_dot_aux (cs : List Char) (e : EState) (h : '.' ∉ cs)
    (he : e ≠ .fracDot ∧ e ≠ .frac) :
    eScanFrom e cs ≠ .fracDot ∧ eScanFrom e cs ≠ .frac := by
  induction cs generalizing e with
  | nil => exact he
  | cons c cs ih =>
    have hc : c ≠ '.' := fun hcc => h (by simp [hcc])
    have h' : '.' ∉ cs := fun hm => h (List.mem_cons_of_mem _ hm)
    refine ih (eStep e c) h' ⟨?_, ?_⟩
    · intro hx; exact hc (eStep_eq_fracDot hx)
    · intro hx
      rcases eStep_eq_frac hx with hx' | hx'
      · exact he.1 hx'
      · exact he.2 hx'

/-- A string with no `'.'` cannot leave the entry scanner in a
fraction state. -/
theorem eScan_no_dot {cs : List Char} (h : '.' ∉ cs) :
    eScanFrom .start cs ≠ .fracDot ∧ eScanFrom .start cs ≠ .frac :=
  eScan_no_dot_aux cs .start h (by constructor <;> intro hx <;> cases hx)

/-! ### Rejection lemmas for the `isNumericEntry` scanner -/

theorem nScanFrom_rej (cs : List Char) : nScanFrom .nrej cs = .nrej := by
  induction cs with
  | nil => rfl
  | cons c cs ih => exact ih

theorem nStep_bad_all {c : Char} (h1 : isDigitC c = false) (h2 : c ≠ '.') (h3 : c ≠ '-') :
    ∀ st, nStep st c = .nrej := by
  intro st
  cases st <;> simp [nStep, h1, h2, h3]

theorem nStep_ne_n0 (st : NState) (c : Char) : nStep st c ≠ .n0 := by
  cases st <;> simp only [nStep] <;> (try split_ifs) <;> simp

theorem nScanFrom_cons (n : NState) (c : Char) (cs : List Char) :
    nScanFrom n (c :: cs) = nScanFrom (nStep n c) cs := rfl

theorem nScanFrom_ne_n0 {cs : List Char} (h : cs ≠ []) (n : NState) :
    nScanFrom n cs ≠ .n0 := by
  induction cs generalizing n with
  | nil => exact absurd rfl h
  | cons c cs ih =>
    rw [nScanFrom_cons]
    rcases cs with _ | ⟨c', cs'⟩
    · exact nStep_ne_n0 n c
    · exact ih (by simp) _

theorem nStep_bad_tail {c : Char} (h1 : isDigitC c = false) (h2 : c ≠ '.') :
    ∀ st, st ≠ .n0 → nStep st c = .nrej := by
  intro st hst
  cases st <;> simp_all [nStep, h1, h2]

theorem numPat_false_of_rej {cs : List Char} (h : nScan cs = .nrej) : numPat cs = false := by
  simp [numPat, nScanFrom_eq, h]

/-- A non-digit character other than `'.'` or `'-'` anywhere in the string
makes `numPat` fail. -/
theorem numPat_false_of_bad_all {l r : List Char} {c : Char}
    (h1 : isDigitC c = false) (h2 : c ≠ '.') (h3 : c ≠ '-') :
    numPat (l ++ c :: r) = false := by
  apply numPat_false_of_rej
  show nScanFrom .n0 (l ++ c :: r) = .nrej
  rw [nScanFrom_append, nScanFrom_cons, nStep_bad_all h1 h2 h3, nScanFrom_rej]

/-- A non-digit character other than `'.'` after a nonempty prefix makes
`numPat` fail (this version also covers `'-'`). -/
theorem numPat_false_of_bad_tail {l r : List Char} {c : Char} (hl : l ≠ [])
    (h1 : isDigitC c = false) (h2 : c ≠ '.') :
    numPat (l ++ c :: r) = false := by
  apply numPat_false_of_rej
  show nScanFrom .n0 (l ++ c :: r) = .nrej
  rw [nScanFrom_append, nScanFrom_cons,
    nStep_bad_tail h1 h2 _ (nScanFrom_ne_n0 hl _), nScanFrom_rej]

theorem stripCommas_append (l r : List Char) :
    stripCommas (l ++ r) = stripCommas l ++ stripCommas r := List.filter_append ..

theorem stripCommas_cons_of_ne {c : Char} (cs : List Char) (h : c ≠ ',') :
    stripCommas (c :: cs) = c :: stripCommas cs := by
  rw [stripCommas_cons, if_neg h]

/-! ### Digit facts for rendered characters -/

theorem digitChar_digit (k : Nat) : isDigitC (digitChar k) = true := by
  rcases k with _ | _ | _ | _ | _ | _ | _ | _ | _ | k <;> first | decide | rfl

theorem natCharsCore_acc (fuel n : Nat) (acc : List Char) :
    natCharsCore fuel n acc = natCharsCore fuel n [] ++ acc := by
  induction fuel generalizing n acc with
  | zero => rfl
  | succ fuel ih =>
    simp only [natCharsCore]
    split
    · rfl
    · rw [ih _ (digitChar (n % 10) :: acc), ih _ [digitChar (n % 10)]]
      simp

theorem natCharsCore_digits (fuel n : Nat) (c : Char)
    (h : c ∈ natCharsCore fuel n []) : isDigitC c = true := by
  induction fuel generalizing n with
  | zero => simp [natCharsCore] at h
  | succ fuel ih =>
    simp only [natCharsCore] at h
    split at h
    · simp at h
      rw [h]; exact digitChar_digit n
    · rw [natCharsCore_acc] at h
      rcases List.mem_append.mp h with h' | h'
      · exact ih _ h'
      · simp at h'
        rw [h']; exact digitChar_digit (n % 10)

theorem natChars_digits (n : Nat) (c : Char) (h : c ∈ natChars n) : isDigitC c = true :=
  natCharsCore_digits _ _ _ h

theorem natChars_ne_nil (n : Nat) : natChars n ≠ [] := by
  show natCharsCore (n + 1) n [] ≠ []
  simp only [natCharsCore]
  split
  · simp
  · rw [natCharsCore_acc]; simp

theorem chunk3Rev_mem (xs : List Char) (c : Char) (h : c ∈ chunk3Rev xs) :
    c ∈ xs ∨ c = ',' := by
  induction xs using chunk3Rev.induct with
  | case1 a b c' d rest ih =>
    simp only [chunk3Rev, List.mem_cons] at h
    rcases h with h | h | h | h | h
    · exact Or.inl (by simp [h])
    · exact Or.inl (by simp [h])
    · exact Or.inl (by simp [h])
    · exact Or.inr h
    · rcases ih h with h' | h'
      · exact Or.inl (List.mem_cons_of_mem _ (List.mem_cons_of_mem _
          (List.mem_cons_of_mem _ h')))
      · exact Or.inr h'
  | case2 xs hno =>
    left
    rcases xs with _ | ⟨a, _ | ⟨b, _ | ⟨c1, _ | ⟨d, rest⟩⟩⟩⟩
    · simpa [chunk3Rev] using h
    · simpa [chunk3Rev] using h
    · simpa [chunk3Rev] using h
    · simpa [chunk3Rev] using h
    · exact absurd rfl (by intro hx; exact hno a b c1 d rest hx)

theorem group3_mem (ds : List Char) (c : Char) (h : c ∈ group3 ds) :
    c ∈ ds ∨ c = ',' := by
  rw [group3, List.mem_reverse] at h
  rcases chunk3Rev_mem _ _ h with h' | h'
  · exact Or.inl (List.mem_reverse.mp h')
  · exact Or.inr h'

theorem chunk3Rev_ne_nil {xs : List Char} (h : xs ≠ []) : chunk3Rev xs ≠ [] := by
  match xs with
  | [] => exact absurd rfl h
  | a :: b :: c :: d :: rest => simp [chunk3Rev]
  | [a] => simp [chunk3Rev]
  | [a, b] => simp [chunk3Rev]
  | [a, b, c] => simp [chunk3Rev]

theorem group3_ne_nil {ds : List Char} (h : ds ≠ []) : group3 ds ≠ [] := by
  rw [group3]
  simp only [ne_eq, List.reverse_eq_nil_iff]
  exact chunk3Rev_ne_nil (by simpa using h)

theorem groupedNat_mem (n : Nat) (c : Char) (h : c ∈ groupedNat n) :
    isDigitC c = true ∨ c = ',' := by
  rcases group3_mem _ _ h with h' | h'
  · exact Or.inl (natChars_digits _ _ h')
  · exact Or.inr h'

theorem groupedNat_ne_nil (n : Nat) : groupedNat n ≠ [] := group3_ne_nil (natChars_ne_nil n)

/-! ### Entry-shape acceptance of grouped outputs -/

theorem eScanFrom_body_dc (cs : List Char)
    (h : ∀ c ∈ cs, isDigitC c = true ∨ c = ',') : eScanFrom .body cs = .body := by
  induction cs with
  | nil => rfl
  | cons c cs ih =>
    have hc := h c (by simp)
    have h1 : eStep .body c = .body := by
      rcases hc with hc | hc
      · simp [eStep, hc]
      · simp [eStep, hc]
    show eScanFrom (eStep .body c) cs = .body
    rw [h1]
    exact ih (fun c hc => h c (by simp [hc]))

theorem eScanFrom_frac_digits (cs : List Char)
    (h : ∀ c ∈ cs, isDigitC c = true) : eScanFrom .frac cs = .frac := by
  induction cs with
  | nil => rfl
  | cons c cs ih =>
    have h1 : eStep .frac c = .frac := by simp [eStep, h c (by simp)]
    show eScanFrom (eStep .frac c) cs = .frac
    rw [h1]
    exact ih (fun c hc => h c (by simp [hc]))

/-- A digit-and-comma body with an optional leading minus sign is accepted. -/
theorem entryPat_int (neg : Bool) (I : List Char) (hI : I ≠ [])
    (hIc : ∀ c ∈ I, isDigitC c = true ∨ c = ',') :
    entryPat ((if neg then ['-'] else []) ++ I) = true := by
  rcases I with _ | ⟨i0, I'⟩
  · exact absurd rfl hI
  · have hi0 := hIc i0 (by simp)
    have hstep : ∀ e0, e0 = EState.start ∨ e0 = EState.afterMinus → eStep e0 i0 = .body := by
      intro e0 he0
      rcases hi0 with h' | h' <;> rcases he0 with he0 | he0 <;> subst he0 <;> simp [eStep, h']
    have htail : eScanFrom .body I' = .body :=
      eScanFrom_body_dc _ (fun c hc => hIc c (by simp [hc]))
    cases neg
    · simp only [if_neg Bool.false_ne_true, List.nil_append]
      show ((eScanFrom (eStep .start i0) I' == EState.body
          || eScanFrom (eStep .start i0) I' == EState.fracDot)
          || eScanFrom (eStep .start i0) I' == EState.frac) = true
      rw [hstep .start (Or.inl rfl), htail]
      rfl
    · show entryPat ('-' :: i0 :: I') = true
      show ((eScanFrom (eStep (eStep .start '-') i0) I' == EState.body
          || eScanFrom (eStep (eStep .start '-') i0) I' == EState.fracDot)
          || eScanFrom (eStep (eStep .start '-') i0) I' == EState.frac) = true
      have hm : eStep .start '-' = .afterMinus := by
        simp [eStep, isDigitC_minus]
      rw [hm, hstep .afterMinus (Or.inr rfl), htail]
      rfl

theorem entryPat_cases {cs : List Char} (h : entryPat cs = true) :
    eScanFrom .start cs = .body ∨ eScanFrom .start cs = .fracDot
      ∨ eScanFrom .start cs = .frac := by
  rw [entryPat] at h
  cases hes : eScanFrom EState.start cs <;> rw [hes] at h <;> simp_all

/-- A digit-and-comma body followed by a decimal point and digits is
accepted. -/
theorem entryPat_frac (neg : Bool) (I F : List Char) (hI : I ≠ [])
    (hIc : ∀ c ∈ I, isDigitC c = true ∨ c = ',')
    (hF : ∀ c ∈ F, isDigitC c = true) :
    entryPat (((if neg then ['-'] else []) ++ I) ++ '.' :: F) = true := by
  have hnodot : '.' ∉ (if neg then ['-'] else []) ++ I := by
    intro hmem
    rcases List.mem_append.mp hmem with hm | hm
    · cases neg <;> simp_all
    · rcases hIc _ hm with h' | h' <;> simp [isDigitC_dot] at h' <;> simp_all
  have hpre : eScanFrom .start ((if neg then ['-'] else []) ++ I) = .body := by
    rcases entryPat_cases (entryPat_int neg I hI hIc) with h | h | h
    · exact h
    · exact absurd h (eScan_no_dot hnodot).1
    · exact absurd h (eScan_no_dot hnodot).2
  have hdot : eStep .body '.' = .fracDot := by simp [eStep, isDigitC_dot]
  rcases F with _ | ⟨f0, F'⟩
  · simp only [entryPat, eScanFrom_append, hpre]
    show ((eStep .body '.' == EState.body || eStep .body '.' == EState.fracDot)
        || eStep .body '.' == EState.frac) = true
    rw [hdot]; rfl
  · have hf0 : eStep .fracDot f0 = .frac := by simp [eStep, hF f0 (by simp)]
    have htail : eScanFrom .frac F' = .frac :=
      eScanFrom_frac_digits _ (fun c hc => hF c (by simp [hc]))
    simp only [entryPat, eScanFrom_append, hpre]
    show ((eScanFrom (eStep (eStep .body '.') f0) F' == EState.body
        || eScanFrom (eStep (eStep .body '.') f0) F' == EState.fracDot)
        || eScanFrom (eStep (eStep .body '.') f0) F' == EState.frac) = true
    rw [hdot, hf0, htail]
    rfl

/-! ### Segments of `split('.')` -/

theorem splitDot_ne_nil (cs : List Char) : splitDot cs ≠ [] := by
  induction cs using splitDot.induct with
  | case1 => simp [splitDot]
  | case2 rest ih => simp [splitDot]
  | case3 c rest hne hnil => simp [splitDot, hne, hnil]
  | case4 c rest hne seg segs heq => simp [splitDot, hne, heq]

theorem splitDot_sub {c : Char} (cs : List Char) :
    ∀ seg ∈ splitDot cs, c ∈ seg → c ∈ cs := by
  induction cs using splitDot.induct with
  | case1 =>
    intro seg hseg hc
    simp [splitDot] at hseg
    subst hseg
    simp at hc
  | case2 rest ih =>
    intro seg hseg hc
    simp only [splitDot, List.mem_cons] at hseg
    rcases hseg with hseg | hseg
    · subst hseg; simp at hc
    · exact List.mem_cons_of_mem _ (ih seg hseg hc)
  | case3 c' rest hne hnil =>
    intro seg hseg hc
    simp only [splitDot, hne, not_false_iff, hnil, List.mem_cons] at hseg
    rcases hseg with hseg | hseg
    · subst hseg
      simp at hc
      simp [hc]
    · simp at hseg
  | case4 c' rest hne seg' segs heq ih =>
    intro seg hseg hc
    simp only [splitDot, hne, not_false_iff, heq, List.mem_cons] at hseg
    rcases hseg with hseg | hseg
    · subst hseg
      rcases List.mem_cons.mp hc with hc' | hc'
      · simp [hc']
      · exact List.mem_cons_of_mem _ (ih seg' (by rw [heq]; simp) hc')
    · exact List.mem_cons_of_mem _ (ih seg (by rw [heq]; exact List.mem_cons_of_mem _ hseg) hc)

theorem splitDot_no_dot (cs : List Char) :
    ∀ seg ∈ splitDot cs, '.' ∉ seg := by
  induction cs using splitDot.induct with
  | case1 =>
    intro seg hseg
    simp [splitDot] at hseg
    subst hseg
    simp
  | case2 rest ih =>
    intro seg hseg
    simp only [splitDot, List.mem_cons] at hseg
    rcases hseg with hseg | hseg
    · subst hseg; simp
    · exact ih seg hseg
  | case3 c' rest hne hnil =>
    intro seg hseg
    simp only [splitDot, hne, not_false_iff, hnil, List.mem_cons] at hseg
    rcases hseg with hseg | hseg
    · subst hseg
      simp
      intro hx
      exact hne hx.symm
    · simp at hseg
  | case4 c' rest hne seg' segs heq ih =>
    intro seg hseg
    simp only [splitDot, hne, not_false_iff, heq, List.mem_cons] at hseg
    rcases hseg with hseg | hseg
    · subst hseg
      intro hx
      rcases List.mem_cons.mp hx with hx' | hx'
      · exact hne hx'.symm
      · exact ih seg' (by rw [heq]; simp) hx'
    · exact ih seg (by rw [heq]; exact List.mem_cons_of_mem _ hseg)

/-! ### `jsToString` and `toExp6` produce no commas -/

theorem stripTrailZeros_sub {c : Char} {ds : List Char} (h : c ∈ stripTrailZeros ds) :
    c ∈ ds := by
  rw [stripTrailZeros, List.mem_reverse] at h
  rw [← List.mem_reverse]
  exact (List.dropWhile_sublist _).mem h

theorem no_comma_natChars (n : Nat) : ',' ∉ natChars n := by
  intro h
  have := natChars_digits n _ h
  simp [isDigitC_comma] at this

theorem no_comma_round17 (q : Q) : ',' ∉ (round17 q).1 := by
  rw [round17]
  split
  · simp
  · intro h
    exact no_comma_natChars _ (stripTrailZeros_sub h)

theorem no_comma_posDigits {q : Q} {sds : List Char} {n : Int}
    (hpd : posDigits q = some (sds, n)) : ',' ∉ sds := by
  rw [posDigits] at hpd
  rcases hfl : fracLenCore (q.den.natAbs + 1) q.num q.den 0 with _ | k <;> rw [hfl] at hpd
  · simp at hpd
  · simp only [Option.some.injEq, Prod.mk.injEq] at hpd
    intro h
    rw [← hpd.1] at h
    exact no_comma_natChars _ (stripTrailZeros_sub h)

theorem no_comma_posDigits17 (q : Q) : ',' ∉ (posDigits17 q).1 := by
  rw [posDigits17]
  rcases hpd : posDigits q with _ | ⟨sds, n⟩
  · exact no_comma_round17 q
  · show ',' ∉ (if sds.length ≤ 17 then (sds, n) else round17 q).1
    split
    · exact no_comma_posDigits hpd
    · exact no_comma_round17 q

theorem no_comma_expChars (e : Int) : ',' ∉ expChars e := by
  rw [expChars]
  split
  · intro h
    rcases List.mem_cons.mp h with h' | h'
    · cases h'
    · exact no_comma_natChars _ h'
  · intro h
    rcases List.mem_cons.mp h with h' | h'
    · cases h'
    · exact no_comma_natChars _ h'

theorem no_comma_renderPosPlain (sds : List Char) (n : Int) (h : ',' ∉ sds) :
    ',' ∉ renderPosPlain sds n := by
  rw [renderPosPlain]
  split
  · intro hmem
    rcases List.mem_append.mp hmem with h' | h'
    · exact h h'
    · simp [List.eq_of_mem_replicate h'] at *
  · split
    · intro hmem
      rcases List.mem_append.mp hmem with h' | h'
      · exact h ((List.take_sublist _ _).mem h')
      · rcases List.mem_cons.mp h' with h'' | h''
        · cases h''
        · exact h ((List.drop_sublist _ _).mem h'')
    · intro hmem
      rcases List.mem_cons.mp hmem with h' | h'
      · cases h'
      · rcases List.mem_cons.mp h' with h'' | h''
        · cases h''
        · rcases List.mem_append.mp h'' with h3 | h3
          · simp [List.eq_of_mem_replicate h3] at *
          · exact h h3

theorem no_comma_renderPosExp (sds : List Char) (n : Int) (h : ',' ∉ sds) :
    ',' ∉ renderPosExp sds n := by
  have hexp := no_comma_expChars (n - 1)
  rcases sds with _ | ⟨d, rest⟩
  · show ',' ∉ ['0'] ++ 'e' :: expChars (n - 1)
    intro hmem
    rcases List.mem_append.mp hmem with h' | h'
    · simp at h'
    · rcases List.mem_cons.mp h' with h'' | h''
      · cases h''
      · exact hexp h''
  · rcases rest with _ | ⟨d2, rest2⟩
    · show ',' ∉ [d] ++ 'e' :: expChars (n - 1)
      intro hmem
      rcases List.mem_append.mp hmem with h' | h'
      · exact h h'
      · rcases List.mem_cons.mp h' with h'' | h''
        · cases h''
        · exact hexp h''
    · show ',' ∉ (d :: '.' :: d2 :: rest2) ++ 'e' :: expChars (n - 1)
      intro hmem
      rcases List.mem_append.mp hmem with h' | h'
      · rcases List.mem_cons.mp h' with h'' | h''
        · exact h (by rw [h'']; exact List.mem_cons_self _ _)
        · rcases List.mem_cons.mp h'' with h3 | h3
          · cases h3
          · exact h (List.mem_cons_of_mem _ h3)
      · rcases List.mem_cons.mp h' with h'' | h''
        · cases h''
        · exact hexp h''

theorem no_comma_jsToString (v : Q) : ',' ∉ jsToString v := by
  have hsds := no_comma_posDigits17 v.babs
  simp only [jsToString]
  split
  · simp
  · split
    · intro hmem
      rcases List.mem_cons.mp hmem with h' | h'
      · cases h'
      · revert h'
        split
        · exact fun h' => no_comma_renderPosPlain _ _ hsds h'
        · exact fun h' => no_comma_renderPosExp _ _ hsds h'
    · split
      · exact no_comma_renderPosPlain _ _ hsds
      · exact no_comma_renderPosExp _ _ hsds

theorem mem_replaceFirstPlus {c : Char} {cs : List Char} (h : c ∈ cs) (hne : c ≠ '+') :
    c ∈ replaceFirstPlus cs := by
  induction cs with
  | nil => simp at h
  | cons c' rest ih =>
    show c ∈ if c' = '+' then rest else c' :: replaceFirstPlus rest
    split
    · next hc' =>
      subst hc'
      rcases List.mem_cons.mp h with h' | h'
      · exact absurd h' hne
      · exact h'
    · rcases List.mem_cons.mp h with h' | h'
      · exact h' ▸ List.mem_cons_self _ _
      · exact List.mem_cons_of_mem _ (ih h')

/-! ### Every `formatNumber` output is a sentinel, entry-shaped, or fails
`isNumericEntry` -/

theorem entryPat_intGrouped (i : Bool × Nat) : entryPat (intGrouped i) = true := by
  rw [intGrouped]
  split
  · exact entryPat_int true (groupedNat _) (groupedNat_ne_nil _) (groupedNat_mem _)
  · exact entryPat_int false (groupedNat _) (groupedNat_ne_nil _) (groupedNat_mem _)

theorem entryPat_intGrouped_frac (i : Bool × Nat) (F : List Char)
    (hF : ∀ c ∈ F, isDigitC c = true) :
    entryPat (intGrouped i ++ '.' :: F) = true := by
  rw [intGrouped]
  split
  · exact entryPat_frac true (groupedNat _) F (groupedNat_ne_nil _) (groupedNat_mem _) hF
  · exact entryPat_frac false (groupedNat _) F (groupedNat_ne_nil _) (groupedNat_mem _) hF

theorem mem_toExp6_e (value : Q) : 'e' ∈ toExp6 value := by
  simp only [toExp6]
  split
  · decide
  · split <;> simp [List.mem_append]

theorem numPat_strip_false_of_e {cs : List Char} (h : 'e' ∈ cs) :
    numPat (stripCommas cs) = false := by
  have hmem : 'e' ∈ stripCommas cs := List.mem_filter.mpr ⟨h, by decide⟩
  obtain ⟨l, r, hlr⟩ := List.append_of_mem hmem
  rw [hlr]
  exact numPat_false_of_bad_all (by decide) (by decide) (by decide)

theorem formatNumber_shape (v : Option Q) :
    formatNumber v = sentinelDiv
    ∨ entryPat (formatNumber v).data = true
    ∨ numPat (stripCommas (formatNumber v).data) = false := by
  match v with
  | none => exact Or.inl rfl
  | some value =>
    simp only [formatNumber]
    split
    · right; right
      exact numPat_strip_false_of_e (mem_replaceFirstPlus (mem_toExp6_e value) (by decide))
    · rcases hdp : (splitDot (jsToString value)).drop 1 with _ | ⟨_ | ⟨dc, dcs⟩, rest⟩ <;>
        rcases hfi : jsParseIntLead ((splitDot (jsToString value)).headD []) with _ | i
      · right; right
        show numPat (stripCommas ('N' :: 'a' :: 'N' :: [])) = false
        decide
      · right; left
        exact entryPat_intGrouped i
      · right; right
        show numPat (stripCommas ('N' :: 'a' :: 'N' :: [])) = false
        decide
      · right; left
        exact entryPat_intGrouped i
      · right; right
        show numPat (stripCommas (['N', 'a', 'N'] ++ '.' :: dc :: dcs)) = false
        rw [stripCommas_append]
        rw [show stripCommas ['N', 'a', 'N'] = ['N', 'a', 'N'] from by decide]
        show numPat ([] ++ 'N' :: ('a' :: 'N' :: stripCommas ('.' :: dc :: dcs))) = false
        exact numPat_false_of_bad_all (by decide) (by decide) (by decide)
      · by_cases hall : ∀ c ∈ dc :: dcs, isDigitC c = true
        · right; left
          exact entryPat_intGrouped_frac i _ hall
        · right; right
          push_neg at hall
          obtain ⟨c, hc, hcd⟩ := hall
          have hdpmem : (dc :: dcs) ∈ splitDot (jsToString value) := by
            have : (dc :: dcs) ∈ (splitDot (jsToString value)).drop 1 := by
              rw [hdp]; simp
            exact (List.drop_sublist _ _).mem this
          have hcdot : c ≠ '.' := by
            intro hx
            exact splitDot_no_dot _ _ hdpmem (hx ▸ hc)
          have hccomma : c ≠ ',' := by
            intro hx
            exact no_comma_jsToString value (hx ▸ splitDot_sub _ _ hdpmem hc)
          have hcs : c ∈ stripCommas (dc :: dcs) :=
            List.mem_filter.mpr ⟨hc, by simp [hccomma]⟩
          obtain ⟨l2, r2, hl2⟩ := List.append_of_mem hcs
          show numPat (stripCommas (intGrouped i ++ '.' :: dc :: dcs)) = false
          rw [stripCommas_append, stripCommas_cons_of_ne _ (by decide), hl2]
          have hassoc :
              stripCommas (intGrouped i) ++ '.' :: (l2 ++ c :: r2)
                = (stripCommas (intGrouped i) ++ '.' :: l2) ++ c :: r2 := by
            simp
          rw [hassoc]
          refine numPat_false_of_bad_tail ?_ (by simp [hcd]) hcdot
          intro hx
          exact absurd (List.append_eq_nil.mp hx).2 (by simp)

/-! ### The reachable-entry invariant -/

/-- The amended invariant on display strings: an error sentinel, a string of
the shape `-? (digit|',')+ ('.' digit*)?`, or a direct `formatNumber`
output. -/
def EntryInv (s : String) : Prop :=
  s = sentinelDiv ∨ s = sentinelInvalid ∨ entryPat s.data = true
    ∨ ∃ v : Option Q, s = formatNumber v

theorem string_data_append (s t : String) : (s ++ t).data = s.data ++ t.data := rfl

theorem entryPat_digitLabel (d : Fin 10) : entryPat (digitLabel d).data = true := by
  show entryPat [digitChar d.val] = true
  have hd := digitChar_digit d.val
  simp [entryPat, eScanFrom, eStep, hd]

theorem entryPat_of_inv_numeric {s : String} (hinv : EntryInv s)
    (hnum : isNumericEntry s = true) :
    eScanFrom .start s.data = .body ∨ eScanFrom .start s.data = .frac := by
  have hpat : entryPat s.data = true := by
    rcases hinv with h | h | h | ⟨v, h⟩
    · rw [h] at hnum; exact absurd hnum (by decide)
    · rw [h] at hnum; exact absurd hnum (by decide)
    · exact h
    · subst h
      rcases formatNumber_shape v with h' | h' | h'
      · rw [h'] at hnum; exact absurd hnum (by decide)
      · exact h'
      · exfalso
        have hn : numPat (stripCommas (formatNumber v).data) = true := hnum
        rw [hn] at h'
        cases h'
  exact eScan_body_or_frac hpat hnum

theorem entryPat_append_digit {s : String} (hinv : EntryInv s)
    (hnum : isNumericEntry s = true) {c : Char} (hc : isDigitC c = true) :
    entryPat (s.data ++ [c]) = true := by
  rcases entryPat_of_inv_numeric hinv hnum with h | h <;>
  · simp only [entryPat, eScanFrom_append, h]
    simp [eScanFrom, eStep, hc]

theorem entryPat_append_dot {s : String} (hinv : EntryInv s)
    (hnum : isNumericEntry s = true) (hnd : '.' ∉ s.data) :
    entryPat (s.data ++ ['.']) = true := by
  rcases entryPat_of_inv_numeric hinv hnum with h | h
  · simp only [entryPat, eScanFrom_append, h]
    simp [eScanFrom, eStep, isDigitC_dot]
  · exact absurd h (eScan_no_dot hnd).2

theorem eStep_to_body {e : EState} {c : Char} (h : eStep e c = .body) :
    e = .start ∨ e = .afterMinus ∨ e = .body := by
  cases e <;> simp only [eStep] at h <;> (try split_ifs at h) <;> simp_all

theorem eStep_to_frac {e : EState} {c : Char} (h : eStep e c = .frac) :
    e = .fracDot ∨ e = .frac := eStep_eq_frac h

theorem entryPat_dropLast {s : String} (hinv : EntryInv s)
    (hnum : isNumericEntry s = true) :
    s.data.dropLast = [] ∨ s.data.dropLast = ['-'] ∨ entryPat s.data.dropLast = true := by
  rcases List.eq_nil_or_concat s.data with hdata | ⟨l, c, hl⟩
  · left; rw [hdata]; rfl
  · rw [List.concat_eq_append] at hl
    have hdrop : s.data.dropLast = l := by rw [hl]; simp
    rw [hdrop]
    have hscan := entryPat_of_inv_numeric hinv hnum
    rw [hl, eScanFrom_append] at hscan
    have hstep : eStep (eScanFrom .start l) c = .body ∨ eStep (eScanFrom .start l) c = .frac := by
      simpa [eScanFrom, List.foldl] using hscan
    have hsix : eScanFrom .start l = .start ∨ eScanFrom .start l = .afterMinus
        ∨ (eScanFrom .start l = .body ∨ eScanFrom .start l = .fracDot
            ∨ eScanFrom .start l = .frac) := by
      rcases hstep with h' | h'
      · rcases eStep_to_body h' with h'' | h'' | h''
        · exact Or.inl h''
        · exact Or.inr (Or.inl h'')
        · exact Or.inr (Or.inr (Or.inl h''))
      · rcases eStep_to_frac h' with h'' | h''
        · exact Or.inr (Or.inr (Or.inr (Or.inl h'')))
        · exact Or.inr (Or.inr (Or.inr (Or.inr h'')))
    rcases hsix with h' | h' | h'
    · exact Or.inl (eScanFrom_start_eq_start h')
    · exact Or.inr (Or.inl (eScanFrom_start_eq_afterMinus h'))
    · right; right
      rw [entryPat]
      rcases h' with h' | h' | h' <;> rw [h'] <;> rfl

theorem commitValue_inv (v : Option Q) (s : CalcState) :
    EntryInv (commitValue v s).displayValue := by
  match v with
  | none => exact Or.inl rfl
  | some value =>
    right; right; right
    exact ⟨some (roundTo12 value), rfl⟩

/-- Every action preserves the display-string invariant. -/
theorem applyAction_inv (a : CalcAction) (s : CalcState)
    (h : EntryInv s.displayValue) : EntryInv (applyAction a s).displayValue := by
  cases a with
  | digit d =>
    rw [applyAction, handleDigitPress]
    split
    · right; right; left; exact entryPat_digitLabel d
    · next hcond =>
      have hcond' : isNumericEntry s.displayValue = true ∧ s.waitingForOperand = false := by
        simpa using hcond
      split
      · right; right; left; exact entryPat_digitLabel d
      · right; right; left
        show entryPat (s.displayValue ++ digitLabel d).data = true
        rw [string_data_append]
        exact entryPat_append_digit h hcond'.1 (digitChar_digit d.val)
  | decimal =>
    rw [applyAction, handleDecimalPress]
    split
    · right; right; left
      show entryPat ("0." : String).data = true
      decide
    · next hcond =>
      have hnum : isNumericEntry s.displayValue = true := by simpa using hcond
      split
      · right; right; left
        show entryPat ("0." : String).data = true
        decide
      · split
        · exact h
        · next hdot =>
          right; right; left
          show entryPat (s.displayValue ++ ".").data = true
          rw [string_data_append]
          have hnd : '.' ∉ s.displayValue.data := by
            intro hmem
            exact hdot (List.elem_iff.mpr hmem)
          exact entryPat_append_dot h hnum hnd
  | op o =>
    rw [applyAction, handleOperatorPress]
    split
    · exact h
    · split
      · split
        · split
          · exact commitValue_inv none s
          · rename_i computed heq
            right; right; right
            exact ⟨some computed, rfl⟩
        · exact h
      · exact h
  | equals =>
    rw [applyAction, handleEqualsPress]
    split
    · split
      · exact h
      · split
        · exact Or.inl rfl
        · rename_i r heq
          right; right; right
          exact ⟨some (roundTo12 r), rfl⟩
    · exact h
  | percent =>
    rw [applyAction, handlePercent]
    split
    · exact h
    · split
      · right; right; right
        exact ⟨some (roundTo12 _), rfl⟩
      · right; right; right
        exact ⟨some (roundTo12 _), rfl⟩
  | clearEntry =>
    right; right; left
    show entryPat ("0" : String).data = true
    decide
  | clearAll =>
    right; right; left
    show entryPat ("0" : String).data = true
    decide
  | backspace =>
    simp only [applyAction, handleBackspace]
    split
    · right; right; left
      show entryPat ("0" : String).data = true
      decide
    · split
      · right; right; left
        show entryPat ("0" : String).data = true
        decide
      · next hcond _ =>
        have hnum : isNumericEntry s.displayValue = true := by simpa using hcond
        split
        · right; right; left
          show entryPat ("0" : String).data = true
          decide
        · next hne =>
          right; right; left
          simp only [Bool.or_eq_true, decide_eq_true_eq, not_or] at hne
          rcases entryPat_dropLast h hnum with h' | h' | h'
          · exact absurd (congrArg String.mk h') hne.2
          · exact absurd (congrArg String.mk h') hne.1
          · exact h'
  | unary u =>
    rw [applyAction, handleUnaryCommand]
    split
    · exact h
    · split
      · exact commitValue_inv _ s
      · split
        · exact commitValue_inv none s
        · exact commitValue_inv _ s
      · exact commitValue_inv _ s
      · split
        · right; left; rfl
        · exact commitValue_inv _ s
  | memory m =>
    rw [applyAction, handleMemoryAction.eq_def]
    split
    · exact h
    · split
      · exact h
      · exact commitValue_inv _ s
    · split <;> exact h
    · split <;> exact h
    · exact h
    · exact h

/-- The display-string pattern asserted by claim C4, defined from the claim's
words: an optional leading minus sign, digits, and at most one decimal point
with optional trailing digits — no grouping commas, no exponent marker. -/
def claimC4Pat (cs : List Char) : Bool :=
  nScan cs == .nint || nScan cs == .nfrac || nScan cs == .ndot

/-- Claim C4, counterexample.  The reachable state after
`Digit(1), Digit(0), Digit(0), Digit(0), Operator(+), Digit(1), Equals` has
entry `"1,001"`: a comma-grouped `formatNumber` output, which is neither an
error sentinel nor a match of the claimed
minus-digits-optional-point pattern. -/
theorem claim_C4_counterexample :
    (runCalc [.digit 1, .digit 0, .digit 0, .digit 0,
              .op .add, .digit 1, .equals]).displayValue = "1,001"
    ∧ claimC4Pat (runCalc [.digit 1, .digit 0, .digit 0, .digit 0,
              .op .add, .digit 1, .equals]).displayValue.data = false
    ∧ (runCalc [.digit 1, .digit 0, .digit 0, .digit 0,
              .op .add, .digit 1, .equals]).displayValue ≠ sentinelDiv
    ∧ (runCalc [.digit 1, .digit 0, .digit 0, .digit 0,
              .op .add, .digit 1, .equals]).displayValue ≠ sentinelInvalid := by
  refine ⟨by decide, by decide, by decide, by decide⟩

/-- Claim C4, amended.  In every state reachable from the initial state by
any action sequence, the entry string is one of the two error sentinels, or
an optional minus sign followed by a nonempty run of digits and commas with
at most one decimal point and optional trailing digits, or the output of
`formatNumber` on some value (which may carry en-US comma grouping and, for
magnitudes outside the plain-notation range of `toString`, an exponent
marker). -/
theorem claim_C4 (acts : List CalcAction) : EntryInv (runCalc acts).displayValue := by
  have hrun : ∀ (l : List CalcAction) (s : CalcState), EntryInv s.displayValue →
      EntryInv (l.foldl (fun s a => applyAction a s) s).displayValue := by
    intro l
    induction l with
    | nil => exact fun s hs => hs
    | cons a rest ih => exact fun s hs => ih _ (applyAction_inv a s hs)
  exact hrun acts initState (Or.inr (Or.inr (Or.inl (by decide))))

/-- Witness for claim C4 on the sequence `Digit(1), Decimal, Digit(5)`. -/
theorem claim_C4_witness :
    EntryInv (runCalc [.digit 1, .decimal, .digit 5]).displayValue :=
  claim_C4 [.digit 1, .decimal, .digit 5]

/-! ## Decimal digit arithmetic -/

theorem charVal_digitChar (k : Nat) (h : k < 10) : charVal (digitChar k) = k := by
  interval_cases k <;> decide

theorem digitChar_charVal (d : Char) (h : isDigitC d = true) : digitChar (charVal d) = d := by
  simp only [isDigitC, Bool.and_eq_true, decide_eq_true_eq] at h
  obtain ⟨h1, h2⟩ := h
  have h1' : 48 ≤ d.toNat := h1
  have h2' : d.toNat ≤ 57 := h2
  have hofNat : Char.ofNat d.toNat = d := Char.ofNat_toNat d
  have hc : d.toNat = 48 ∨ d.toNat = 49 ∨ d.toNat = 50 ∨ d.toNat = 51 ∨ d.toNat = 52 ∨
      d.toNat = 53 ∨ d.toNat = 54 ∨ d.toNat = 55 ∨ d.toNat = 56 ∨ d.toNat = 57 := by omega
  rcases hc with hc | hc | hc | hc | hc | hc | hc | hc | hc | hc <;>
    rw [← hofNat, hc] <;> simp [charVal, hc] <;> rfl

theorem charVal_lt_10 (d : Char) (h : isDigitC d = true) : charVal d < 10 := by
  simp only [isDigitC, Bool.and_eq_true, decide_eq_true_eq] at h
  obtain ⟨h1, h2⟩ := h
  have h2' : d.toNat ≤ 57 := h2
  simp only [charVal]; omega

theorem digitChar_eq_zero_iff (k : Nat) (h : k < 10) : digitChar k = '0' ↔ k = 0 := by
  interval_cases k <;> simp [digitChar]

/-- The fuel of `natCharsCore` is irrelevant as long as it exceeds `n`. -/
theorem natCharsCore_fuel (f₁ f₂ n : Nat) (h₁ : n < f₁) (h₂ : n < f₂) :
    natCharsCore f₁ n [] = natCharsCore f₂ n [] := by
  induction f₁ generalizing f₂ n with
  | zero => omega
  | succ f₁ ih =>
    cases f₂ with
    | zero => omega
    | succ f₂ =>
      simp only [natCharsCore]
      split
      · rfl
      · rename_i hn
        have h10 : 10 ≤ n := by omega
        have hd : n / 10 < n := Nat.div_lt_self (by omega) (by omega)
        rw [natCharsCore_acc f₁, natCharsCore_acc f₂, ih f₂ (n / 10) (by omega) (by omega)]

theorem natChars_lt_10 {n : Nat} (h : n < 10) : natChars n = [digitChar n] := by
  show natCharsCore (n + 1) n [] = [digitChar n]
  simp [natCharsCore, h]

/-- The fundamental recurrence of decimal rendering. -/
theorem natChars_rec {n : Nat} (h : 10 ≤ n) :
    natChars n = natChars (n / 10) ++ [digitChar (n % 10)] := by
  show natCharsCore (n + 1) n [] = _
  simp only [natCharsCore, Nat.not_lt.mpr h, if_neg (by omega : ¬ n < 10)]
  rw [natCharsCore_acc]
  have hd : n / 10 < n := Nat.div_lt_self (by omega) (by omega)
  rw [natCharsCore_fuel n (n / 10 + 1) (n / 10) (by omega) (by omega)]
  rfl

theorem charsValFrom_eq (a : Nat) (cs : List Char) :
    charsValFrom a cs = a * pow10 cs.length + charsVal cs := by
  induction cs generalizing a with
  | nil => simp [charsValFrom, charsVal, pow10]
  | cons c cs ih =>
    show charsValFrom (10 * a + charVal c) cs = _
    rw [ih]
    have : charsVal (c :: cs) = charsValFrom (10 * 0 + charVal c) cs := rfl
    rw [this, ih]
    simp only [List.length_cons, pow10]
    ring

theorem charsVal_cons (c : Char) (cs : List Char) :
    charsVal (c :: cs) = charVal c * pow10 cs.length + charsVal cs := by
  show charsValFrom (10 * 0 + charVal c) cs = _
  rw [charsValFrom_eq]; ring

theorem charsVal_append (l r : List Char) :
    charsVal (l ++ r) = charsVal l * pow10 r.length + charsVal r := by
  show charsValFrom 0 (l ++ r) = _
  rw [charsValFrom, List.foldl_append]
  show charsValFrom (charsVal l) r = _
  rw [charsValFrom_eq]

theorem charsVal_nil : charsVal [] = 0 := rfl

theorem charsVal_singleton (c : Char) : charsVal [c] = charVal c := by
  show 10 * 0 + charVal c = charVal c
  omega

/-- Digit strings denote values below `10^length`. -/
theorem charsVal_lt (cs : List Char) (h : ∀ c ∈ cs, isDigitC c = true) :
    charsVal cs < pow10 cs.length := by
  induction cs with
  | nil => simp [charsVal_nil, pow10]
  | cons c cs ih =>
    rw [charsVal_cons]
    have hc : charVal c < 10 := charVal_lt_10 c (h c (by simp))
    have ht : charsVal cs < pow10 cs.length := ih (fun d hd => h d (by simp [hd]))
    simp only [List.length_cons, pow10]
    nlinarith [pow10_pos cs.length]

/-- `charsVal ∘ natChars` is the identity: rendering is faithful. -/
theorem charsVal_natChars (n : Nat) : charsVal (natChars n) = n := by
  induction n using Nat.strong_induction_on with
  | _ n ih =>
    by_cases h : n < 10
    · rw [natChars_lt_10 h, charsVal_singleton, charVal_digitChar n h]
    · rw [natChars_rec (by omega), charsVal_append, charsVal_singleton,
        charVal_digitChar _ (Nat.mod_lt n (by omega)),
        ih (n / 10) (Nat.div_lt_self (by omega) (by omega))]
      show n / 10 * pow10 1 + n % 10 = n
      show n / 10 * 10 + n % 10 = n
      omega

/-! ## Digit-count bounds -/

theorem pow10_succ (k : Nat) : pow10 (k + 1) = pow10 k * 10 := by
  rw [pow10_eq, pow10_eq, pow_succ]

theorem intLen_lt_10 {n : Nat} (h : n < 10) : intLen n = 1 := by
  rw [intLen, natChars_lt_10 h]; rfl

theorem intLen_rec {n : Nat} (h : 10 ≤ n) : intLen n = intLen (n / 10) + 1 := by
  rw [intLen, natChars_rec h]; simp [intLen]

theorem intLen_pos (n : Nat) : 1 ≤ intLen n := by
  by_cases h : n < 10
  · rw [intLen_lt_10 h]
  · rw [intLen_rec (by omega)]; omega

/-- The digit count is correct: `10^(intLen n - 1) ≤ n < 10^(intLen n)`. -/
theorem intLen_bounds (n : Nat) (h : 1 ≤ n) :
    pow10 (intLen n - 1) ≤ n ∧ n < pow10 (intLen n) := by
  induction n using Nat.strong_induction_on with
  | _ n ih =>
    by_cases h10 : n < 10
    · rw [intLen_lt_10 h10]
      constructor
      · show pow10 0 ≤ n; show 1 ≤ n; exact h
      · show n < pow10 1; show n < 10; exact h10
    · have hq : 1 ≤ n / 10 := by omega
      have hlt : n / 10 < n := Nat.div_lt_self (by omega) (by omega)
      obtain ⟨hl, hu⟩ := ih (n / 10) hlt hq
      have hL := intLen_pos (n / 10)
      rw [intLen_rec (by omega)]
      constructor
      · have he : pow10 (intLen (n / 10) + 1 - 1) = pow10 (intLen (n / 10) - 1) * 10 := by
          have h9 : intLen (n / 10) + 1 - 1 = (intLen (n / 10) - 1) + 1 := by omega
          rw [h9, pow10_succ]
        rw [he]
        have := Nat.div_mul_le_self n 10
        nlinarith
      · rw [pow10_succ]
        have h1 : n < (n / 10 + 1) * 10 := by omega
        have h2 : n / 10 + 1 ≤ pow10 (intLen (n / 10)) := hu
        nlinarith

theorem pow10_lt_pow10 {a b : Nat} (h : a < b) : pow10 a < pow10 b := by
  rw [pow10_eq, pow10_eq]
  exact Nat.pow_lt_pow_right (by omega) h

theorem pow10_le_pow10 {a b : Nat} (h : a ≤ b) : pow10 a ≤ pow10 b := by
  rw [pow10_eq, pow10_eq]
  exact Nat.pow_le_pow_right (by omega) h

/-- `intLen` is determined by the sandwich `10^(k-1) ≤ n < 10^k`. -/
theorem intLen_eq_of_bounds {n k : Nat} (hk : 1 ≤ k)
    (hl : pow10 (k - 1) ≤ n) (hu : n < pow10 k) : intLen n = k := by
  have hn : 1 ≤ n := le_trans (pow10_pos (k - 1)) hl
  obtain ⟨bl, bu⟩ := intLen_bounds n hn
  have hL := intLen_pos n
  by_contra hne
  rcases Nat.lt_or_ge (intLen n) k with hlt | hge
  · have : pow10 (intLen n) ≤ pow10 (k - 1) := pow10_le_pow10 (by omega)
    omega
  · have : pow10 k ≤ pow10 (intLen n - 1) := pow10_le_pow10 (by omega)
    omega

theorem intLen_le_of_lt {n k : Nat} (hk : 1 ≤ k) (hu : n < pow10 k) : intLen n ≤ k := by
  by_cases hn : n = 0
  · subst hn
    have : intLen 0 = 1 := intLen_lt_10 (by omega)
    omega
  · obtain ⟨bl, _⟩ := intLen_bounds n (by omega)
    by_contra hgt
    have : pow10 k ≤ pow10 (intLen n - 1) := pow10_le_pow10 (by omega)
    omega

/-! ## Rendering products and concatenations -/

/-- `natChars (N * 10^L)` appends `L` zeros. -/
theorem natChars_mul_pow (N L : Nat) (hN : 1 ≤ N) :
    natChars (N * pow10 L) = natChars N ++ List.replicate L '0' := by
  induction L with
  | zero => show natChars (N * 1) = _; simp
  | succ L ih =>
    have hp : pow10 (L + 1) = pow10 L * 10 := pow10_succ L
    have hge : 10 ≤ N * pow10 (L + 1) := by
      have := pow10_pos L
      nlinarith
    rw [natChars_rec hge]
    have hdiv : N * pow10 (L + 1) / 10 = N * pow10 L := by
      rw [hp, ← Nat.mul_assoc]
      exact Nat.mul_div_cancel _ (by omega)
    have hmod : N * pow10 (L + 1) % 10 = 0 := by
      rw [hp, ← Nat.mul_assoc]
      exact Nat.mul_mod_left _ _
    rw [hdiv, hmod, ih]
    show _ = natChars N ++ List.replicate (L + 1) '0'
    rw [List.replicate_succ' (L) '0']
    simp [digitChar]

/-- Splitting a decimal rendering: the digits of `N * 10^L + c` are the digits
of `N` followed by the `L`-digit zero-padded rendering of `c` (for `1 ≤ c`). -/
theorem natChars_split (N L c : Nat) (hN : 1 ≤ N) (hc : 1 ≤ c) (hcL : c < pow10 L) :
    natChars (N * pow10 L + c) =
      natChars N ++ List.replicate (L - intLen c) '0' ++ natChars c := by
  induction L generalizing c with
  | zero => simp [pow10] at hcL; omega
  | succ L ih =>
    have hp : pow10 (L + 1) = pow10 L * 10 := pow10_succ L
    have hge : 10 ≤ N * pow10 (L + 1) + c := by
      have := pow10_pos L
      nlinarith
    rw [natChars_rec hge]
    have hdiv : (N * pow10 (L + 1) + c) / 10 = N * pow10 L + c / 10 := by
      rw [hp, ← Nat.mul_assoc]
      omega
    have hmod : (N * pow10 (L + 1) + c) % 10 = c % 10 := by
      rw [hp, ← Nat.mul_assoc]
      omega
    rw [hdiv, hmod]
    by_cases hc10 : c < 10
    · have hq0 : c / 10 = 0 := by omega
      have hcm : c % 10 = c := by omega
      rw [hq0, Nat.add_zero, natChars_mul_pow N L hN, hcm, intLen_lt_10 hc10,
        natChars_lt_10 hc10]
      simp [List.append_assoc]
    · have hq1 : 1 ≤ c / 10 := by omega
      have hqL : c / 10 < pow10 L := by
        rw [hp] at hcL
        omega
      rw [ih (c / 10) hq1 hqL]
      have hlen : intLen c = intLen (c / 10) + 1 := intLen_rec (by omega)
      have hrec : natChars c = natChars (c / 10) ++ [digitChar (c % 10)] :=
        natChars_rec (by omega)
      rw [hlen]
      have : L + 1 - (intLen (c / 10) + 1) = L - intLen (c / 10) := by omega
      rw [this, hrec]
      simp [List.append_assoc]

/-- A digit string with a nonzero leading digit is the decimal rendering of its
own value. -/
theorem natChars_charsVal (G : List Char) (hG : G ≠ [])
    (hd : ∀ c ∈ G, isDigitC c = true) (hh : G.headD '0' ≠ '0') :
    natChars (charsVal G) = G := by
  induction G using List.reverseRecOn with
  | nil => exact absurd rfl hG
  | append_singleton A d ih =>
    rcases List.eq_nil_or_concat A with hA | _
    · subst hA
      simp only [List.nil_append] at hh ⊢
      have hdd : isDigitC d = true := hd d (by simp)
      have h1 : charVal d < 10 := charVal_lt_10 d hdd
      rw [charsVal_singleton, natChars_lt_10 h1, digitChar_charVal d hdd]
    · have hAne : A ≠ [] := by rename_i hcon; rcases hcon with ⟨l, c, rfl⟩; simp
      have hdA : ∀ c ∈ A, isDigitC c = true := fun c hc => hd c (by simp [hc])
      have hhA : A.headD '0' ≠ '0' := by
        rcases A with _ | ⟨a, A'⟩
        · exact absurd rfl hAne
        · simpa using hh
      have hvA : 1 ≤ charsVal A := by
        rcases A with _ | ⟨a, A'⟩
        · exact absurd rfl hAne
        · rw [charsVal_cons]
          have ha : isDigitC a = true := hdA a (by simp)
          have hane : a ≠ '0' := by simpa using hhA
          have hv1 : 1 ≤ charVal a := by
            by_contra hv0
            have h0 : charVal a = 0 := by omega
            have hda := digitChar_charVal a ha
            rw [h0] at hda
            exact hane (by rw [← hda]; rfl)
          have := pow10_pos A'.length
          nlinarith
      have hge : 10 ≤ charsVal (A ++ [d]) := by
        rw [charsVal_append, charsVal_singleton]
        have := pow10_pos 1
        show 10 ≤ charsVal A * pow10 [d].length + charVal d
        show 10 ≤ charsVal A * 10 + charVal d
        omega
      rw [natChars_rec hge]
      have hdd : isDigitC d = true := hd d (by simp)
      have hdiv : charsVal (A ++ [d]) / 10 = charsVal A := by
        rw [charsVal_append, charsVal_singleton]
        show (charsVal A * pow10 1 + charVal d) / 10 = charsVal A
        show (charsVal A * 10 + charVal d) / 10 = charsVal A
        have := charVal_lt_10 d hdd
        omega
      have hmod : charsVal (A ++ [d]) % 10 = charVal d := by
        rw [charsVal_append, charsVal_singleton]
        show (charsVal A * pow10 1 + charVal d) % 10 = charVal d
        show (charsVal A * 10 + charVal d) % 10 = charVal d
        have := charVal_lt_10 d hdd
        omega
      rw [hdiv, hmod, ih hAne hdA hhA, digitChar_charVal d hdd]

/-! ## Trailing zeros, leading zeros, splitting -/

theorem stripTrailZeros_eq_self {ds : List Char} (h : ds.getLast? ≠ some '0') :
    stripTrailZeros ds = ds := by
  rw [stripTrailZeros]
  rcases List.eq_nil_or_concat ds with rfl | ⟨l, c, rfl⟩
  · rfl
  · rw [List.concat_eq_append] at h ⊢
    have hc : c ≠ '0' := by
      intro hc
      subst hc
      exact h (by simp)
    rw [List.reverse_append, List.reverse_singleton, List.singleton_append,
      List.dropWhile_cons, if_neg (by simpa using hc)]
    simp

/-- Any digit list is its trailing-zero-stripped form padded back with zeros. -/
theorem stripTrailZeros_pad (ds : List Char) :
    ds = stripTrailZeros ds ++
      List.replicate (ds.length - (stripTrailZeros ds).length) '0' := by
  rw [stripTrailZeros]
  have hsplit := List.takeWhile_append_dropWhile (p := fun c => c == '0') (l := ds.reverse)
  have htake : List.takeWhile (fun c => c == '0') ds.reverse =
      List.replicate (List.takeWhile (fun c => c == '0') ds.reverse).length '0' := by
    apply List.eq_replicate_of_mem
    intro c hc
    have := List.mem_takeWhile_imp hc
    simpa using this
  have hdlen : ds.length = (List.takeWhile (fun c => c == '0') ds.reverse).length +
      (List.dropWhile (fun c => c == '0') ds.reverse).length := by
    rw [← List.length_append, hsplit, List.length_reverse]
  conv_lhs => rw [← List.reverse_reverse ds, ← hsplit]
  rw [List.reverse_append, htake, List.reverse_replicate]
  congr 1
  rw [List.length_reverse]
  congr 1
  omega

theorem stripTrailZeros_length_le (ds : List Char) :
    (stripTrailZeros ds).length ≤ ds.length := by
  rw [stripTrailZeros]
  calc ((ds.reverse.dropWhile fun c => c == '0')).reverse.length
      = (ds.reverse.dropWhile fun c => c == '0').length := List.length_reverse _
    _ ≤ ds.reverse.length := (List.dropWhile_sublist _).length_le
    _ = ds.length := List.length_reverse ds

/-- Leading-zero decomposition of a digit string. -/
theorem leadZeros_split (F : List Char) :
    F = List.replicate (F.takeWhile (fun c => c == '0')).length '0' ++
      F.dropWhile (fun c => c == '0') := by
  have hsplit := List.takeWhile_append_dropWhile (p := fun c => c == '0') (l := F)
  have htake : List.takeWhile (fun c => c == '0') F =
      List.replicate (List.takeWhile (fun c => c == '0') F).length '0' := by
    apply List.eq_replicate_of_mem
    intro c hc
    have := List.mem_takeWhile_imp hc
    simpa using this
  conv_lhs => rw [← hsplit]
  rw [← htake]

theorem dropWhile_zero_headD {F : List Char}
    (h : F.dropWhile (fun c => c == '0') ≠ []) :
    (F.dropWhile (fun c => c == '0')).headD '0' ≠ '0' := by
  rcases hd : F.dropWhile (fun c => c == '0') with _ | ⟨c, r⟩
  · exact absurd hd h
  · have := List.head_dropWhile_not (p := fun c => c == '0') (l := F)
    rw [hd] at this
    simpa using this (by simp)

/-- The value of a digit string ignores leading zeros. -/
theorem charsVal_replicate_zero_append (j : Nat) (F : List Char) :
    charsVal (List.replicate j '0' ++ F) = charsVal F := by
  induction j with
  | zero => simp
  | succ j ih =>
    rw [List.replicate_succ, List.cons_append]
    show charsValFrom (10 * 0 + charVal '0') _ = _
    have : charVal '0' = 0 := rfl
    rw [this]
    exact ih

/-- Evaluating `splitDot` on a non-dot head. -/
theorem splitDot_cons_ne {a : Char} (ha : a ≠ '.') (rest : List Char) :
    splitDot (a :: rest) = (a :: (splitDot rest).headD []) :: (splitDot rest).tail := by
  rcases h : splitDot rest with _ | ⟨seg, segs⟩
  · exact absurd h (splitDot_ne_nil rest)
  · simp [splitDot, ha, h]

/-- `splitDot` splits at the first dot. -/
theorem splitDot_append_dot (A B : List Char) (hA : '.' ∉ A) :
    splitDot (A ++ '.' :: B) = A :: splitDot B := by
  induction A with
  | nil => simp [splitDot]
  | cons a A ih =>
    have haA : '.' ∉ A := fun h => hA (by simp [h])
    have ha : a ≠ '.' := fun h => hA (by simp [h])
    rw [List.cons_append, splitDot_cons_ne ha, ih haA]
    rfl

/-- `splitDot` of a dot-free list. -/
theorem splitDot_of_no_dot (A : List Char) (hA : '.' ∉ A) :
    splitDot A = [A] := by
  induction A with
  | nil => rfl
  | cons a A ih =>
    have haA : '.' ∉ A := fun h => hA (by simp [h])
    have ha : a ≠ '.' := fun h => hA (by simp [h])
    rw [splitDot_cons_ne ha, ih haA]
    rfl

/-- `takeWhile` runs through an all-digit prefix. -/
theorem leadDigits_append (D r : List Char) (hD : ∀ c ∈ D, isDigitC c = true) :
    leadDigits (D ++ r) = D ++ leadDigits r := by
  induction D with
  | nil => rfl
  | cons d D ih =>
    rw [List.cons_append, leadDigits, List.takeWhile_cons,
      if_pos (hD d (by simp))]
    rw [leadDigits] at ih
    rw [ih (fun c hc => hD c (by simp [hc]))]
    rfl

theorem leadDigits_nil : leadDigits [] = [] := rfl

theorem leadDigits_cons_not {c : Char} (r : List Char) (hc : isDigitC c = false) :
    leadDigits (c :: r) = [] := by
  rw [leadDigits, List.takeWhile_cons, hc]
  rfl

theorem leadDigits_all (D : List Char) (hD : ∀ c ∈ D, isDigitC c = true) :
    leadDigits D = D := by
  have := leadDigits_append D [] hD
  simpa [leadDigits_nil] using this

/-- Stripping commas undoes en-US grouping. -/
theorem filter_chunk3Rev (xs : List Char) (h : ',' ∉ xs) :
    (chunk3Rev xs).filter (fun c => c != ',') = xs := by
  induction xs using chunk3Rev.induct with
  | case1 a b c d rest ih =>
    have ha : a ≠ ',' := fun hx => h (by simp [hx])
    have hb : b ≠ ',' := fun hx => h (by simp [hx])
    have hc : c ≠ ',' := fun hx => h (by simp [hx])
    have hrest : ',' ∉ d :: rest := fun hx => h (by simp [List.mem_cons] at hx ⊢; tauto)
    rw [chunk3Rev]
    simp only [List.filter_cons]
    simp [ha, hb, hc, ih hrest]
  | case2 xs hne =>
    rw [chunk3Rev.eq_def]
    split
    · rename_i a b c d rest
      exact absurd rfl (hne a b c d rest)
    · exact List.filter_eq_self.mpr (fun c hc => by
        simp only [bne_iff_ne, ne_eq]
        intro hx
        rw [hx] at hc
        exact h hc)

theorem stripCommas_group3 (ds : List Char) (h : ',' ∉ ds) :
    stripCommas (group3 ds) = ds := by
  rw [group3, stripCommas, List.filter_reverse, filter_chunk3Rev _ (by simpa using h)]
  simp

theorem stripCommas_groupedNat (n : Nat) : stripCommas (groupedNat n) = natChars n :=
  stripCommas_group3 _ (no_comma_natChars n)

/-! ## Analytic facts about `pow10Q`, `jsRound` and `decExpPos` -/

theorem pow10_cast_q (k : Nat) : ((pow10 k : ℕ) : ℚ) = (10:ℚ) ^ (k : ℤ) := by
  rw [pow10_eq]
  push_cast
  rw [zpow_natCast]

theorem Q.val_pow10Q (z : Int) : (pow10Q z).val = (10:ℚ) ^ z := by
  rw [pow10Q]
  split
  · rename_i h
    rw [Q.val_ofInt]
    push_cast
    rw [pow10_cast_q, Int.toNat_of_nonneg h]
  · rename_i h
    rw [Q.val_dec]
    rw [show ((10:ℚ) ^ ((-z).toNat : ℕ)) = ((pow10 (-z).toNat : ℕ) : ℚ) by
      rw [pow10_eq]; push_cast; ring]
    rw [pow10_cast_q, Int.toNat_of_nonneg (by omega)]
    rw [show ((1:ℤ):ℚ) = 1 from by norm_num, one_div, ← zpow_neg, neg_neg]

theorem jsRound_eq (a : Q) : jsRound a = ⌊a.val + 1/2⌋ := by
  rw [jsRound, Q.val_floor, Q.val_add]
  congr 2


theorem Q.val_pos_iff (a : Q) : 0 < a.val ↔ 0 < a.num := by
  have hd : (0:ℚ) < (a.den : ℚ) := by exact_mod_cast a.dpos
  rw [Q.val, div_pos_iff]
  constructor
  · rintro (⟨h, _⟩ | ⟨_, h⟩)
    · exact_mod_cast h
    · linarith
  · intro h
    exact Or.inl ⟨by exact_mod_cast h, hd⟩

theorem Q.val_neg_iff (a : Q) : a.val < 0 ↔ a.num < 0 := by
  have hd : (0:ℚ) < (a.den : ℚ) := by exact_mod_cast a.dpos
  rw [Q.val, div_neg_iff]
  constructor
  · rintro (⟨_, h⟩ | ⟨h, _⟩)
    · linarith
    · exact_mod_cast h
  · intro h
    exact Or.inr ⟨by exact_mod_cast h, hd⟩

theorem Q.babs_num (a : Q) : a.babs.num = (a.num.natAbs : Int) := rfl

theorem Q.babs_den (a : Q) : a.babs.den = a.den := rfl

/-- Correctness of the decimal-exponent search: `decExpPos q` is the unique `n`
with `10^(n-1) ≤ q < 10^n`, for positive `q`. -/
theorem decExpPos_bounds (q : Q) (hq : 0 < q.val) :
    (10:ℚ) ^ (decExpPos q - 1) ≤ q.val ∧ q.val < (10:ℚ) ^ (decExpPos q) := by
  have hnum : 0 < q.num := (Q.val_pos_iff q).mp hq
  have hden : 0 < q.den := q.dpos
  have hnA1 : 1 ≤ q.num.natAbs := by omega
  have hdA1 : 1 ≤ q.den.natAbs := by omega
  obtain ⟨hnl, hnu⟩ := intLen_bounds q.num.natAbs hnA1
  obtain ⟨hdl, hdu⟩ := intLen_bounds q.den.natAbs hdA1
  have ha1 : 1 ≤ intLen q.num.natAbs := intLen_pos _
  have hb1 : 1 ≤ intLen q.den.natAbs := intLen_pos _
  set a := intLen q.num.natAbs with haa
  set b := intLen q.den.natAbs with hbb
  have hvq : q.val = ((q.num.natAbs : ℕ) : ℚ) / ((q.den.natAbs : ℕ) : ℚ) := by
    rw [Q.val]
    congr 1
    · rw [Int.cast_natAbs, abs_of_pos hnum]
    · rw [Int.cast_natAbs, abs_of_pos hden]
  have hdenq : (0:ℚ) < ((q.den.natAbs : ℕ) : ℚ) := by exact_mod_cast hdA1
  have hnumq : (0:ℚ) < ((q.num.natAbs : ℕ) : ℚ) := by exact_mod_cast hnA1
  -- upper estimate: q < 10^(a - b + 1)
  have hup : q.val < (10:ℚ) ^ ((a:ℤ) - (b:ℤ) + 1) := by
    have h1 : ((q.num.natAbs : ℕ) : ℚ) < (10:ℚ) ^ ((a:ℤ)) := by
      rw [← pow10_cast_q]; exact_mod_cast hnu
    have h2 : (10:ℚ) ^ (((b:ℤ) - 1)) ≤ ((q.den.natAbs : ℕ) : ℚ) := by
      have : ((b:ℤ) - 1) = ((b - 1 : ℕ) : ℤ) := by omega
      rw [this, ← pow10_cast_q]
      exact_mod_cast hdl
    have hp1 : (0:ℚ) < (10:ℚ) ^ (((b:ℤ) - 1)) := zpow_pos (by norm_num) _
    rw [hvq, div_lt_iff hdenq]
    calc ((q.num.natAbs : ℕ) : ℚ) < (10:ℚ) ^ ((a:ℤ)) := h1
      _ = (10:ℚ) ^ ((a:ℤ) - (b:ℤ) + 1) * (10:ℚ) ^ (((b:ℤ) - 1)) := by
          rw [← zpow_add₀ (by norm_num : (10:ℚ) ≠ 0)]; ring_nf
      _ ≤ (10:ℚ) ^ ((a:ℤ) - (b:ℤ) + 1) * ((q.den.natAbs : ℕ) : ℚ) := by
          apply mul_le_mul_of_nonneg_left h2 (le_of_lt (zpow_pos (by norm_num) _))
  -- lower estimate: 10^(a - b - 1) < q
  have hlo : (10:ℚ) ^ ((a:ℤ) - (b:ℤ) - 1) < q.val := by
    have h1 : (10:ℚ) ^ ((a:ℤ) - 1) ≤ ((q.num.natAbs : ℕ) : ℚ) := by
      have : ((a:ℤ) - 1) = ((a - 1 : ℕ) : ℤ) := by omega
      rw [this, ← pow10_cast_q]
      exact_mod_cast hnl
    have h2 : ((q.den.natAbs : ℕ) : ℚ) < (10:ℚ) ^ ((b:ℤ)) := by
      rw [← pow10_cast_q]; exact_mod_cast hdu
    rw [hvq, lt_div_iff hdenq]
    calc (10:ℚ) ^ ((a:ℤ) - (b:ℤ) - 1) * ((q.den.natAbs : ℕ) : ℚ)
        < (10:ℚ) ^ ((a:ℤ) - (b:ℤ) - 1) * (10:ℚ) ^ ((b:ℤ)) := by
          apply mul_lt_mul_of_pos_left h2 (zpow_pos (by norm_num) _)
      _ = (10:ℚ) ^ ((a:ℤ) - 1) := by
          rw [← zpow_add₀ (by norm_num : (10:ℚ) ≠ 0)]; ring_nf
      _ ≤ ((q.num.natAbs : ℕ) : ℚ) := h1
  have hd : decExpPos q =
      if q.blt (pow10Q ((a:ℤ) - (b:ℤ))) then (a:ℤ) - (b:ℤ) else (a:ℤ) - (b:ℤ) + 1 := rfl
  rw [hd]
  by_cases hblt : q.blt (pow10Q ((a:ℤ) - (b:ℤ))) = true
  · rw [if_pos hblt]
    have hlt := (Q.blt_iff _ _).mp hblt
    rw [Q.val_pow10Q] at hlt
    exact ⟨le_of_lt hlo, hlt⟩
  · rw [if_neg hblt]
    have hge : (10:ℚ) ^ ((a:ℤ) - (b:ℤ)) ≤ q.val := by
      by_contra hc
      exact hblt ((Q.blt_iff _ _).mpr (by rw [Q.val_pow10Q]; linarith))
    constructor
    · have he : (a:ℤ) - (b:ℤ) + 1 - 1 = (a:ℤ) - (b:ℤ) := by ring
      rw [he]
      exact hge
    · exact hup

/-! ## Exponential rendering: shape of `toExp6` output after `+`-stripping -/

/-- The exponential layout `formatNumber` produces: optional sign, one leading
mantissa digit, `'.'`, six more mantissa digits, `'e'`, then the exponent with
its `'+'` (if any) already stripped.  This is the shape
`value.toExponential(6).replace(/\+/, '')` evaluates to; `m` is the
seven-digit mantissa and `e` the decimal exponent. -/
def expRender (v : Q) (m : Nat) (e : Int) : List Char :=
  (if v.num < 0 then ['-'] else []) ++
    (natChars m).take 1 ++ '.' :: (natChars m).drop 1 ++
    'e' :: (if e < 0 then '-' :: natChars (-e).toNat else natChars e.toNat)

theorem isDigitC_plus : isDigitC '+' = false := by decide

theorem isDigitC_e : isDigitC 'e' = false := by decide

theorem no_plus_natChars (n : Nat) : '+' ∉ natChars n := by
  intro h
  have := natChars_digits n _ h
  rw [isDigitC_plus] at this
  exact Bool.false_ne_true this

theorem replaceFirstPlus_no_plus {cs : List Char} (h : '+' ∉ cs) :
    replaceFirstPlus cs = cs := by
  induction cs with
  | nil => rfl
  | cons c cs ih =>
    have hc : c ≠ '+' := fun hx => h (by simp [hx])
    rw [replaceFirstPlus, if_neg hc, ih (fun hx => h (by simp [hx]))]

theorem replaceFirstPlus_append {A B : List Char} (h : '+' ∉ A) :
    replaceFirstPlus (A ++ '+' :: B) = A ++ B := by
  induction A with
  | nil => simp [replaceFirstPlus]
  | cons a A ih =>
    have ha : a ≠ '+' := fun hx => h (by simp [hx])
    rw [List.cons_append, replaceFirstPlus, if_neg ha,
      ih (fun hx => h (by simp [hx])), List.cons_append]

theorem no_plus_take_mant (m : Nat) : '+' ∉ (natChars m).take 1 :=
  fun hx => no_plus_natChars m (List.mem_of_mem_take hx)

theorem no_plus_drop_mant (m : Nat) : '+' ∉ (natChars m).drop 1 :=
  fun hx => no_plus_natChars m (List.mem_of_mem_drop hx)

theorem no_plus_tail_mant (m : Nat) : '+' ∉ (natChars m).tail := by
  rw [← List.drop_one]
  exact no_plus_drop_mant m

theorem no_plus_expRender (v : Q) (m : Nat) (e : Int) : '+' ∉ expRender v m e := by
  intro h
  rw [expRender] at h
  have h4 := no_plus_take_mant m
  have h5 := no_plus_drop_mant m
  have h5t := no_plus_tail_mant m
  have h2 := no_plus_natChars e.toNat
  have h3 := no_plus_natChars (-e).toNat
  split at h <;> split at h <;> simp [List.mem_append, h4, h5, h5t, h2, h3] at h

/-- Stripping the first `'+'` from a `toExponential` body yields `expRender`. -/
theorem replaceFirstPlus_expBody (v : Q) (m : Nat) (e : Int) :
    replaceFirstPlus ((if v.num < 0 then ['-'] else []) ++
        ((natChars m).take 1 ++ '.' :: (natChars m).drop 1 ++ 'e' :: expChars e)) =
      expRender v m e := by
  have h4 := no_plus_take_mant m
  have h5 := no_plus_drop_mant m
  have h5t := no_plus_tail_mant m
  have h2 := no_plus_natChars e.toNat
  have h3 := no_plus_natChars (-e).toNat
  rcases Int.lt_or_le e 0 with he | he
  · have hexp : expChars e = '-' :: natChars (-e).toNat := by
      rw [expChars]; exact if_pos he
    rw [hexp]
    rw [replaceFirstPlus_no_plus (by
      intro hmem
      split at hmem <;> simp [List.mem_append, h4, h5, h5t, h3] at hmem)]
    rw [expRender, if_pos he]
    simp [List.append_assoc]
  · have hne : ¬ e < 0 := not_lt.mpr he
    have hexp : expChars e = '+' :: natChars e.toNat := by
      rw [expChars]; exact if_neg hne
    rw [hexp]
    have hassoc : (if v.num < 0 then ['-'] else []) ++
        ((natChars m).take 1 ++ '.' :: (natChars m).drop 1 ++
          'e' :: '+' :: natChars e.toNat) =
        ((if v.num < 0 then ['-'] else []) ++
          ((natChars m).take 1 ++ '.' :: (natChars m).drop 1 ++ ['e'])) ++
          '+' :: natChars e.toNat := by
      simp [List.append_assoc]
    rw [hassoc, replaceFirstPlus_append (by
      intro hmem
      split at hmem <;> simp [List.mem_append, h4, h5, h5t] at hmem)]
    rw [expRender, if_neg hne]
    simp [List.append_assoc]

/-! ## The `toExponential(6)` computation -/

/-- Uniqueness of the decimal exponent. -/
theorem decExpPos_eq (q : Q) (n : Int) (hq : 0 < q.val)
    (h1 : (10:ℚ) ^ (n - 1) ≤ q.val) (h2 : q.val < (10:ℚ) ^ n) : decExpPos q = n := by
  obtain ⟨b1, b2⟩ := decExpPos_bounds q hq
  by_contra hne
  rcases lt_or_gt_of_ne hne with hlt | hgt
  · have : (10:ℚ) ^ (decExpPos q) ≤ (10:ℚ) ^ (n - 1) :=
      zpow_le_zpow_right₀ (by norm_num) (by omega)
    linarith
  · have : (10:ℚ) ^ n ≤ (10:ℚ) ^ (decExpPos q - 1) :=
      zpow_le_zpow_right₀ (by norm_num) (by omega)
    linarith

theorem babs_pos_of_not_zero {v : Q} (hnz : v.isZero = false) : 0 < v.babs.val := by
  rw [Q.val_babs]
  refine abs_pos.mpr ?_
  intro h
  have := (Q.isZero_iff v).mpr h
  rw [hnz] at this
  exact Bool.false_ne_true this

theorem floor_add_half_cast (m : Nat) : ⌊((m:ℚ) + 1/2)⌋ = (m:ℤ) := by
  rw [Int.floor_eq_iff]
  constructor
  · push_cast; linarith
  · push_cast; linarith

/-- `toExp6` on a value that is exactly `±m × 10^(e-6)` with a 7-digit `m`. -/
theorem toExp6_exact (v : Q) (m : Nat) (e : Int)
    (hm1 : pow10 6 ≤ m) (hm2 : m < pow10 7)
    (hval : v.babs.val = (m : ℚ) * (10:ℚ) ^ (e - 6))
    (hnz : v.isZero = false) :
    toExp6 v = (if v.num < 0 then ['-'] else []) ++
      ((natChars m).take 1 ++ '.' :: (natChars m).drop 1 ++ 'e' :: expChars e) := by
  have hten : (10:ℚ) ≠ 0 := by norm_num
  have hm0 : 1 ≤ m := le_trans (pow10_pos 6) hm1
  have hmq : (0:ℚ) < (m:ℚ) := by exact_mod_cast hm0
  have habs_pos : 0 < v.babs.val := by
    rw [hval]
    positivity
  have hdE : decExpPos v.babs = e + 1 := by
    refine decExpPos_eq _ _ habs_pos ?_ ?_
    · have h1 : ((pow10 6 : ℕ):ℚ) ≤ (m:ℚ) := by exact_mod_cast hm1
      rw [pow10_cast_q] at h1
      calc (10:ℚ) ^ (e + 1 - 1) = (10:ℚ) ^ ((6:ℤ)) * (10:ℚ) ^ (e - 6) := by
            rw [← zpow_add₀ hten]; ring_nf
        _ ≤ (m:ℚ) * (10:ℚ) ^ (e - 6) := by
            apply mul_le_mul_of_nonneg_right h1 (le_of_lt (zpow_pos (by norm_num) _))
        _ = v.babs.val := hval.symm
    · have h2 : (m:ℚ) < ((pow10 7 : ℕ):ℚ) := by exact_mod_cast hm2
      rw [pow10_cast_q] at h2
      calc v.babs.val = (m:ℚ) * (10:ℚ) ^ (e - 6) := hval
        _ < (10:ℚ) ^ ((7:ℤ)) * (10:ℚ) ^ (e - 6) := by
            apply mul_lt_mul_of_pos_right h2 (zpow_pos (by norm_num) _)
        _ = (10:ℚ) ^ (e + 1) := by rw [← zpow_add₀ hten]; ring_nf
  have hjs : jsRound (v.babs.mul (pow10Q (6 - (decExpPos v.babs - 1)))) = (m:ℤ) := by
    rw [hdE]
    have he1 : e + 1 - 1 = e := by ring
    rw [he1, jsRound_eq, Q.val_mul, Q.val_pow10Q, hval, mul_assoc,
      ← zpow_add₀ hten]
    have he2 : e - 6 + (6 - e) = 0 := by ring
    rw [he2, zpow_zero, mul_one, floor_add_half_cast]
  have hne : m ≠ pow10 7 := by omega
  rw [toExp6]
  rw [if_neg (by rw [hnz]; exact Bool.false_ne_true)]
  simp only [hjs, Int.toNat_natCast, beq_iff_eq, if_neg hne, Bool.false_eq_true, if_false]
  split
  · simp [hdE, add_sub_cancel_right, List.drop_one]
  · simp [hdE, add_sub_cancel_right, List.drop_one]

/-- `toExp6` on an arbitrary nonzero value: it renders a seven-digit mantissa
`m` and an exponent `e` (the correctly rounded ones). -/
theorem toExp6_cases (v : Q) (hnz : v.isZero = false) :
    ∃ m : Nat, ∃ e : Int,
      pow10 6 ≤ m ∧ m < pow10 7 ∧
      |(m:ℚ) - v.babs.val * (10:ℚ) ^ (6 - e)| ≤ 1/2 ∧
      decExpPos v.babs - 1 ≤ e ∧
      (10:ℚ) ^ e - (10:ℚ) ^ (e - 7) / 2 ≤ v.babs.val ∧
      toExp6 v = (if v.num < 0 then ['-'] else []) ++
        ((natChars m).take 1 ++ '.' :: (natChars m).drop 1 ++ 'e' :: expChars e) := by
  have hten : (10:ℚ) ≠ 0 := by norm_num
  have habs_pos : 0 < v.babs.val := babs_pos_of_not_zero hnz
  obtain ⟨hb1, hb2⟩ := decExpPos_bounds v.babs habs_pos
  set e0 : Int := decExpPos v.babs - 1 with he0
  set x : ℚ := v.babs.val * (10:ℚ) ^ ((6:ℤ) - e0) with hxdef
  have hxpos : 0 < x := mul_pos habs_pos (zpow_pos (by norm_num) _)
  have hx1 : (10:ℚ) ^ ((6:ℤ)) ≤ x := by
    rw [hxdef]
    calc (10:ℚ) ^ ((6:ℤ)) = (10:ℚ) ^ (e0) * (10:ℚ) ^ ((6:ℤ) - e0) := by
          rw [← zpow_add₀ hten]; ring_nf
      _ ≤ v.babs.val * (10:ℚ) ^ ((6:ℤ) - e0) := by
          apply mul_le_mul_of_nonneg_right _ (le_of_lt (zpow_pos (by norm_num) _))
          rw [he0]
          exact hb1
  have hx2 : x < (10:ℚ) ^ ((7:ℤ)) := by
    rw [hxdef]
    calc v.babs.val * (10:ℚ) ^ ((6:ℤ) - e0)
        < (10:ℚ) ^ (e0 + 1) * (10:ℚ) ^ ((6:ℤ) - e0) := by
          apply mul_lt_mul_of_pos_right _ (zpow_pos (by norm_num) _)
          rw [he0, sub_add_cancel]
          exact hb2
      _ = (10:ℚ) ^ ((7:ℤ)) := by rw [← zpow_add₀ hten]; ring_nf
  have hMfloor : jsRound (v.babs.mul (pow10Q (6 - e0))) = ⌊x + 1/2⌋ := by
    rw [jsRound_eq, Q.val_mul, Q.val_pow10Q, hxdef]
  set M : ℤ := ⌊x + 1/2⌋ with hMdef
  have hM1 : (pow10 6 : ℤ) ≤ M := by
    rw [hMdef]
    apply Int.le_floor.mpr
    have hc : ((pow10 6 : ℕ):ℚ) = (10:ℚ) ^ ((6:ℤ)) := pow10_cast_q 6
    push_cast
    rw [hc]
    linarith
  have hM2 : M ≤ (pow10 7 : ℤ) := by
    have hfl : (M:ℚ) ≤ x + 1/2 := Int.floor_le _
    have h1 : (M:ℚ) < ((pow10 7 : ℕ):ℚ) + 1 := by
      rw [pow10_cast_q]
      push_cast
      linarith
    have h2 : M < (pow10 7 : ℤ) + 1 := by exact_mod_cast h1
    omega
  have hup : (M:ℚ) ≤ x + 1/2 := Int.floor_le _
  have hlo : x + 1/2 - 1 < (M:ℚ) := Int.sub_one_lt_floor _
  rw [he0] at hMfloor
  have hb1' : (10:ℚ) ^ e0 ≤ v.babs.val := hb1
  by_cases hover : M = pow10 7
  · refine ⟨pow10 6, e0 + 1, le_refl _, pow10_lt_pow10 (by omega), ?_, by omega, ?_, ?_⟩
    · have hxv : v.babs.val * (10:ℚ) ^ ((6:ℤ) - (e0 + 1)) = x / 10 := by
        rw [hxdef]
        rw [show (6:ℤ) - (e0 + 1) = ((6:ℤ) - e0) + (-1) by ring]
        rw [zpow_add₀ hten, ← mul_assoc]
        rw [zpow_neg, zpow_one]
        ring
      rw [hxv]
      have h1 : ((pow10 7 : ℕ):ℚ) ≤ x + 1/2 := by
        have hle : (pow10 7 : ℤ) ≤ M := le_of_eq hover.symm
        have := Int.le_floor.mp (hMdef ▸ hle)
        push_cast at this ⊢
        linarith [this]
      have hP : ((pow10 7:ℕ):ℚ) = 10 * ((pow10 6:ℕ):ℚ) := by
        rw [pow10_succ]
        push_cast
        ring
      have h2 : x < 10 * ((pow10 6:ℕ):ℚ) := by
        rw [← hP, pow10_cast_q]
        exact hx2
      rw [abs_le]
      constructor
      · linarith
      · linarith
    · have hxa : x * (10:ℚ) ^ (e0 - 6) = v.babs.val := by
        rw [hxdef, mul_assoc, ← zpow_add₀ hten]
        rw [show (6:ℤ) - e0 + (e0 - 6) = 0 by ring, zpow_zero, mul_one]
      have h1 : ((pow10 7 : ℕ):ℚ) ≤ x + 1/2 := by
        have hle : (pow10 7 : ℤ) ≤ M := le_of_eq hover.symm
        have := Int.le_floor.mp (hMdef ▸ hle)
        push_cast at this ⊢
        linarith [this]
      have h2 : (10:ℚ) ^ ((7:ℤ)) - 1/2 ≤ x := by
        rw [show (10:ℚ) ^ ((7:ℤ)) = ((pow10 7 : ℕ) : ℚ) by rw [pow10_cast_q]; norm_num]
        linarith
      have hsc : (0:ℚ) < (10:ℚ) ^ (e0 - 6) := zpow_pos (by norm_num) _
      have h3 : ((10:ℚ) ^ ((7:ℤ)) - 1/2) * (10:ℚ) ^ (e0 - 6) ≤ v.babs.val := by
        rw [← hxa]
        exact mul_le_mul_of_nonneg_right h2 (le_of_lt hsc)
      have h4 : ((10:ℚ) ^ ((7:ℤ)) - 1/2) * (10:ℚ) ^ (e0 - 6) =
          (10:ℚ) ^ (e0 + 1) - (10:ℚ) ^ (e0 + 1 - 7) / 2 := by
        rw [sub_mul, ← zpow_add₀ hten]
        rw [show (7:ℤ) + (e0 - 6) = e0 + 1 by ring,
          show e0 + 1 - 7 = e0 - 6 by ring]
        ring
      rw [← h4]
      exact h3
    · rw [toExp6, if_neg (by rw [hnz]; exact Bool.false_ne_true)]
      simp only [hMfloor, hover, Int.toNat_natCast, beq_self_eq_true, if_true]
      rw [← he0]
      split
      · simp [List.drop_one]
      · simp [List.drop_one]
  · have hMt : ((M.toNat:ℕ):ℚ) = (M:ℚ) := by
      have h0 : (0:ℤ) ≤ M := le_trans (by exact_mod_cast Nat.zero_le _) hM1
      exact_mod_cast congrArg (fun z : ℤ => (z:ℚ)) (Int.toNat_of_nonneg h0)
    refine ⟨M.toNat, e0, by omega, by omega, ?_, by omega, ?_, ?_⟩
    · rw [hMt, abs_le]
      constructor
      · linarith
      · linarith
    · have : (0:ℚ) < (10:ℚ) ^ (e0 - 7) := zpow_pos (by norm_num) _
      linarith
    · rw [toExp6, if_neg (by rw [hnz]; exact Bool.false_ne_true)]
      have hne : M.toNat ≠ pow10 7 := by omega
      simp only [hMfloor, beq_iff_eq, if_neg hne, Bool.false_eq_true, if_false]
      rw [← he0]
      split
      · simp [List.drop_one]
      · simp [List.drop_one]

/-! ## `formatNumber` on the exponential branch -/

theorem babs_isZero_eq (v : Q) : v.babs.isZero = v.isZero := by
  show ((v.num.natAbs : Int) == 0) = (v.num == 0)
  rcases h : v.num with _ | _ <;> simp [Int.natAbs] <;> omega

theorem isZero_false_of_babs_pos {v : Q} (h : 0 < v.babs.val) : v.isZero = false := by
  by_contra hc
  have hz : v.isZero = true := by
    rcases hb : v.isZero with _ | _
    · exact absurd hb hc
    · rfl
  have := (Q.isZero_iff v).mp hz
  rw [Q.val_babs, this] at h
  simp at h

theorem formatNumber_exp (v : Q) (hnz : v.isZero = false)
    (hband : ((pow10Q 12).ble v.babs || v.babs.blt (pow10Q (-9))) = true) :
    ∃ m : Nat, ∃ e : Int,
      pow10 6 ≤ m ∧ m < pow10 7 ∧
      |(m:ℚ) - v.babs.val * (10:ℚ) ^ (6 - e)| ≤ 1/2 ∧
      decExpPos v.babs - 1 ≤ e ∧
      (10:ℚ) ^ e - (10:ℚ) ^ (e - 7) / 2 ≤ v.babs.val ∧
      formatNumber (some v) = ⟨expRender v m e⟩ := by
  obtain ⟨m, e, h1, h2, h3, h4, h4b, h5⟩ := toExp6_cases v hnz
  refine ⟨m, e, h1, h2, h3, h4, h4b, ?_⟩
  have hbabs : v.babs.isZero = false := by rw [babs_isZero_eq, hnz]
  have hcond : (!v.babs.isZero && ((pow10Q 12).ble v.babs || v.babs.blt (pow10Q (-9))))
      = true := by
    rw [hbabs, hband]
    rfl
  simp only [formatNumber, hcond, if_true]
  rw [h5, replaceFirstPlus_expBody]

/-- `formatNumber` on a value that is exactly `±m × 10^(e-6)`, `m` seven
digits, `e` in the exponential band: it renders `expRender`. -/
theorem formatNumber_exp_exact (w : Q) (m : Nat) (e : Int)
    (hm1 : pow10 6 ≤ m) (hm2 : m < pow10 7)
    (hval : w.babs.val = (m:ℚ) * (10:ℚ) ^ (e - 6))
    (hband : 12 ≤ e ∨ e ≤ -10) :
    formatNumber (some w) = ⟨expRender w m e⟩ := by
  have hten : (10:ℚ) ≠ 0 := by norm_num
  have hm0 : 1 ≤ m := le_trans (pow10_pos 6) hm1
  have hmq : (0:ℚ) < (m:ℚ) := by exact_mod_cast hm0
  have habs_pos : 0 < w.babs.val := by
    rw [hval]
    positivity
  have hnz : w.isZero = false := isZero_false_of_babs_pos habs_pos
  have hlow : (10:ℚ) ^ e ≤ w.babs.val := by
    have h1 : ((pow10 6 : ℕ):ℚ) ≤ (m:ℚ) := by exact_mod_cast hm1
    rw [pow10_cast_q] at h1
    calc (10:ℚ) ^ e = (10:ℚ) ^ ((6:ℤ)) * (10:ℚ) ^ (e - 6) := by
          rw [← zpow_add₀ hten]; ring_nf
      _ ≤ (m:ℚ) * (10:ℚ) ^ (e - 6) :=
          mul_le_mul_of_nonneg_right h1 (le_of_lt (zpow_pos (by norm_num) _))
      _ = w.babs.val := hval.symm
  have hhigh : w.babs.val < (10:ℚ) ^ (e + 1) := by
    have h2 : (m:ℚ) < ((pow10 7 : ℕ):ℚ) := by exact_mod_cast hm2
    rw [pow10_cast_q] at h2
    calc w.babs.val = (m:ℚ) * (10:ℚ) ^ (e - 6) := hval
      _ < (10:ℚ) ^ ((7:ℤ)) * (10:ℚ) ^ (e - 6) :=
          mul_lt_mul_of_pos_right h2 (zpow_pos (by norm_num) _)
      _ = (10:ℚ) ^ (e + 1) := by rw [← zpow_add₀ hten]; ring_nf
  have hb : ((pow10Q 12).ble w.babs || w.babs.blt (pow10Q (-9))) = true := by
    rcases hband with h | h
    · have : (pow10Q 12).ble w.babs = true := by
        rw [Q.ble_iff, Q.val_pow10Q]
        calc (10:ℚ) ^ ((12:ℤ)) ≤ (10:ℚ) ^ e := zpow_le_zpow_right₀ (by norm_num) h
          _ ≤ w.babs.val := hlow
      rw [this, Bool.true_or]
    · have : w.babs.blt (pow10Q (-9)) = true := by
        rw [Q.blt_iff, Q.val_pow10Q]
        calc w.babs.val < (10:ℚ) ^ (e + 1) := hhigh
          _ ≤ (10:ℚ) ^ ((-9:ℤ)) := zpow_le_zpow_right₀ (by norm_num) (by omega)
      rw [this, Bool.or_true]
  have h5 := toExp6_exact w m e hm1 hm2 hval hnz
  have hbabs : w.babs.isZero = false := by rw [babs_isZero_eq, hnz]
  have hcond : (!w.babs.isZero && ((pow10Q 12).ble w.babs || w.babs.blt (pow10Q (-9))))
      = true := by
    rw [hbabs, hb]
    rfl
  simp only [formatNumber, hcond, if_true]
  rw [h5, replaceFirstPlus_expBody]

/-! ## Parsing rendered strings back: `jsNumber` on canonical shapes -/

theorem isDigitC_minus_ne {d : Char} (hd : isDigitC d = true) : d ≠ '-' := by
  intro h
  rw [h, isDigitC_minus] at hd
  exact Bool.false_ne_true hd

theorem isDigitC_plus_ne {d : Char} (hd : isDigitC d = true) : d ≠ '+' := by
  intro h
  rw [h, isDigitC_plus] at hd
  exact Bool.false_ne_true hd

theorem signSplit_minus (r : List Char) : signSplit ('-' :: r) = (true, r) := rfl

theorem signSplit_digit {d : Char} (hd : isDigitC d = true) (r : List Char) :
    signSplit (d :: r) = (false, d :: r) := by
  have h1 := isDigitC_minus_ne hd
  have h2 := isDigitC_plus_ne hd
  rw [signSplit.eq_def]
  split
  · rename_i heq
    injection heq with ha
    exact absurd ha h1
  · rename_i heq
    injection heq with ha
    exact absurd ha h2
  · rfl

theorem fracSplit_dot (r : List Char) :
    fracSplit ('.' :: r) = (leadDigits r, r.drop (leadDigits r).length) := rfl

theorem fracSplit_nil : fracSplit [] = ([], []) := rfl

theorem parseExpPart_nil : parseExpPart [] = some 0 := rfl

theorem natChars_isEmpty (n : Nat) : (natChars n).isEmpty = false := by
  rcases h : natChars n with _ | ⟨c, cs⟩
  · exact absurd h (natChars_ne_nil n)
  · rfl

/-- `parseExpPart` on the exponent tail that `expRender` lays out. -/
theorem parseExpPart_e (e : Int) :
    parseExpPart ('e' :: (if e < 0 then '-' :: natChars (-e).toNat
      else natChars e.toNat)) = some e := by
  rcases Int.lt_or_le e 0 with he | he
  · rw [if_pos he]
    have hall : leadDigits (natChars (-e).toNat) = natChars (-e).toNat :=
      leadDigits_all _ (fun c hc => natChars_digits _ c hc)
    simp only [parseExpPart, signSplit_minus]
    rw [if_pos (by decide : (('e' == 'e') || ('e' == 'E')) = true)]
    simp only [hall, natChars_isEmpty, Bool.false_eq_true, if_false, List.drop_length,
      List.isEmpty_nil, if_true, charsVal_natChars]
    congr 1
    have h0 : (0:ℤ) ≤ -e := by omega
    have := Int.toNat_of_nonneg h0
    omega
  · rw [if_neg (not_lt.mpr he)]
    rcases hnc : natChars e.toNat with _ | ⟨d, r⟩
    · exact absurd hnc (natChars_ne_nil e.toNat)
    have hd : isDigitC d = true := natChars_digits e.toNat d (by rw [hnc]; simp)
    have hall : leadDigits (natChars e.toNat) = natChars e.toNat :=
      leadDigits_all _ (fun c hc => natChars_digits _ c hc)
    rw [hnc] at hall
    simp only [parseExpPart, signSplit_digit hd]
    rw [if_pos (by decide : (('e' == 'e') || ('e' == 'E')) = true)]
    simp only [hall, List.isEmpty_cons, Bool.false_eq_true, if_false, List.drop_length,
      List.isEmpty_nil, if_true]
    rw [← hnc, charsVal_natChars]
    congr 1
    exact Int.toNat_of_nonneg he

/-- `Number` on an optional minus, digits, optional dot-fraction. -/
theorem jsNumber_plain (s : Bool) (D F : List Char)
    (hD : ∀ c ∈ D, isDigitC c = true) (hDne : D ≠ [])
    (hF : ∀ c ∈ F, isDigitC c = true) :
    ∃ q : Q, jsNumber ((if s then ['-'] else []) ++ D ++
        (if F.isEmpty then [] else '.' :: F)) = some q ∧
      q.val * ((pow10 F.length : ℕ) : ℚ) = (if s then (-1:ℚ) else 1) *
        ((charsVal D : ℚ) * ((pow10 F.length : ℕ) : ℚ) + (charsVal F : ℚ)) := by
  have hLtail : leadDigits (if F.isEmpty then [] else '.' :: F) = [] := by
    rcases F with _ | ⟨f, F'⟩
    · rfl
    · rw [if_neg (by simp)]
      exact leadDigits_cons_not _ isDigitC_dot
  have hI : leadDigits (D ++ (if F.isEmpty then [] else '.' :: F)) = D := by
    rw [leadDigits_append _ _ hD, hLtail, List.append_nil]
  have hfr : fracSplit (if F.isEmpty then [] else '.' :: F) = (F, []) := by
    rcases F with _ | ⟨f, F'⟩
    · rfl
    · rw [if_neg (by simp), fracSplit_dot, leadDigits_all _ hF, List.drop_length]
  have hDE : D.isEmpty = false := by
    rcases D with _ | _
    · exact absurd rfl hDne
    · rfl
  have hsr : signSplit ((if s then ['-'] else []) ++ D ++
      (if F.isEmpty then [] else '.' :: F)) =
      (s, D ++ (if F.isEmpty then [] else '.' :: F)) := by
    rcases D with _ | ⟨d, D'⟩
    · exact absurd rfl hDne
    have hd : isDigitC d = true := hD d (by simp)
    rcases s with _ | _
    · show signSplit (d :: (D' ++ _)) = _
      rw [signSplit_digit hd]
      simp [List.cons_append]
    · show signSplit ('-' :: (d :: D' ++ _)) = _
      rw [signSplit_minus]
  have hne : ((if s then ['-'] else []) ++ D ++
      (if F.isEmpty then [] else '.' :: F)).isEmpty = false := by
    rcases D with _ | ⟨d, D'⟩
    · exact absurd rfl hDne
    rcases s with _ | _ <;> rfl
  refine ⟨(Q.dec (if s then -((charsVal D : ℤ) * ((pow10 F.length : ℕ) : ℤ) +
      (charsVal F : ℤ)) else (charsVal D : ℤ) * ((pow10 F.length : ℕ) : ℤ) +
      (charsVal F : ℤ)) F.length).mul (pow10Q 0), ?_, ?_⟩
  · rw [jsNumber, if_neg (by rw [hne]; exact Bool.false_ne_true)]
    simp only [hsr, hI, List.drop_left, hfr, hDE, Bool.false_and, Bool.false_eq_true,
      if_false, parseExpPart_nil]
  · rw [Q.val_mul, Q.val_dec, Q.val_pow10Q, zpow_zero, mul_one]
    have hp : ((10:ℚ) ^ (F.length : ℕ)) = ((pow10 F.length : ℕ) : ℚ) := by
      rw [pow10_eq]; push_cast; ring
    have hpne : ((pow10 F.length : ℕ) : ℚ) ≠ 0 := by
      have := pow10_pos F.length
      positivity
    rcases s with _ | _ <;>
      simp only [Bool.false_eq_true, if_false, if_true] <;>
      rw [hp] <;> push_cast <;> (try field_simp) <;> (try ring)

/-- Re-parsing an `expRender` display: `Number` recovers `±m × 10^(e-6)`
exactly. -/
theorem jsNumber_expRender (v : Q) (m : Nat) (e : Int)
    (hm1 : pow10 6 ≤ m) (hm2 : m < pow10 7) :
    ∃ q : Q, jsNumber (expRender v m e) = some q ∧
      q.babs.val = (m:ℚ) * (10:ℚ) ^ (e - 6) ∧ ((q.num < 0) ↔ (v.num < 0)) := by
  have hm0 : 1 ≤ m := le_trans (pow10_pos 6) hm1
  have hlen7 : intLen m = 7 := intLen_eq_of_bounds (by omega) (by exact hm1) hm2
  rcases hnc : natChars m with _ | ⟨d0, rest⟩
  · exact absurd hnc (natChars_ne_nil m)
  have hd0 : isDigitC d0 = true := natChars_digits m d0 (by rw [hnc]; simp)
  have hrest : ∀ c ∈ rest, isDigitC c = true :=
    fun c hc => natChars_digits m c (by rw [hnc]; simp [hc])
  have hrlen : rest.length = 6 := by
    have : (natChars m).length = 7 := hlen7
    rw [hnc] at this
    simpa using this
  have hshape : expRender v m e = (if v.num < 0 then ['-'] else []) ++
      (d0 :: '.' :: (rest ++ 'e' :: (if e < 0 then '-' :: natChars (-e).toNat
        else natChars e.toNat))) := by
    rw [expRender, hnc]
    simp [List.append_assoc]
  have hsr : signSplit (expRender v m e) = (decide (v.num < 0),
      d0 :: '.' :: (rest ++ 'e' :: (if e < 0 then '-' :: natChars (-e).toNat
        else natChars e.toNat))) := by
    rw [hshape]
    by_cases hs : v.num < 0
    · rw [if_pos hs]
      simp only [decide_eq_true hs]
      rfl
    · rw [if_neg hs, List.nil_append, signSplit_digit hd0]
      simp only [decide_eq_false hs]
  have hI : leadDigits (d0 :: '.' :: (rest ++ 'e' :: (if e < 0 then
      '-' :: natChars (-e).toNat else natChars e.toNat))) = [d0] := by
    have h1 := leadDigits_append [d0] ('.' :: (rest ++ 'e' :: (if e < 0 then
      '-' :: natChars (-e).toNat else natChars e.toNat))) (by simpa using hd0)
    simp only [List.singleton_append] at h1
    rw [h1, leadDigits_cons_not _ isDigitC_dot]
  have hfrac : fracSplit ('.' :: (rest ++ 'e' :: (if e < 0 then
      '-' :: natChars (-e).toNat else natChars e.toNat))) =
      (rest, 'e' :: (if e < 0 then '-' :: natChars (-e).toNat
        else natChars e.toNat)) := by
    rw [fracSplit_dot]
    have h1 := leadDigits_append rest ('e' :: (if e < 0 then
      '-' :: natChars (-e).toNat else natChars e.toNat)) hrest
    rw [leadDigits_cons_not _ isDigitC_e, List.append_nil] at h1
    rw [h1, List.drop_left]
  set B : ℤ := (charsVal [d0] : ℤ) * ((pow10 rest.length : ℕ) : ℤ) +
      (charsVal rest : ℤ) with hBdef
  have hbase : B = (m : ℤ) := by
    have h1 : charsVal (d0 :: rest) = m := by rw [← hnc, charsVal_natChars]
    rw [charsVal_cons] at h1
    rw [hBdef, charsVal_singleton]
    exact_mod_cast congrArg (fun n : ℕ => (n : ℤ)) h1
  have hBm : (B : ℚ) = (m : ℚ) := by exact_mod_cast hbase
  have hBpos : (0:ℚ) < (B : ℚ) := by
    rw [hBm]
    exact_mod_cast hm0
  have hne : (expRender v m e).isEmpty = false := by
    rw [hshape]
    by_cases hs : v.num < 0
    · rw [if_pos hs]; rfl
    · rw [if_neg hs]; rfl
  refine ⟨(Q.dec (if decide (v.num < 0) then -B else B) rest.length).mul (pow10Q e),
    ?_, ?_, ?_⟩
  · rw [jsNumber, if_neg (by rw [hne]; exact Bool.false_ne_true)]
    simp only [hsr, hI, List.isEmpty_cons, Bool.false_and, Bool.false_eq_true, if_false]
    have hdrop : (d0 :: '.' :: (rest ++ 'e' :: (if e < 0 then
        '-' :: natChars (-e).toNat else natChars e.toNat))).drop
        ([d0] : List Char).length = '.' :: (rest ++ 'e' :: (if e < 0 then
        '-' :: natChars (-e).toNat else natChars e.toNat)) := rfl
    rw [hdrop, hfrac]
    simp only [parseExpPart_e]
  · rw [Q.val_babs, Q.val_mul, Q.val_dec, Q.val_pow10Q, abs_mul]
    have hposp : |(10:ℚ) ^ e| = (10:ℚ) ^ e := abs_of_pos (zpow_pos (by norm_num) _)
    rw [hposp]
    have hcast : ((if decide (v.num < 0) then -B else B : ℤ) : ℚ) =
        (if decide (v.num < 0) then -(m:ℚ) else (m:ℚ)) := by
      split
      · push_cast
        rw [hBm]
      · exact hBm
    rw [hcast]
    have habs : |(if decide (v.num < 0) then -(m:ℚ) else (m:ℚ)) /
        ((10:ℚ) ^ (rest.length : ℕ))| = (m:ℚ) / ((10:ℚ) ^ (rest.length : ℕ)) := by
      rw [abs_div]
      congr 1
      · split <;> simp
      · exact abs_of_pos (by positivity)
    rw [habs, hrlen]
    rw [show ((10:ℚ) ^ ((6:ℕ) : ℕ)) = (10:ℚ) ^ ((6:ℤ)) by norm_num]
    rw [div_mul_eq_mul_div, div_eq_iff (by positivity : ((10:ℚ) ^ ((6:ℤ))) ≠ 0)]
    rw [mul_assoc, ← zpow_add₀ (by norm_num : (10:ℚ) ≠ 0)]
    ring_nf
  · rw [← Q.val_neg_iff]
    rw [Q.val_mul, Q.val_dec, Q.val_pow10Q]
    have hppow : (0:ℚ) < (10:ℚ) ^ (rest.length : ℕ) := by positivity
    constructor
    · intro hneg
      by_contra hs
      rw [decide_eq_false hs] at hneg
      simp only [Bool.false_eq_true, if_false] at hneg
      have hge : (0:ℚ) ≤ ((B : ℤ) : ℚ) / ((10:ℚ) ^ (rest.length : ℕ)) * ((10:ℚ) ^ e) := by
        apply mul_nonneg (div_nonneg (le_of_lt hBpos) (le_of_lt hppow))
          (le_of_lt (zpow_pos (by norm_num) _))
      linarith
    · intro hs
      rw [decide_eq_true hs]
      simp only [if_true]
      apply mul_neg_of_neg_of_pos _ (zpow_pos (by norm_num) _)
      apply div_neg_of_neg_of_pos _ hppow
      push_cast
      linarith

/-! ## The terminating-decimal search of `posDigits` -/

theorem fracLenCore_eq (fuel : Nat) (num den : Int) (k0 kmin : Nat)
    (hge : k0 ≤ kmin) (hlt : kmin < k0 + fuel)
    (hdvd : (num * (pow10 kmin : Nat) % den == 0) = true)
    (hmin : ∀ j, k0 ≤ j → j < kmin → (num * (pow10 j : Nat) % den == 0) = false) :
    fracLenCore fuel num den k0 = some kmin := by
  induction fuel generalizing k0 with
  | zero => omega
  | succ fuel ih =>
    rw [fracLenCore]
    by_cases hk : k0 = kmin
    · subst hk
      rw [hdvd]
      simp
    · have h0 : (num * (pow10 k0 : Nat) % den == 0) = false :=
        hmin k0 (le_refl _) (by omega)
      rw [h0]
      simp only [Bool.false_eq_true, if_false]
      exact ih (k0 + 1) (by omega) (by omega) (fun j hj1 hj2 => hmin j (by omega) hj2)

/-- If `10^L` divides `d * T` and `T` is not a multiple of 10, `d ≥ 2^L`. -/
theorem den_lower (L d T : Nat) (hd : 0 < d) (hT : ¬ 10 ∣ T)
    (hdvd : 10 ^ L ∣ d * T) : 2 ^ L ≤ d := by
  have h25 : ¬ 2 ∣ T ∨ ¬ 5 ∣ T := by
    by_contra hc
    push_neg at hc
    exact hT (Nat.Coprime.mul_dvd_of_dvd_of_dvd (by norm_num) hc.1 hc.2)
  rcases h25 with h2 | h5
  · have hp : (2:ℕ).Prime := Nat.prime_two
    have hcop : Nat.Coprime (2 ^ L) T :=
      Nat.Coprime.pow_left L ((Nat.Prime.coprime_iff_not_dvd hp).mpr h2)
    have h2L : 2 ^ L ∣ d * T := dvd_trans (pow_dvd_pow_of_dvd (by norm_num) L) hdvd
    have : 2 ^ L ∣ d := (Nat.Coprime.dvd_of_dvd_mul_right hcop) h2L
    exact Nat.le_of_dvd hd this
  · have hp : (5:ℕ).Prime := by norm_num
    have hcop : Nat.Coprime (5 ^ L) T :=
      Nat.Coprime.pow_left L ((Nat.Prime.coprime_iff_not_dvd hp).mpr h5)
    have h5L : 5 ^ L ∣ d * T := dvd_trans (pow_dvd_pow_of_dvd (by norm_num) L) hdvd
    have h5d : 5 ^ L ∣ d := (Nat.Coprime.dvd_of_dvd_mul_right hcop) h5L
    calc 2 ^ L ≤ 5 ^ L := Nat.pow_le_pow_left (by norm_num) L
      _ ≤ d := Nat.le_of_dvd hd h5d

/-- The last digit of a rendering is the residue mod 10. -/
theorem natChars_getLast (n : Nat) :
    (natChars n).getLast? = some (digitChar (n % 10)) := by
  by_cases h : n < 10
  · rw [natChars_lt_10 h, Nat.mod_eq_of_lt h]
    rfl
  · rw [natChars_rec (by omega), List.getLast?_append]
    rfl

theorem charsVal_concat_mod (A : List Char) (d : Char) (hd : isDigitC d = true) :
    charsVal (A ++ [d]) % 10 = charVal d := by
  rw [charsVal_append, charsVal_singleton]
  have h1 : charVal d < 10 := charVal_lt_10 d hd
  have h2 : (pow10 ([d] : List Char).length) = 10 := rfl
  rw [h2]
  omega

/-- Evaluation of `posDigits` on a positive value `T / 10^L` presented with
minimal fractional length (no trailing zero in the fraction). -/
theorem posDigits_eval (q : Q) (T L : Nat) (hT1 : 1 ≤ T)
    (hnum : q.num * ((pow10 L : ℕ) : ℤ) = (T : ℤ) * q.den)
    (hcond : L = 0 ∨ ¬ 10 ∣ T) :
    posDigits q = some (stripTrailZeros (natChars T), (intLen T : ℤ) - (L : ℤ)) := by
  have hden : q.den ≠ 0 := by have := q.dpos; omega
  have hdvdL : (q.num * ((pow10 L : ℕ) : ℤ) % q.den == 0) = true := by
    rw [beq_iff_eq]
    exact Int.emod_eq_zero_of_dvd ⟨(T : ℤ), by rw [hnum]; ring⟩
  have hmin : ∀ j, 0 ≤ j → j < L → (q.num * ((pow10 j : Nat) : ℤ) % q.den == 0) = false := by
    intro j _ hjL
    rw [beq_eq_false_iff_ne]
    intro hmod
    have hdvd : q.den ∣ q.num * ((pow10 j : Nat) : ℤ) := Int.dvd_of_emod_eq_zero hmod
    obtain ⟨c, hc⟩ := hdvd
    have hxp : q.num * ((pow10 L : Nat) : ℤ) =
        c * ((pow10 (L - j) : Nat) : ℤ) * q.den := by
      have hsplit : ((pow10 L : Nat) : ℤ) = ((pow10 j : Nat) : ℤ) *
          ((pow10 (L - j) : Nat) : ℤ) := by
        rw [pow10_eq, pow10_eq, pow10_eq]
        push_cast
        rw [← pow_add]
        congr 1
        omega
      calc q.num * ((pow10 L : Nat) : ℤ)
          = q.num * ((pow10 j : Nat) : ℤ) * ((pow10 (L - j) : Nat) : ℤ) := by
            rw [hsplit]; ring
        _ = q.den * c * ((pow10 (L - j) : Nat) : ℤ) := by rw [hc]
        _ = c * ((pow10 (L - j) : Nat) : ℤ) * q.den := by ring
    rw [hnum] at hxp
    have hTc : (T : ℤ) = c * ((pow10 (L - j) : Nat) : ℤ) :=
      mul_right_cancel₀ hden hxp
    have h10T : (10 : ℤ) ∣ (T : ℤ) := by
      rw [hTc]
      have : (10 : ℤ) ∣ ((pow10 (L - j) : Nat) : ℤ) := by
        have h1 : 1 ≤ L - j := by omega
        have : (10:ℕ) ∣ pow10 (L - j) := by
          rw [pow10_eq]
          exact dvd_pow_self 10 (by omega)
        exact_mod_cast Int.natCast_dvd_natCast.mpr this
      exact Dvd.dvd.mul_left this c
    have h10T' : 10 ∣ T := by exact_mod_cast h10T
    rcases hcond with h | h
    · omega
    · exact h h10T'
  have hfuel : L < q.den.natAbs + 1 := by
    rcases hcond with h | h
    · omega
    · have hdN : 0 < q.den.natAbs := by have := q.dpos; omega
      have hdvdN : 10 ^ L ∣ q.den.natAbs * T := by
        have h1 : ((pow10 L : ℕ) : ℤ) ∣ (T : ℤ) * q.den :=
          ⟨q.num, by rw [← hnum]; ring⟩
        have h2 : (pow10 L : ℕ) ∣ (T * q.den.natAbs : ℕ) := by
          have h3 := Int.natAbs_dvd_natAbs.mpr h1
          simpa [Int.natAbs_mul] using h3
        rw [pow10_eq] at h2
        rwa [Nat.mul_comm] at h2
      have := den_lower L q.den.natAbs T hdN h hdvdN
      have h2L := Nat.lt_two_pow L
      omega
  have hflc : fracLenCore (q.den.natAbs + 1) q.num q.den 0 = some L :=
    fracLenCore_eq _ _ _ 0 L (by omega) (by omega) hdvdL hmin
  rw [posDigits, hflc]
  have hdiv : q.num * ((pow10 L : Nat) : ℤ) / q.den = (T : ℤ) := by
    rw [hnum]
    exact Int.mul_ediv_cancel _ hden
  simp only [hdiv, Int.natAbs_ofNat]
  rfl

/-! ## Fraction-digit decompositions -/

theorem replicate_getLast (j : Nat) (h : 1 ≤ j) :
    (List.replicate j '0').getLast? = some '0' := by
  rcases Nat.exists_eq_add_of_le h with ⟨k, hk⟩
  subst hk
  rw [show 1 + k = k + 1 by omega, List.replicate_succ', List.getLast?_concat]

theorem getLast_concat_eq (A : List Char) (d : Char) :
    (A ++ [d]).getLast? = some d := by
  rw [List.getLast?_concat]

theorem charsVal_pos_of_head {F : List Char} (hne : F ≠ [])
    (hd : ∀ c ∈ F, isDigitC c = true) (hh : F.headD '0' ≠ '0') :
    1 ≤ charsVal F := by
  rcases F with _ | ⟨f, F'⟩
  · exact absurd rfl hne
  · have hf : isDigitC f = true := hd f (by simp)
    have hfne : f ≠ '0' := by simpa using hh
    have hv1 : 1 ≤ charVal f := by
      by_contra hv0
      have h0 : charVal f = 0 := by omega
      have hda := digitChar_charVal f hf
      rw [h0] at hda
      exact hfne (by rw [← hda]; rfl)
    rw [charsVal_cons]
    have := pow10_pos F'.length
    nlinarith

/-- Decomposition of a digit fraction with no trailing zero: leading zeros,
then the rendering of its value. -/
theorem frac_decomp (F : List Char) (hFne : F ≠ [])
    (hF : ∀ c ∈ F, isDigitC c = true) (htz : F.getLast? ≠ some '0') :
    ∃ j : Nat, ∃ G : List Char,
      F = List.replicate j '0' ++ G ∧ G ≠ [] ∧
      charsVal F = charsVal G ∧ natChars (charsVal F) = G ∧
      intLen (charsVal F) = G.length ∧ 1 ≤ charsVal F ∧
      F.length = j + G.length := by
  set j := (F.takeWhile (fun c => c == '0')).length with hj
  set G := F.dropWhile (fun c => c == '0') with hG
  have hsplit : F = List.replicate j '0' ++ G := leadZeros_split F
  have hGne : G ≠ [] := by
    intro hnil
    rw [hnil, List.append_nil] at hsplit
    have hj1 : 1 ≤ j := by
      by_contra hj0
      have : j = 0 := by omega
      rw [this] at hsplit
      simp at hsplit
      exact hFne hsplit
    exact htz (by rw [hsplit]; exact replicate_getLast j hj1)
  have hGd : ∀ c ∈ G, isDigitC c = true := by
    intro c hc
    exact hF c (by rw [hsplit]; simp [hc])
  have hGh : G.headD '0' ≠ '0' := dropWhile_zero_headD hGne
  have hval : charsVal F = charsVal G := by
    conv_lhs => rw [hsplit]
    exact charsVal_replicate_zero_append j G
  have hnat : natChars (charsVal F) = G := by
    rw [hval]
    exact natChars_charsVal G hGne hGd hGh
  refine ⟨j, G, hsplit, hGne, hval, hnat, ?_, ?_, ?_⟩
  · rw [intLen, hnat]
  · rw [hval]
    exact charsVal_pos_of_head hGne hGd hGh
  · rw [hsplit]
    simp

/-- The ECMAScript plain layout of `N * 10^L + charsVal F` over `10^L`
reconstructs the integer digits, the dot and the fraction digits. -/
theorem renderPosPlain_eval (N : Nat) (F : List Char)
    (hF : ∀ c ∈ F, isDigitC c = true)
    (htz : F ≠ [] → F.getLast? ≠ some '0') :
    renderPosPlain (stripTrailZeros (natChars (N * pow10 F.length + charsVal F)))
      ((intLen (N * pow10 F.length + charsVal F) : ℤ) - (F.length : ℤ)) =
    natChars N ++ (if F.isEmpty then [] else '.' :: F) := by
  by_cases hFe : F = []
  · subst hFe
    have hT : N * pow10 ([] : List Char).length + charsVal [] = N := by
      show N * pow10 0 + 0 = N
      show N * 1 + 0 = N
      omega
    rw [hT]
    have hlen : (stripTrailZeros (natChars N)).length ≤ intLen N := by
      rw [intLen]
      exact stripTrailZeros_length_le _
    rw [renderPosPlain, if_pos (by
      simp only [List.length_nil, Int.natCast_zero, sub_zero]
      push_cast
      omega :
      ((stripTrailZeros (natChars N)).length : ℤ) ≤
        (intLen N : ℤ) - (([] : List Char).length : ℤ))]
    have htn : (((intLen N : ℤ) - (([] : List Char).length : ℤ)) -
        ((stripTrailZeros (natChars N)).length : ℤ)).toNat =
        intLen N - (stripTrailZeros (natChars N)).length := by
      simp only [List.length_nil, Int.natCast_zero, sub_zero]
      omega
    rw [htn]
    simp only [List.isEmpty_nil, if_true, List.append_nil]
    rw [intLen, ← stripTrailZeros_pad]
  · have hFne : F ≠ [] := hFe
    obtain ⟨j, G, hsplit, hGne, hval, hnat, hilen, hcF1, hlen⟩ :=
      frac_decomp F hFne hF (htz hFne)
    have hL1 : 1 ≤ F.length := List.length_pos.mpr hFne
    set L := F.length with hLdef
    set cF := charsVal F with hcFdef
    set T := N * pow10 L + cF with hTdef
    have hcFlt : cF < pow10 L := charsVal_lt F hF
    have hT10 : ¬ 10 ∣ T := by
      rcases List.eq_nil_or_concat F with hnil | ⟨A, d, hAd⟩
      · exact absurd hnil hFne
      have hd : isDigitC d = true := hF d (by rw [hAd]; simp)
      have hdne : d ≠ '0' := by
        intro hd0
        exact htz hFne (by rw [hAd, List.concat_eq_append, getLast_concat_eq, hd0])
      have hv1 : 1 ≤ charVal d := by
        by_contra hv0
        have h0 : charVal d = 0 := by omega
        have hda := digitChar_charVal d hd
        rw [h0] at hda
        exact hdne (by rw [← hda]; rfl)
      have hvlt : charVal d < 10 := charVal_lt_10 d hd
      have hmodF : cF % 10 = charVal d := by
        rw [hcFdef, hAd, List.concat_eq_append]
        exact charsVal_concat_mod A d hd
      have hmodP : N * pow10 L % 10 = 0 := by
        obtain ⟨t, ht⟩ : (10:ℕ) ∣ pow10 L := by
          rw [pow10_eq]
          exact dvd_pow_self 10 (by omega)
        rw [ht, show N * (10 * t) = N * t * 10 by ring]
        exact Nat.mul_mod_left _ _
      intro hdvd
      rw [hTdef] at hdvd
      omega
    have hstrip : stripTrailZeros (natChars T) = natChars T := by
      apply stripTrailZeros_eq_self
      rw [natChars_getLast]
      intro hc
      have h1 : digitChar (T % 10) = '0' := by injection hc
      have h2 := (digitChar_eq_zero_iff (T % 10) (by omega)).mp h1
      omega
    rw [hstrip]
    have hnotEmpty : ¬ (F.isEmpty = true) := by
      simp [List.isEmpty_iff, hFne]
    rcases Nat.eq_zero_or_pos N with hN0 | hN1
    · have hTc : T = cF := by rw [hTdef, hN0]; ring
      have hnc : natChars T = G := by rw [hTc]; exact hnat
      have hit : intLen T = G.length := by rw [hTc]; exact hilen
      rw [hnc, hit]
      rw [renderPosPlain]
      rw [if_neg (by push_cast; omega)]
      rw [if_neg (by push_cast; omega)]
      have hj : ((-(((G.length : ℤ)) - (L : ℤ))).toNat) = j := by omega
      rw [hj]
      have h0 : natChars N = ['0'] := by rw [hN0]; exact natChars_lt_10 (by omega)
      rw [h0, if_neg hnotEmpty]
      rw [hsplit]
      rfl
    · have hsplitT : natChars T =
          natChars N ++ (List.replicate j '0' ++ G) := by
        rw [hTdef, natChars_split N L cF hN1 hcF1 hcFlt, hnat, hilen]
        have hLj : L - G.length = j := by omega
        rw [hLj, List.append_assoc]
      have hlenT : intLen T = intLen N + L := by
        rw [intLen, hsplitT]
        simp only [List.length_append, List.length_replicate]
        rw [← intLen]
        omega
      rw [hsplitT, hlenT]
      rw [renderPosPlain]
      have hNlen : (natChars N).length = intLen N := rfl
      rw [if_neg (by
        simp only [List.length_append, List.length_replicate, hNlen]
        push_cast
        omega)]
      rw [if_pos (by
        have := intLen_pos N
        push_cast
        omega)]
      have htn' : (((intLen N + L : ℕ) : ℤ) - (L : ℤ)).toNat = (natChars N).length := by
        rw [hNlen]
        omega
      rw [htn', List.take_left, List.drop_left]
      rw [if_neg hnotEmpty, hsplit]

/-! ## `jsToString` and `formatNumber` on the plain-decimal band -/

theorem T_not_dvd_10 (N : Nat) (F : List Char) (hFne : F ≠ [])
    (hF : ∀ c ∈ F, isDigitC c = true) (htz : F.getLast? ≠ some '0') :
    ¬ 10 ∣ (N * pow10 F.length + charsVal F) := by
  have hL1 : 1 ≤ F.length := List.length_pos.mpr hFne
  rcases List.eq_nil_or_concat F with hnil | ⟨A, d, hAd⟩
  · exact absurd hnil hFne
  have hd : isDigitC d = true := hF d (by rw [hAd]; simp)
  have hdne : d ≠ '0' := by
    intro hd0
    exact htz (by rw [hAd, List.concat_eq_append, getLast_concat_eq, hd0])
  have hv1 : 1 ≤ charVal d := by
    by_contra hv0
    have h0 : charVal d = 0 := by omega
    have hda := digitChar_charVal d hd
    rw [h0] at hda
    exact hdne (by rw [← hda]; rfl)
  have hvlt : charVal d < 10 := charVal_lt_10 d hd
  have hmodF : charsVal F % 10 = charVal d := by
    rw [hAd, List.concat_eq_append]
    exact charsVal_concat_mod A d hd
  have hmodP : N * pow10 F.length % 10 = 0 := by
    obtain ⟨t, ht⟩ : (10:ℕ) ∣ pow10 F.length := by
      rw [pow10_eq]
      exact dvd_pow_self 10 (by omega)
    rw [ht, show N * (10 * t) = N * t * 10 by ring]
    exact Nat.mul_mod_left _ _
  intro hdvd
  omega

theorem jsToString_plain (v : Q) (s : Bool) (N : Nat) (F : List Char)
    (hF : ∀ c ∈ F, isDigitC c = true)
    (htz : F ≠ [] → F.getLast? ≠ some '0')
    (hvalm : v.val * ((pow10 F.length : ℕ) : ℚ) = (if s then (-1:ℚ) else 1) *
      ((N : ℚ) * ((pow10 F.length : ℕ) : ℚ) + (charsVal F : ℚ)))
    (hlow : pow10 F.length ≤ (N * pow10 F.length + charsVal F) * pow10 6)
    (h17 : N * pow10 F.length + charsVal F < pow10 17) :
    jsToString v = (if s then ['-'] else []) ++
      (natChars N ++ (if F.isEmpty then [] else '.' :: F)) := by
  have hT1 : 1 ≤ N * pow10 F.length + charsVal F := by
    rcases Nat.eq_zero_or_pos (N * pow10 F.length + charsVal F) with h0 | h1
    · rw [h0] at hlow
      have := pow10_pos F.length
      simp at hlow
      omega
    · exact h1
  have hTq : (0:ℚ) < ((N * pow10 F.length + charsVal F : ℕ) : ℚ) := by
    exact_mod_cast hT1
  have hpq : (0:ℚ) < ((pow10 F.length : ℕ) : ℚ) := by
    have := pow10_pos F.length
    exact_mod_cast this
  have hTcast : ((N * pow10 F.length + charsVal F : ℕ) : ℚ) =
      (N : ℚ) * ((pow10 F.length : ℕ) : ℚ) + (charsVal F : ℚ) := by
    push_cast
    ring
  have hv : v.val = (if s then (-1:ℚ) else 1) *
      ((N * pow10 F.length + charsVal F : ℕ) : ℚ) / ((pow10 F.length : ℕ) : ℚ) := by
    rw [eq_div_iff (ne_of_gt hpq), hvalm, hTcast]
  have hvne : v.val ≠ 0 := by
    rw [hv]
    rcases s with _ | _
    · simp only [Bool.false_eq_true, if_false, one_mul]
      exact ne_of_gt (div_pos hTq hpq)
    · simp only [if_true]
      rw [show (-1:ℚ) * ((N * pow10 F.length + charsVal F : ℕ) : ℚ) /
          ((pow10 F.length : ℕ) : ℚ) =
          -(((N * pow10 F.length + charsVal F : ℕ) : ℚ) /
          ((pow10 F.length : ℕ) : ℚ)) by ring]
      exact ne_of_lt (neg_lt_zero.mpr (div_pos hTq hpq))
  have hnz : v.isZero = false := by
    rcases hb : v.isZero with _ | _
    · rfl
    · exact absurd ((Q.isZero_iff v).mp hb) hvne
  have hsign : (v.num < 0) ↔ (s = true) := by
    constructor
    · intro h
      by_contra hs
      have hsf : s = false := by
        rcases s with _ | _
        · rfl
        · exact absurd rfl hs
      rw [hsf] at hv
      simp only [Bool.false_eq_true, if_false, one_mul] at hv
      have hpos : 0 < v.val := by
        rw [hv]
        exact div_pos hTq hpq
      have hneg : v.val < 0 := (Q.val_neg_iff v).mpr h
      linarith
    · intro hs
      rw [hs] at hv
      apply (Q.val_neg_iff v).mp
      rw [hv]
      simp only [if_true]
      rw [show (-1:ℚ) * ((N * pow10 F.length + charsVal F : ℕ) : ℚ) /
          ((pow10 F.length : ℕ) : ℚ) =
          -(((N * pow10 F.length + charsVal F : ℕ) : ℚ) /
          ((pow10 F.length : ℕ) : ℚ)) by ring]
      exact neg_lt_zero.mpr (div_pos hTq hpq)
  have hbabsv : v.babs.val = ((N * pow10 F.length + charsVal F : ℕ) : ℚ) /
      ((pow10 F.length : ℕ) : ℚ) := by
    rw [Q.val_babs, hv]
    rcases s with _ | _
    · simp only [Bool.false_eq_true, if_false, one_mul]
      exact abs_of_pos (div_pos hTq hpq)
    · simp only [if_true]
      rw [show (-1:ℚ) * ((N * pow10 F.length + charsVal F : ℕ) : ℚ) /
          ((pow10 F.length : ℕ) : ℚ) =
          -(((N * pow10 F.length + charsVal F : ℕ) : ℚ) /
          ((pow10 F.length : ℕ) : ℚ)) by ring]
      rw [abs_neg]
      exact abs_of_pos (div_pos hTq hpq)
  have hnum_babs : v.babs.num * ((pow10 F.length : ℕ) : ℤ) =
      ((N * pow10 F.length + charsVal F : ℕ) : ℤ) * v.babs.den := by
    have h1 : v.babs.val * ((pow10 F.length : ℕ) : ℚ) =
        ((N * pow10 F.length + charsVal F : ℕ) : ℚ) := by
      rw [hbabsv]
      field_simp
    rw [Q.val] at h1
    have hden : (v.babs.den : ℚ) ≠ 0 := Q.den_ne _
    field_simp at h1
    exact_mod_cast h1
  have hcond : F.length = 0 ∨ ¬ 10 ∣ (N * pow10 F.length + charsVal F) := by
    by_cases hFe : F = []
    · left
      rw [hFe]
      rfl
    · exact Or.inr (T_not_dvd_10 N F hFe hF (htz hFe))
  have hpd := posDigits_eval v.babs (N * pow10 F.length + charsVal F) F.length
    hT1 hnum_babs hcond
  have h17' : intLen (N * pow10 F.length + charsVal F) ≤ 17 :=
    intLen_le_of_lt (by omega) h17
  have hstriplen : (stripTrailZeros (natChars (N * pow10 F.length + charsVal F))).length
      ≤ 17 := by
    refine le_trans (stripTrailZeros_length_le _) ?_
    rw [← intLen]
    exact h17'
  have hpd17 : posDigits17 v.babs =
      (stripTrailZeros (natChars (N * pow10 F.length + charsVal F)),
        (intLen (N * pow10 F.length + charsVal F) : ℤ) - (F.length : ℤ)) := by
    rw [posDigits17, hpd]
    simp only [if_pos hstriplen]
  have hband : -6 < (intLen (N * pow10 F.length + charsVal F) : ℤ) - (F.length : ℤ) ∧
      (intLen (N * pow10 F.length + charsVal F) : ℤ) - (F.length : ℤ) ≤ 21 := by
    constructor
    · by_cases hL6 : F.length ≤ 6
      · have := intLen_pos (N * pow10 F.length + charsVal F)
        push_cast
        omega
      · have hsplit : pow10 F.length = pow10 (F.length - 6) * pow10 6 := by
          rw [pow10_eq, pow10_eq, pow10_eq, ← pow_add]
          congr 1
          omega
        have hge : pow10 (F.length - 6) ≤ N * pow10 F.length + charsVal F := by
          have hlow2 : pow10 (F.length - 6) * pow10 6 ≤
              (N * pow10 F.length + charsVal F) * pow10 6 := by
            rw [← hsplit]
            exact hlow
          by_contra hc
          push_neg at hc
          have h6 := pow10_pos 6
          nlinarith
        have hlt : F.length - 6 < intLen (N * pow10 F.length + charsVal F) := by
          obtain ⟨_, hb⟩ := intLen_bounds _ hT1
          by_contra hc
          have := pow10_le_pow10 (show intLen (N * pow10 F.length + charsVal F)
            ≤ F.length - 6 by omega)
          omega
        push_cast
        omega
    · push_cast
      omega
  rw [jsToString, if_neg (by rw [hnz]; exact Bool.false_ne_true)]
  simp only [hpd17]
  rw [if_pos hband]
  rw [renderPosPlain_eval N F hF htz]
  rcases s with _ | _
  · rw [if_neg (fun h => Bool.false_ne_true (hsign.mp h))]
    simp
  · rw [if_pos (hsign.mpr rfl)]
    simp

/-- From the words of claim C7 (the specification side, not the code): render
the sign, then the integer part with en-US comma thousands-grouping, and, when
a fractional part exists, a dot followed by the fractional digits unchanged. -/
def specPlainFormat (s : Bool) (N : Nat) (F : List Char) : String :=
  ⟨(if s then ['-'] else []) ++ groupedNat N ++ (if F.isEmpty then [] else '.' :: F)⟩

theorem jsParseIntLead_signed (s : Bool) (N : Nat) :
    jsParseIntLead ((if s then ['-'] else []) ++ natChars N) = some (s, N) := by
  have hall : leadDigits (natChars N) = natChars N :=
    leadDigits_all _ (fun c hc => natChars_digits _ c hc)
  rcases s with _ | _
  · rcases hnc : natChars N with _ | ⟨d, r⟩
    · exact absurd hnc (natChars_ne_nil N)
    have hd : isDigitC d = true := natChars_digits N d (by rw [hnc]; simp)
    have hall2 : leadDigits (d :: r) = d :: r := by rw [← hnc]; exact hall
    have hcv : charsVal (d :: r) = N := by rw [← hnc, charsVal_natChars]
    rw [show ((if (false : Bool) = true then ['-'] else []) ++ d :: r : List Char) = d :: r
      from by rw [if_neg (by simp)]; rfl]
    rw [jsParseIntLead, signSplit_digit hd]
    simp only [hall2, List.isEmpty_cons, Bool.false_eq_true, if_false, hcv]
  · rw [if_pos rfl, List.singleton_append, jsParseIntLead, signSplit_minus]
    simp only [hall, natChars_isEmpty, Bool.false_eq_true, if_false]
    rw [charsVal_natChars]

theorem intGrouped_eq (s : Bool) (N : Nat) :
    intGrouped (s, N) = (if s then ['-'] else []) ++ groupedNat N := by
  rcases s with _ | _ <;> simp [intGrouped]

theorem no_dot_natChars (n : Nat) : '.' ∉ natChars n := by
  intro h
  have := natChars_digits n _ h
  rw [isDigitC_dot] at this
  exact Bool.false_ne_true this

theorem no_dot_sign_int (s : Bool) (N : Nat) :
    '.' ∉ (if s then ['-'] else []) ++ natChars N := by
  intro h
  rcases List.mem_append.mp h with h | h
  · split at h <;> simp at h
  · exact no_dot_natChars N h

/-- `formatNumber` on the plain band `1e-6 ≤ |v| < 1e12`: sign, grouped
integer digits, dot, fraction digits unchanged. -/
theorem formatNumber_plain (v : Q) (s : Bool) (N : Nat) (F : List Char)
    (hF : ∀ c ∈ F, isDigitC c = true)
    (htz : F ≠ [] → F.getLast? ≠ some '0')
    (hvalm : v.val * ((pow10 F.length : ℕ) : ℚ) = (if s then (-1:ℚ) else 1) *
      ((N : ℚ) * ((pow10 F.length : ℕ) : ℚ) + (charsVal F : ℚ)))
    (hlow : pow10 F.length ≤ (N * pow10 F.length + charsVal F) * pow10 6)
    (hhigh : N < pow10 12)
    (h17 : N * pow10 F.length + charsVal F < pow10 17) :
    formatNumber (some v) = specPlainFormat s N F := by
  have hT1 : 1 ≤ N * pow10 F.length + charsVal F := by
    rcases Nat.eq_zero_or_pos (N * pow10 F.length + charsVal F) with h0 | h1
    · rw [h0] at hlow
      have := pow10_pos F.length
      simp at hlow
      omega
    · exact h1
  have hTq : (0:ℚ) < ((N * pow10 F.length + charsVal F : ℕ) : ℚ) := by
    exact_mod_cast hT1
  have hpq : (0:ℚ) < ((pow10 F.length : ℕ) : ℚ) := by
    have := pow10_pos F.length
    exact_mod_cast this
  have hTcast : ((N * pow10 F.length + charsVal F : ℕ) : ℚ) =
      (N : ℚ) * ((pow10 F.length : ℕ) : ℚ) + (charsVal F : ℚ) := by
    push_cast
    ring
  have hv : v.val = (if s then (-1:ℚ) else 1) *
      ((N * pow10 F.length + charsVal F : ℕ) : ℚ) / ((pow10 F.length : ℕ) : ℚ) := by
    rw [eq_div_iff (ne_of_gt hpq), hvalm, hTcast]
  have hbabsv : v.babs.val = ((N * pow10 F.length + charsVal F : ℕ) : ℚ) /
      ((pow10 F.length : ℕ) : ℚ) := by
    rw [Q.val_babs, hv]
    rcases s with _ | _
    · simp only [Bool.false_eq_true, if_false, one_mul]
      exact abs_of_pos (div_pos hTq hpq)
    · simp only [if_true]
      rw [show (-1:ℚ) * ((N * pow10 F.length + charsVal F : ℕ) : ℚ) /
          ((pow10 F.length : ℕ) : ℚ) =
          -(((N * pow10 F.length + charsVal F : ℕ) : ℚ) /
          ((pow10 F.length : ℕ) : ℚ)) by ring]
      rw [abs_neg]
      exact abs_of_pos (div_pos hTq hpq)
  have hble : (pow10Q 12).ble v.babs = false := by
    rw [Bool.eq_false_iff]
    intro hb
    have h1 := (Q.ble_iff _ _).mp hb
    rw [Q.val_pow10Q, hbabsv] at h1
    have h2 : ((N * pow10 F.length + charsVal F : ℕ) : ℚ) <
        (10:ℚ) ^ ((12:ℤ)) * ((pow10 F.length : ℕ) : ℚ) := by
      rw [show (10:ℚ) ^ ((12:ℤ)) = ((pow10 12 : ℕ) : ℚ) by rw [pow10_cast_q]; norm_num]
      have hn : N * pow10 F.length + charsVal F < pow10 12 * pow10 F.length := by
        have hcF := charsVal_lt F hF
        nlinarith
      exact_mod_cast hn
    rw [le_div_iff hpq] at h1
    linarith
  have hblt : v.babs.blt (pow10Q (-9)) = false := by
    rw [Bool.eq_false_iff]
    intro hb
    have h1 := (Q.blt_iff _ _).mp hb
    rw [Q.val_pow10Q, hbabsv] at h1
    have h2 : (10:ℚ) ^ ((-6:ℤ)) ≤ ((N * pow10 F.length + charsVal F : ℕ) : ℚ) /
        ((pow10 F.length : ℕ) : ℚ) := by
      rw [le_div_iff hpq]
      have hc : (10:ℚ) ^ ((-6:ℤ)) * ((pow10 F.length : ℕ) : ℚ) ≤
          ((N * pow10 F.length + charsVal F : ℕ) : ℚ) ↔
          ((pow10 F.length : ℕ) : ℚ) ≤
          ((N * pow10 F.length + charsVal F : ℕ) : ℚ) * (10:ℚ) ^ ((6:ℤ)) := by
        rw [zpow_neg]
        rw [inv_mul_le_iff (by positivity : (0:ℚ) < (10:ℚ) ^ ((6:ℤ)))]
        constructor <;> intro h <;> linarith
      rw [hc, show (10:ℚ) ^ ((6:ℤ)) = ((pow10 6 : ℕ) : ℚ) by rw [pow10_cast_q]; norm_num]
      exact_mod_cast hlow
    have h3 : (10:ℚ) ^ ((-9:ℤ)) < (10:ℚ) ^ ((-6:ℤ)) := by
      apply zpow_lt_zpow_right₀ (by norm_num)
      omega
    linarith
  have hcond : (!v.babs.isZero && ((pow10Q 12).ble v.babs ||
      v.babs.blt (pow10Q (-9)))) = false := by
    rw [hble, hblt]
    simp
  simp only [formatNumber, hcond, Bool.false_eq_true, if_false]
  rw [jsToString_plain v s N F hF htz hvalm hlow h17]
  by_cases hFe : F = []
  · subst hFe
    simp only [List.isEmpty_nil, if_true, List.append_nil]
    rw [splitDot_of_no_dot _ (no_dot_sign_int s N)]
    simp only [List.headD_cons, List.drop_succ_cons, List.drop_nil]
    rw [jsParseIntLead_signed s N]
    simp only []
    rw [specPlainFormat]
    simp only [List.isEmpty_nil, if_true, List.append_nil]
    congr 1
    rw [intGrouped_eq]
  · rcases hFF : F with _ | ⟨f0, F'⟩
    · exact absurd hFF hFe
    rw [if_neg (show ¬ ((f0 :: F').isEmpty = true) by simp)]
    rw [show (if s then ['-'] else []) ++ (natChars N ++ '.' :: (f0 :: F')) =
      ((if s then ['-'] else []) ++ natChars N) ++ '.' :: (f0 :: F') by
        simp [List.append_assoc]]
    rw [splitDot_append_dot _ _ (no_dot_sign_int s N),
      splitDot_of_no_dot (f0 :: F') (fun h => by
        have := hF '.' (by rw [hFF]; exact h)
        rw [isDigitC_dot] at this
        exact Bool.false_ne_true this)]
    simp only [List.headD_cons, List.drop_succ_cons, List.drop_zero]
    rw [jsParseIntLead_signed s N]
    show ({ data := intGrouped (s, N) ++ '.' :: (f0 :: F') } : String) = _
    rw [specPlainFormat, if_neg (show ¬ ((f0 :: F').isEmpty = true) by simp)]
    congr 1
    rw [intGrouped_eq]

/-! ## Round-trip glue: re-parsing rendered displays -/

theorem expRender_chars (v : Q) (m : Nat) (e : Int) :
    ∀ c ∈ expRender v m e, isDigitC c = true ∨ c = '-' ∨ c = '.' ∨ c = 'e' := by
  intro c hc
  rw [expRender] at hc
  rcases List.mem_append.mp hc with h | h
  · rcases List.mem_append.mp h with h | h
    · rcases List.mem_append.mp h with h | h
      · split at h
        · simp at h
          exact Or.inr (Or.inl h)
        · simp at h
      · exact Or.inl (natChars_digits m c (List.mem_of_mem_take h))
    · rcases List.mem_cons.mp h with h | h
      · exact Or.inr (Or.inr (Or.inl h))
      · exact Or.inl (natChars_digits m c (List.mem_of_mem_drop h))
  · rcases List.mem_cons.mp h with h | h
    · exact Or.inr (Or.inr (Or.inr h))
    · split at h
      · rcases List.mem_cons.mp h with h | h
        · exact Or.inr (Or.inl h)
        · exact Or.inl (natCharsCore_digits _ _ c h)
      · exact Or.inl (natCharsCore_digits _ _ c h)

theorem stripCommas_expRender (v : Q) (m : Nat) (e : Int) :
    stripCommas (expRender v m e) = expRender v m e := by
  rw [stripCommas]
  apply List.filter_eq_self.mpr
  intro c hc
  rcases expRender_chars v m e c hc with h | h | h | h
  · simp only [bne_iff_ne, ne_eq]
    intro hcc
    rw [hcc, isDigitC_comma] at h
    exact Bool.false_ne_true h
  all_goals (rw [h]; decide)

theorem expRender_ne_sentinel (v : Q) (m : Nat) (e : Int) :
    (⟨expRender v m e⟩ : String) ≠ sentinelDiv := by
  intro h
  have hdata : expRender v m e = sentinelDiv.data := congrArg String.data h
  have hC : ('C' : Char) ∈ expRender v m e := by
    rw [hdata]
    decide
  rcases expRender_chars v m e 'C' hC with h' | h' | h' | h'
  · rw [show isDigitC 'C' = false from by decide] at h'
    exact Bool.false_ne_true h'
  all_goals exact absurd h' (by decide)

theorem parseDisplay_expRender (v : Q) (m : Nat) (e : Int) :
    parseDisplayValue ⟨expRender v m e⟩ = jsNumber (expRender v m e) := by
  rw [parseDisplayValue, if_neg (expRender_ne_sentinel v m e)]
  rw [show (⟨expRender v m e⟩ : String).data = expRender v m e from rfl]
  rw [stripCommas_expRender]

theorem specPlain_chars (s : Bool) (N : Nat) (F : List Char)
    (hF : ∀ c ∈ F, isDigitC c = true) :
    ∀ c ∈ (specPlainFormat s N F).data,
      isDigitC c = true ∨ c = '-' ∨ c = '.' ∨ c = ',' := by
  intro c hc
  rw [show (specPlainFormat s N F).data = (if s then ['-'] else []) ++ groupedNat N ++
    (if F.isEmpty then [] else '.' :: F) from rfl] at hc
  rcases List.mem_append.mp hc with h | h
  · rcases List.mem_append.mp h with h | h
    · split at h
      · simp at h
        exact Or.inr (Or.inl h)
      · simp at h
    · rcases groupedNat_mem N c h with h' | h'
      · exact Or.inl h'
      · exact Or.inr (Or.inr (Or.inr h'))
  · split at h
    · simp at h
    · rcases List.mem_cons.mp h with h' | h'
      · exact Or.inr (Or.inr (Or.inl h'))
      · exact Or.inl (hF c h')

theorem specPlain_ne_sentinel (s : Bool) (N : Nat) (F : List Char)
    (hF : ∀ c ∈ F, isDigitC c = true) :
    specPlainFormat s N F ≠ sentinelDiv := by
  intro h
  have hdata : (specPlainFormat s N F).data = sentinelDiv.data := congrArg String.data h
  have hC : ('C' : Char) ∈ (specPlainFormat s N F).data := by
    rw [hdata]
    decide
  rcases specPlain_chars s N F hF 'C' hC with h' | h' | h' | h'
  · rw [show isDigitC 'C' = false from by decide] at h'
    exact Bool.false_ne_true h'
  all_goals exact absurd h' (by decide)

theorem stripCommas_specPlain (s : Bool) (N : Nat) (F : List Char)
    (hF : ∀ c ∈ F, isDigitC c = true) :
    stripCommas (specPlainFormat s N F).data =
      (if s then ['-'] else []) ++ natChars N ++ (if F.isEmpty then [] else '.' :: F) := by
  rw [show (specPlainFormat s N F).data = (if s then ['-'] else []) ++ groupedNat N ++
    (if F.isEmpty then [] else '.' :: F) from rfl]
  rw [stripCommas_append, stripCommas_append, stripCommas_groupedNat]
  congr 1
  · congr 1
    rcases s with _ | _
    · rfl
    · rfl
  · rcases hFF : F with _ | ⟨f0, F'⟩
    · rfl
    · simp only [List.isEmpty_cons, Bool.false_eq_true, if_false]
      rw [stripCommas_cons_of_ne _ (by decide)]
      congr 1
      rw [stripCommas]
      apply List.filter_eq_self.mpr
      intro c hc
      simp only [bne_iff_ne, ne_eq]
      intro hcc
      have := hF c (by rw [hFF]; exact hc)
      rw [hcc, isDigitC_comma] at this
      exact Bool.false_ne_true this

/-- The plain band round trip: formatting, re-parsing and re-formatting is
stable on canonically presented values in `[1e-6, 1e12)`. -/
theorem roundTrip_plain (v : Q) (s : Bool) (N : Nat) (F : List Char)
    (hF : ∀ c ∈ F, isDigitC c = true)
    (htz : F ≠ [] → F.getLast? ≠ some '0')
    (hvalm : v.val * ((pow10 F.length : ℕ) : ℚ) = (if s then (-1:ℚ) else 1) *
      ((N : ℚ) * ((pow10 F.length : ℕ) : ℚ) + (charsVal F : ℚ)))
    (hlow : pow10 F.length ≤ (N * pow10 F.length + charsVal F) * pow10 6)
    (hhigh : N < pow10 12)
    (h17 : N * pow10 F.length + charsVal F < pow10 17) :
    formatNumber (parseDisplayValue (formatNumber (some v))) =
      formatNumber (some v) := by
  have h1 := formatNumber_plain v s N F hF htz hvalm hlow hhigh h17
  rw [h1]
  rw [parseDisplayValue, if_neg (specPlain_ne_sentinel s N F hF)]
  rw [stripCommas_specPlain s N F hF]
  obtain ⟨q, hq, hqval⟩ := jsNumber_plain s (natChars N) F
    (fun c hc => natChars_digits N c hc) (natChars_ne_nil N) hF
  rw [hq]
  rw [charsVal_natChars] at hqval
  exact formatNumber_plain q s N F hF htz hqval hlow hhigh h17

/-- The top exponential band round trip (`|v| ≥ 1e12`). -/
theorem roundTrip_expTop (v : Q) (hble : (pow10Q 12).ble v.babs = true) :
    formatNumber (parseDisplayValue (formatNumber (some v))) =
      formatNumber (some v) := by
  have hv12 : (10:ℚ) ^ ((12:ℤ)) ≤ v.babs.val := by
    have := (Q.ble_iff _ _).mp hble
    rwa [Q.val_pow10Q] at this
  have habs : 0 < v.babs.val :=
    lt_of_lt_of_le (zpow_pos (by norm_num) _) hv12
  have hnz := isZero_false_of_babs_pos habs
  have hband : ((pow10Q 12).ble v.babs || v.babs.blt (pow10Q (-9))) = true := by
    rw [hble]
    rfl
  obtain ⟨m, e, hm1, hm2, hacc, hdE, hlow', hfmt⟩ := formatNumber_exp v hnz hband
  have he12 : 12 ≤ e := by
    obtain ⟨b1, b2⟩ := decExpPos_bounds v.babs habs
    have h13 : (12:ℤ) < decExpPos v.babs := by
      by_contra hc
      push_neg at hc
      have : (10:ℚ) ^ (decExpPos v.babs) ≤ (10:ℚ) ^ ((12:ℤ)) :=
        zpow_le_zpow_right₀ (by norm_num) hc
      linarith
    omega
  rw [hfmt, parseDisplay_expRender]
  obtain ⟨q, hq, hqv, hqs⟩ := jsNumber_expRender v m e hm1 hm2
  rw [hq]
  rw [formatNumber_exp_exact q m e hm1 hm2 hqv (Or.inl he12)]
  have hS : (if q.num < 0 then (['-'] : List Char) else []) =
      (if v.num < 0 then ['-'] else []) := by
    by_cases hvn : v.num < 0
    · rw [if_pos (hqs.mpr hvn), if_pos hvn]
    · rw [if_neg (fun hh => hvn (hqs.mp hh)), if_neg hvn]
  congr 1
  rw [expRender, expRender, hS]

/-- Just below the rounding sliver at `1e-9`: the value
`(10^8 - 5) / 10^17 = 1e-9 - 5e-17`, the smallest magnitude whose
`toExponential(6)` rounds up to `1.000000e-9`. -/
def sliverQ : Q :=
  ⟨((pow10 8 : ℕ) : ℤ) - 5, ((pow10 17 : ℕ) : ℤ),
    Int.natCast_pos.mpr (pow10_pos 17)⟩

theorem sliverQ_val : sliverQ.val = (10:ℚ)^(-9:ℤ) - 5 * (10:ℚ)^(-17:ℤ) := by
  rw [Q.val]
  show ((((pow10 8 : ℕ) : ℤ) - 5 : ℤ) : ℚ) / (((pow10 17 : ℕ) : ℤ) : ℚ) = _
  rw [pow10_eq, pow10_eq]
  push_cast
  rw [show (-9:ℤ) = -(9:ℕ) from by norm_num, show (-17:ℤ) = -(17:ℕ) from by norm_num,
    zpow_neg, zpow_neg, zpow_natCast, zpow_natCast]
  norm_num

/-- The bottom exponential band round trip (`0 < |v| < 1e-9 - 5e-17`). -/
theorem roundTrip_expBottom (v : Q) (hnz : v.isZero = false)
    (hsl : v.babs.blt sliverQ = true) :
    formatNumber (parseDisplayValue (formatNumber (some v))) =
      formatNumber (some v) := by
  have habs := babs_pos_of_not_zero hnz
  have hvs : v.babs.val < (10:ℚ)^(-9:ℤ) - 5 * (10:ℚ)^(-17:ℤ) := by
    have := (Q.blt_iff _ _).mp hsl
    rwa [sliverQ_val] at this
  have hv9 : v.babs.val < (10:ℚ)^(-9:ℤ) := by
    have h17pos : (0:ℚ) < (10:ℚ)^(-17:ℤ) := zpow_pos (by norm_num) _
    linarith
  have hblt : v.babs.blt (pow10Q (-9)) = true :=
    (Q.blt_iff _ _).mpr (by rw [Q.val_pow10Q]; exact hv9)
  have hband : ((pow10Q 12).ble v.babs || v.babs.blt (pow10Q (-9))) = true := by
    rw [hblt]
    simp
  obtain ⟨m, e, hm1, hm2, hacc, hdE, hlow', hfmt⟩ := formatNumber_exp v hnz hband
  have he10 : e ≤ -10 := by
    by_contra hc
    push_neg at hc
    have he9 : (-9:ℤ) ≤ e := by omega
    have hfact : (10:ℚ)^((-7:ℤ)) ≤ 1 := zpow_le_one_of_nonpos₀ (by norm_num) (by norm_num)
    have hfactpos : (0:ℚ) < 1 - (10:ℚ)^((-7:ℤ))/2 := by
      have : (0:ℚ) < (10:ℚ)^((-7:ℤ)) := zpow_pos (by norm_num) _
      linarith
    have hfe : (10:ℚ)^e - (10:ℚ)^(e-7)/2 = (10:ℚ)^e * (1 - (10:ℚ)^((-7:ℤ))/2) := by
      rw [show e - 7 = e + -7 by ring, zpow_add₀ (by norm_num : (10:ℚ) ≠ 0)]
      ring
    have hf9 : (10:ℚ)^((-9:ℤ)) - (10:ℚ)^((-16:ℤ))/2 =
        (10:ℚ)^((-9:ℤ)) * (1 - (10:ℚ)^((-7:ℤ))/2) := by
      rw [show (-16:ℤ) = -9 + -7 by ring, zpow_add₀ (by norm_num : (10:ℚ) ≠ 0)]
      ring
    have hmono : (10:ℚ)^((-9:ℤ)) ≤ (10:ℚ)^e :=
      zpow_le_zpow_right₀ (by norm_num) he9
    have h1 : (10:ℚ)^((-9:ℤ)) - (10:ℚ)^((-16:ℤ))/2 ≤ (10:ℚ)^e - (10:ℚ)^(e-7)/2 := by
      rw [hfe, hf9]
      exact mul_le_mul_of_nonneg_right hmono (le_of_lt hfactpos)
    have h2 : (10:ℚ)^((-16:ℤ))/2 = 5 * (10:ℚ)^(-17:ℤ) := by
      rw [show (-16:ℤ) = 1 + -17 by ring, zpow_add₀ (by norm_num : (10:ℚ) ≠ 0)]
      norm_num
    have h3 : (10:ℚ)^((-9:ℤ)) - (10:ℚ)^((-16:ℤ))/2 ≤ v.babs.val := le_trans h1 hlow'
    rw [h2] at h3
    linarith
  rw [hfmt, parseDisplay_expRender]
  obtain ⟨q, hq, hqv, hqs⟩ := jsNumber_expRender v m e hm1 hm2
  rw [hq]
  rw [formatNumber_exp_exact q m e hm1 hm2 hqv (Or.inr he10)]
  have hS : (if q.num < 0 then (['-'] : List Char) else []) =
      (if v.num < 0 then ['-'] else []) := by
    by_cases hvn : v.num < 0
    · rw [if_pos (hqs.mpr hvn), if_pos hvn]
    · rw [if_neg (fun hh => hvn (hqs.mp hh)), if_neg hvn]
  congr 1
  rw [expRender, expRender, hS]

/-! ## `formatNumber` on zero and on the band `[1e-9, 1e-6)` -/

theorem jsToString_zero (v : Q) (h : v.isZero = true) : jsToString v = ['0'] := by
  rw [jsToString, if_pos h]

theorem formatNumber_zero (v : Q) (h : v.isZero = true) :
    formatNumber (some v) = "0" := by
  have ha : v.babs.isZero = true := by rw [babs_isZero_eq]; exact h
  have hcond : (!v.babs.isZero && ((pow10Q 12).ble v.babs ||
      v.babs.blt (pow10Q (-9)))) = false := by
    rw [ha]
    rfl
  simp only [formatNumber, hcond, Bool.false_eq_true, if_false, jsToString_zero v h]
  decide

/-- A zero value round-trips: the display `"0"` re-parses to zero, which
formats to `"0"` again. -/
theorem roundTrip_zero (v : Q) (h : v.isZero = true) :
    formatNumber (parseDisplayValue (formatNumber (some v))) =
      formatNumber (some v) := by
  rw [formatNumber_zero v h]
  decide

theorem natChars_charVal (d : Char) (hd : isDigitC d = true) :
    natChars (charVal d) = [d] := by
  rw [natChars_lt_10 (charVal_lt_10 d hd), digitChar_charVal d hd]

theorem group3_singleton (c : Char) : group3 [c] = [c] := rfl

theorem groupedNat_charVal (d : Char) (hd : isDigitC d = true) :
    groupedNat (charVal d) = [d] := by
  rw [groupedNat, natChars_charVal d hd, group3_singleton]

theorem charVal_pos (d : Char) (hd : isDigitC d = true) (h0 : d ≠ '0') :
    1 ≤ charVal d := by
  by_contra hv0
  have h : charVal d = 0 := by omega
  have hda := digitChar_charVal d hd
  rw [h] at hda
  exact h0 (by rw [← hda]; rfl)

/-- `parseInt` on an optional sign, digits, then a tail starting with a
non-digit: the tail is ignored. -/
theorem jsParseIntLead_signed_tail (s : Bool) (N : Nat) (t : List Char)
    (ht : leadDigits t = []) :
    jsParseIntLead ((if s then ['-'] else []) ++ natChars N ++ t) = some (s, N) := by
  have hall : leadDigits (natChars N ++ t) = natChars N := by
    rw [leadDigits_append _ _ (fun c hc => natChars_digits N c hc), ht, List.append_nil]
  rcases s with _ | _
  · rcases hnc : natChars N with _ | ⟨d, r⟩
    · exact absurd hnc (natChars_ne_nil N)
    have hd : isDigitC d = true := natChars_digits N d (by rw [hnc]; simp)
    have hall2 : leadDigits (d :: (r ++ t)) = d :: r := by
      rw [show d :: (r ++ t) = (d :: r) ++ t from rfl, ← hnc]
      exact hall
    have hcv : charsVal (d :: r) = N := by rw [← hnc, charsVal_natChars]
    rw [show ((if (false : Bool) = true then ['-'] else []) ++ d :: r ++ t :
      List Char) = d :: (r ++ t) from by simp]
    rw [jsParseIntLead, signSplit_digit hd]
    simp only [hall2, List.isEmpty_cons, Bool.false_eq_true, if_false, hcv]
  · rw [show ((if (true : Bool) = true then ['-'] else []) ++ natChars N ++ t :
      List Char) = '-' :: (natChars N ++ t) from by simp]
    rw [jsParseIntLead, signSplit_minus]
    simp only [hall, natChars_isEmpty, Bool.false_eq_true, if_false]
    rw [charsVal_natChars]

theorem fracSplit_cons_not {c : Char} (r : List Char) (hc : c ≠ '.') :
    fracSplit (c :: r) = ([], c :: r) := by
  rw [fracSplit.eq_def]
  split
  · rename_i heq
    injection heq with ha hb
    exact absurd ha hc
  · rfl

/-- `toString` on the band `[1e-9, 1e-6)`: a value `±0.(d::rest) × 10^(-kk)`
with `6 ≤ kk ≤ 8` and canonical significant digits renders as the mantissa
`d` or `d.rest` followed by `e-(kk+1)`. -/
theorem jsToString_small (v : Q) (s : Bool) (d : Char) (rest : List Char) (kk : Nat)
    (hS : ∀ c ∈ d :: rest, isDigitC c = true)
    (hd0 : d ≠ '0')
    (htz : (d :: rest).getLast? ≠ some '0')
    (hlen17 : (d :: rest).length ≤ 17)
    (hk6 : 6 ≤ kk)
    (hval : v.val * ((pow10 ((d :: rest).length + kk) : ℕ) : ℚ) =
      (if s then (-1:ℚ) else 1) * (charsVal (d :: rest) : ℚ)) :
    jsToString v = (if s then ['-'] else []) ++
      ((if rest.isEmpty then [d] else d :: '.' :: rest) ++
        'e' :: '-' :: natChars (kk + 1)) := by
  have hSne : (d :: rest) ≠ [] := by simp
  have hhead : (d :: rest).headD '0' ≠ '0' := by simpa using hd0
  have hT1 : 1 ≤ charsVal (d :: rest) := charsVal_pos_of_head hSne hS hhead
  have hTq : (0:ℚ) < (charsVal (d :: rest) : ℚ) := by exact_mod_cast hT1
  have hpq : (0:ℚ) < ((pow10 ((d :: rest).length + kk) : ℕ) : ℚ) := by
    have := pow10_pos ((d :: rest).length + kk)
    exact_mod_cast this
  have hv : v.val = (if s then (-1:ℚ) else 1) * (charsVal (d :: rest) : ℚ) /
      ((pow10 ((d :: rest).length + kk) : ℕ) : ℚ) := by
    rw [eq_div_iff (ne_of_gt hpq), hval]
  have hvne : v.val ≠ 0 := by
    rw [hv]
    rcases s with _ | _
    · simp only [Bool.false_eq_true, if_false, one_mul]
      exact ne_of_gt (div_pos hTq hpq)
    · simp only [if_true]
      rw [show (-1:ℚ) * (charsVal (d :: rest) : ℚ) /
          ((pow10 ((d :: rest).length + kk) : ℕ) : ℚ) =
          -((charsVal (d :: rest) : ℚ) /
          ((pow10 ((d :: rest).length + kk) : ℕ) : ℚ)) by ring]
      exact ne_of_lt (neg_lt_zero.mpr (div_pos hTq hpq))
  have hnz : v.isZero = false := by
    rcases hb : v.isZero with _ | _
    · rfl
    · exact absurd ((Q.isZero_iff v).mp hb) hvne
  have hsign : (v.num < 0) ↔ (s = true) := by
    constructor
    · intro h
      by_contra hs
      have hsf : s = false := by
        rcases s with _ | _
        · rfl
        · exact absurd rfl hs
      rw [hsf] at hv
      simp only [Bool.false_eq_true, if_false, one_mul] at hv
      have hpos : 0 < v.val := by
        rw [hv]
        exact div_pos hTq hpq
      have hneg : v.val < 0 := (Q.val_neg_iff v).mpr h
      linarith
    · intro hs
      rw [hs] at hv
      apply (Q.val_neg_iff v).mp
      rw [hv]
      simp only [if_true]
      rw [show (-1:ℚ) * (charsVal (d :: rest) : ℚ) /
          ((pow10 ((d :: rest).length + kk) : ℕ) : ℚ) =
          -((charsVal (d :: rest) : ℚ) /
          ((pow10 ((d :: rest).length + kk) : ℕ) : ℚ)) by ring]
      exact neg_lt_zero.mpr (div_pos hTq hpq)
  have hbabsv : v.babs.val = (charsVal (d :: rest) : ℚ) /
      ((pow10 ((d :: rest).length + kk) : ℕ) : ℚ) := by
    rw [Q.val_babs, hv]
    rcases s with _ | _
    · simp only [Bool.false_eq_true, if_false, one_mul]
      exact abs_of_pos (div_pos hTq hpq)
    · simp only [if_true]
      rw [show (-1:ℚ) * (charsVal (d :: rest) : ℚ) /
          ((pow10 ((d :: rest).length + kk) : ℕ) : ℚ) =
          -((charsVal (d :: rest) : ℚ) /
          ((pow10 ((d :: rest).length + kk) : ℕ) : ℚ)) by ring]
      rw [abs_neg]
      exact abs_of_pos (div_pos hTq hpq)
  have hnum_babs : v.babs.num * ((pow10 ((d :: rest).length + kk) : ℕ) : ℤ) =
      (charsVal (d :: rest) : ℤ) * v.babs.den := by
    have h1 : v.babs.val * ((pow10 ((d :: rest).length + kk) : ℕ) : ℚ) =
        (charsVal (d :: rest) : ℚ) := by
      rw [hbabsv]
      exact div_mul_cancel₀ _ (ne_of_gt hpq)
    rw [Q.val] at h1
    have hden : (v.babs.den : ℚ) ≠ 0 := Q.den_ne _
    field_simp at h1
    exact_mod_cast h1
  have hT10 : ¬ 10 ∣ charsVal (d :: rest) := by
    have := T_not_dvd_10 0 (d :: rest) hSne hS htz
    rwa [zero_mul, zero_add] at this
  have hpd := posDigits_eval v.babs (charsVal (d :: rest)) ((d :: rest).length + kk)
    hT1 hnum_babs (Or.inr hT10)
  have hnc : natChars (charsVal (d :: rest)) = d :: rest :=
    natChars_charsVal (d :: rest) hSne hS hhead
  have hstrip : stripTrailZeros (natChars (charsVal (d :: rest))) = d :: rest := by
    rw [hnc]
    exact stripTrailZeros_eq_self htz
  have hil : intLen (charsVal (d :: rest)) = (d :: rest).length := by
    rw [intLen, hnc]
  have hexp : (intLen (charsVal (d :: rest)) : ℤ) -
      (((d :: rest).length + kk : ℕ) : ℤ) = -(kk : ℤ) := by
    rw [hil]
    push_cast
    ring
  rw [hstrip, hexp] at hpd
  have hpd17 : posDigits17 v.babs = (d :: rest, -(kk : ℤ)) := by
    rw [posDigits17, hpd]
    simp only [if_pos hlen17]
  rw [jsToString, if_neg (by rw [hnz]; exact Bool.false_ne_true)]
  simp only [hpd17]
  rw [if_neg (show ¬ ((-6:ℤ) < -(kk : ℤ) ∧ -(kk : ℤ) ≤ 21) from by
    intro hcon
    omega)]
  have hrender : renderPosExp (d :: rest) (-(kk : ℤ)) =
      (if rest.isEmpty then [d] else d :: '.' :: rest) ++
        'e' :: '-' :: natChars (kk + 1) := by
    have hec : expChars (-(kk : ℤ) - 1) = '-' :: natChars (kk + 1) := by
      rw [expChars, if_pos (show -(kk : ℤ) - 1 < 0 from by omega)]
      congr 1
      congr 1
      omega
    rcases rest with _ | ⟨r0, rest'⟩
    · show [d] ++ 'e' :: expChars (-(kk : ℤ) - 1) = _
      rw [hec]
      rfl
    · show (d :: '.' :: r0 :: rest') ++ 'e' :: expChars (-(kk : ℤ) - 1) = _
      rw [hec]
      rfl
  rw [hrender]
  rcases s with _ | _
  · rw [if_neg (fun h => Bool.false_ne_true (hsign.mp h))]
    simp
  · rw [if_pos (hsign.mpr rfl)]
    simp

/-- The display `formatNumber` passes through on the band `[1e-9, 1e-6)` when
the `toString` mantissa has more than one digit: sign, mantissa with its dot,
then `e-E`. -/
def smallRender (s : Bool) (d : Char) (rest : List Char) (E : Nat) : List Char :=
  (if s then ['-'] else []) ++ d :: '.' :: rest ++ 'e' :: '-' :: natChars E

/-- `formatNumber` on the band `[1e-9, 1e-6)`, where `toString` is exponential
but the guard keeps the plain branch: a single-digit mantissa collapses to the
bare integer digit, a longer mantissa passes through unchanged. -/
theorem formatNumber_small (v : Q) (s : Bool) (d : Char) (rest : List Char) (kk : Nat)
    (hS : ∀ c ∈ d :: rest, isDigitC c = true)
    (hd0 : d ≠ '0')
    (htz : (d :: rest).getLast? ≠ some '0')
    (hlen17 : (d :: rest).length ≤ 17)
    (hk6 : 6 ≤ kk) (hk8 : kk ≤ 8)
    (hval : v.val * ((pow10 ((d :: rest).length + kk) : ℕ) : ℚ) =
      (if s then (-1:ℚ) else 1) * (charsVal (d :: rest) : ℚ)) :
    formatNumber (some v) =
      if rest.isEmpty then (⟨(if s then ['-'] else []) ++ [d]⟩ : String)
      else (⟨smallRender s d rest (kk + 1)⟩ : String) := by
  have hdd : isDigitC d = true := hS d (by simp)
  have hSne : (d :: rest) ≠ [] := by simp
  have hhead : (d :: rest).headD '0' ≠ '0' := by simpa using hd0
  have hT1 : 1 ≤ charsVal (d :: rest) := charsVal_pos_of_head hSne hS hhead
  have hTq : (0:ℚ) < (charsVal (d :: rest) : ℚ) := by exact_mod_cast hT1
  have hpq : (0:ℚ) < ((pow10 ((d :: rest).length + kk) : ℕ) : ℚ) := by
    have := pow10_pos ((d :: rest).length + kk)
    exact_mod_cast this
  have hv : v.val = (if s then (-1:ℚ) else 1) * (charsVal (d :: rest) : ℚ) /
      ((pow10 ((d :: rest).length + kk) : ℕ) : ℚ) := by
    rw [eq_div_iff (ne_of_gt hpq), hval]
  have hbabsv : v.babs.val = (charsVal (d :: rest) : ℚ) /
      ((pow10 ((d :: rest).length + kk) : ℕ) : ℚ) := by
    rw [Q.val_babs, hv]
    rcases s with _ | _
    · simp only [Bool.false_eq_true, if_false, one_mul]
      exact abs_of_pos (div_pos hTq hpq)
    · simp only [if_true]
      rw [show (-1:ℚ) * (charsVal (d :: rest) : ℚ) /
          ((pow10 ((d :: rest).length + kk) : ℕ) : ℚ) =
          -((charsVal (d :: rest) : ℚ) /
          ((pow10 ((d :: rest).length + kk) : ℕ) : ℚ)) by ring]
      rw [abs_neg]
      exact abs_of_pos (div_pos hTq hpq)
  have hnc : natChars (charsVal (d :: rest)) = d :: rest :=
    natChars_charsVal (d :: rest) hSne hS hhead
  have hil : intLen (charsVal (d :: rest)) = (d :: rest).length := by
    rw [intLen, hnc]
  have hlen1 : 1 ≤ (d :: rest).length := by simp
  have hble : (pow10Q 12).ble v.babs = false := by
    rw [Bool.eq_false_iff]
    intro hb
    have h1 := (Q.ble_iff _ _).mp hb
    rw [Q.val_pow10Q, hbabsv] at h1
    have h2 : (charsVal (d :: rest) : ℚ) <
        (10:ℚ) ^ ((12:ℤ)) * ((pow10 ((d :: rest).length + kk) : ℕ) : ℚ) := by
      rw [show (10:ℚ) ^ ((12:ℤ)) = ((pow10 12 : ℕ) : ℚ) by rw [pow10_cast_q]; norm_num]
      have hn : charsVal (d :: rest) < pow10 12 * pow10 ((d :: rest).length + kk) := by
        have hTlt : charsVal (d :: rest) < pow10 (d :: rest).length :=
          charsVal_lt (d :: rest) hS
        have hL : pow10 (d :: rest).length ≤ pow10 ((d :: rest).length + kk) :=
          pow10_le_pow10 (by omega)
        have h12 : 1 ≤ pow10 12 := pow10_pos 12
        nlinarith
      exact_mod_cast hn
    rw [le_div_iff hpq] at h1
    linarith
  have hblt : v.babs.blt (pow10Q (-9)) = false := by
    rw [Bool.eq_false_iff]
    intro hb
    have h1 := (Q.blt_iff _ _).mp hb
    rw [Q.val_pow10Q, hbabsv] at h1
    have hdiv : (charsVal (d :: rest) : ℚ) <
        (10:ℚ) ^ ((-9:ℤ)) * ((pow10 ((d :: rest).length + kk) : ℕ) : ℚ) :=
      (div_lt_iff hpq).mp h1
    have hTge : pow10 ((d :: rest).length - 1) ≤ charsVal (d :: rest) := by
      have hbd := (intLen_bounds (charsVal (d :: rest)) hT1).1
      rwa [hil] at hbd
    have hq1 : ((pow10 ((d :: rest).length - 1) : ℕ) : ℚ) ≤
        (charsVal (d :: rest) : ℚ) := by exact_mod_cast hTge
    have hq2 : (10:ℚ) ^ ((-9:ℤ)) * ((pow10 ((d :: rest).length + kk) : ℕ) : ℚ) ≤
        ((pow10 ((d :: rest).length - 1) : ℕ) : ℚ) := by
      rw [pow10_cast_q, pow10_cast_q]
      rw [← zpow_add₀ (by norm_num : (10:ℚ) ≠ 0)]
      apply zpow_le_zpow_right₀ (by norm_num)
      omega
    linarith
  have hcond : (!v.babs.isZero && ((pow10Q 12).ble v.babs ||
      v.babs.blt (pow10Q (-9)))) = false := by
    rw [hble, hblt]
    simp
  simp only [formatNumber, hcond, Bool.false_eq_true, if_false]
  rw [jsToString_small v s d rest kk hS hd0 htz hlen17 hk6 hval]
  rcases rest with _ | ⟨r0, rest'⟩
  · simp only [List.isEmpty_nil, if_true]
    have hnodot : '.' ∉ (if s then ['-'] else []) ++
        ([d] ++ 'e' :: '-' :: natChars (kk + 1)) := by
      intro hmem
      rcases List.mem_append.mp hmem with h | h
      · rcases s with _ | _
        · simp at h
        · rw [if_pos rfl] at h
          exact absurd (List.mem_singleton.mp h) (by decide)
      · rcases List.mem_append.mp h with h | h
        · have hd' := hdd
          rw [← List.mem_singleton.mp h] at hd'
          rw [isDigitC_dot] at hd'
          exact Bool.false_ne_true hd'
        · rcases List.mem_cons.mp h with h | h
          · exact absurd h (by decide)
          · rcases List.mem_cons.mp h with h | h
            · exact absurd h (by decide)
            · exact no_dot_natChars _ h
    rw [splitDot_of_no_dot _ hnodot]
    simp only [List.headD_cons, List.drop_succ_cons, List.drop_nil]
    have hparse : jsParseIntLead ((if s then ['-'] else []) ++
        ([d] ++ 'e' :: '-' :: natChars (kk + 1))) = some (s, charVal d) := by
      have h1 := jsParseIntLead_signed_tail s (charVal d)
        ('e' :: '-' :: natChars (kk + 1)) (leadDigits_cons_not _ isDigitC_e)
      rw [natChars_charVal d hdd, List.append_assoc] at h1
      exact h1
    rw [hparse]
    show ({ data := intGrouped (s, charVal d) } : String) =
      ({ data := (if s then ['-'] else []) ++ [d] } : String)
    congr 1
    rw [intGrouped_eq, groupedNat_charVal d hdd]
  · simp only [List.isEmpty_cons, Bool.false_eq_true, if_false]
    rw [show ((if s then ['-'] else []) : List Char) ++
        ((d :: '.' :: r0 :: rest') ++ 'e' :: '-' :: natChars (kk + 1)) =
        ((if s then ['-'] else []) ++ [d]) ++
          '.' :: ((r0 :: rest') ++ 'e' :: '-' :: natChars (kk + 1)) from by
      simp [List.append_assoc]]
    have hAnodot : '.' ∉ (if s then ['-'] else []) ++ [d] := by
      have h1 := no_dot_sign_int s (charVal d)
      rwa [natChars_charVal d hdd] at h1
    have hBnodot : '.' ∉ (r0 :: rest') ++ 'e' :: '-' :: natChars (kk + 1) := by
      intro hmem
      rcases List.mem_append.mp hmem with h | h
      · have hd' := hS '.' (List.mem_cons_of_mem d h)
        rw [isDigitC_dot] at hd'
        exact Bool.false_ne_true hd'
      · rcases List.mem_cons.mp h with h | h
        · exact absurd h (by decide)
        · rcases List.mem_cons.mp h with h | h
          · exact absurd h (by decide)
          · exact no_dot_natChars _ h
    rw [splitDot_append_dot _ _ hAnodot, splitDot_of_no_dot _ hBnodot]
    simp only [List.headD_cons, List.drop_succ_cons, List.drop_zero]
    have hparse : jsParseIntLead ((if s then ['-'] else []) ++ [d]) =
        some (s, charVal d) := by
      have h1 := jsParseIntLead_signed s (charVal d)
      rwa [natChars_charVal d hdd] at h1
    rw [hparse]
    show ({ data := intGrouped (s, charVal d) ++
        '.' :: ((r0 :: rest') ++ 'e' :: '-' :: natChars (kk + 1)) } : String) =
      ({ data := smallRender s d (r0 :: rest') (kk + 1) } : String)
    congr 1
    rw [intGrouped_eq, groupedNat_charVal d hdd, smallRender]
    simp [List.append_assoc]

theorem smallRender_chars (s : Bool) (d : Char) (rest : List Char) (E : Nat)
    (hd : isDigitC d = true) (hrest : ∀ c ∈ rest, isDigitC c = true) :
    ∀ c ∈ smallRender s d rest E, isDigitC c = true ∨ c = '-' ∨ c = '.' ∨ c = 'e' := by
  intro c hc
  rw [smallRender] at hc
  rcases List.mem_append.mp hc with h | h
  · rcases List.mem_append.mp h with h | h
    · split at h
      · simp at h
        exact Or.inr (Or.inl h)
      · simp at h
    · rcases List.mem_cons.mp h with h | h
      · exact Or.inl (by rw [h]; exact hd)
      · rcases List.mem_cons.mp h with h | h
        · exact Or.inr (Or.inr (Or.inl h))
        · exact Or.inl (hrest c h)
  · rcases List.mem_cons.mp h with h | h
    · exact Or.inr (Or.inr (Or.inr h))
    · rcases List.mem_cons.mp h with h | h
      · exact Or.inr (Or.inl h)
      · exact Or.inl (natChars_digits E c h)

theorem stripCommas_smallRender (s : Bool) (d : Char) (rest : List Char) (E : Nat)
    (hd : isDigitC d = true) (hrest : ∀ c ∈ rest, isDigitC c = true) :
    stripCommas (smallRender s d rest E) = smallRender s d rest E := by
  rw [stripCommas]
  apply List.filter_eq_self.mpr
  intro c hc
  rcases smallRender_chars s d rest E hd hrest c hc with h | h | h | h
  · simp only [bne_iff_ne, ne_eq]
    intro hcc
    rw [hcc, isDigitC_comma] at h
    exact Bool.false_ne_true h
  all_goals (rw [h]; decide)

theorem smallRender_ne_sentinel (s : Bool) (d : Char) (rest : List Char) (E : Nat)
    (hd : isDigitC d = true) (hrest : ∀ c ∈ rest, isDigitC c = true) :
    (⟨smallRender s d rest E⟩ : String) ≠ sentinelDiv := by
  intro h
  have hdata : smallRender s d rest E = sentinelDiv.data := congrArg String.data h
  have hC : ('C' : Char) ∈ smallRender s d rest E := by
    rw [hdata]
    decide
  rcases smallRender_chars s d rest E hd hrest 'C' hC with h' | h' | h' | h'
  · rw [show isDigitC 'C' = false from by decide] at h'
    exact Bool.false_ne_true h'
  all_goals exact absurd h' (by decide)

theorem parseDisplay_smallRender (s : Bool) (d : Char) (rest : List Char) (E : Nat)
    (hd : isDigitC d = true) (hrest : ∀ c ∈ rest, isDigitC c = true) :
    parseDisplayValue ⟨smallRender s d rest E⟩ = jsNumber (smallRender s d rest E) := by
  rw [parseDisplayValue, if_neg (smallRender_ne_sentinel s d rest E hd hrest)]
  rw [show (⟨smallRender s d rest E⟩ : String).data = smallRender s d rest E from rfl]
  rw [stripCommas_smallRender s d rest E hd hrest]

/-- Re-parsing a passed-through exponential display: `Number` recovers
`±0.(d::r0::rest') × 10^(-kk)` exactly. -/
theorem jsNumber_smallRender (s : Bool) (d : Char) (r0 : Char) (rest' : List Char)
    (kk : Nat) (hd : isDigitC d = true)
    (hrest : ∀ c ∈ r0 :: rest', isDigitC c = true) :
    ∃ q : Q, jsNumber (smallRender s d (r0 :: rest') (kk + 1)) = some q ∧
      q.val * ((pow10 ((d :: r0 :: rest').length + kk) : ℕ) : ℚ) =
        (if s then (-1:ℚ) else 1) * (charsVal (d :: r0 :: rest') : ℚ) := by
  have hshape : smallRender s d (r0 :: rest') (kk + 1) = (if s then ['-'] else []) ++
      (d :: '.' :: ((r0 :: rest') ++ 'e' :: '-' :: natChars (kk + 1))) := by
    rw [smallRender]
    simp [List.append_assoc]
  have hsr : signSplit (smallRender s d (r0 :: rest') (kk + 1)) = (s,
      d :: '.' :: ((r0 :: rest') ++ 'e' :: '-' :: natChars (kk + 1))) := by
    rw [hshape]
    rcases s with _ | _
    · rw [if_neg (by simp), List.nil_append, signSplit_digit hd]
    · rw [if_pos rfl, List.singleton_append, signSplit_minus]
  have hI : leadDigits (d :: '.' :: ((r0 :: rest') ++
      'e' :: '-' :: natChars (kk + 1))) = [d] := by
    have h1 := leadDigits_append [d] ('.' :: ((r0 :: rest') ++
      'e' :: '-' :: natChars (kk + 1))) (by simpa using hd)
    simp only [List.singleton_append] at h1
    rw [h1, leadDigits_cons_not _ isDigitC_dot]
  have hfrac : fracSplit ('.' :: ((r0 :: rest') ++ 'e' :: '-' :: natChars (kk + 1))) =
      (r0 :: rest', 'e' :: '-' :: natChars (kk + 1)) := by
    rw [fracSplit_dot]
    have h1 := leadDigits_append (r0 :: rest') ('e' :: '-' :: natChars (kk + 1)) hrest
    rw [leadDigits_cons_not _ isDigitC_e, List.append_nil] at h1
    rw [h1, List.drop_left]
  have hexp : parseExpPart ('e' :: '-' :: natChars (kk + 1)) =
      some (-((kk : ℤ) + 1)) := by
    have h1 := parseExpPart_e (-((kk : ℤ) + 1))
    rw [if_pos (show -((kk : ℤ) + 1) < 0 from by omega)] at h1
    rw [show (-(-((kk : ℤ) + 1))).toNat = kk + 1 from by omega] at h1
    exact h1
  have hne : (smallRender s d (r0 :: rest') (kk + 1)).isEmpty = false := by
    rw [hshape]
    rcases s with _ | _
    · rw [if_neg (by simp)]
      rfl
    · rw [if_pos rfl]
      rfl
  refine ⟨(Q.dec (if s then -((charsVal [d] : ℤ) *
      ((pow10 (r0 :: rest').length : ℕ) : ℤ) + (charsVal (r0 :: rest') : ℤ))
      else (charsVal [d] : ℤ) * ((pow10 (r0 :: rest').length : ℕ) : ℤ) +
      (charsVal (r0 :: rest') : ℤ)) (r0 :: rest').length).mul
      (pow10Q (-((kk : ℤ) + 1))), ?_, ?_⟩
  · rw [jsNumber, if_neg (by rw [hne]; exact Bool.false_ne_true)]
    simp only [hsr, hI, List.isEmpty_cons, Bool.false_and, Bool.false_eq_true, if_false]
    have hdrop : (d :: '.' :: ((r0 :: rest') ++ 'e' :: '-' :: natChars (kk + 1))).drop
        ([d] : List Char).length = '.' :: ((r0 :: rest') ++
        'e' :: '-' :: natChars (kk + 1)) := rfl
    rw [hdrop, hfrac]
    simp only [hexp]
  · rw [Q.val_mul, Q.val_dec, Q.val_pow10Q]
    have hbase : (charsVal [d] : ℤ) * ((pow10 (r0 :: rest').length : ℕ) : ℤ) +
        (charsVal (r0 :: rest') : ℤ) = (charsVal (d :: r0 :: rest') : ℤ) := by
      rw [show charsVal (d :: r0 :: rest') =
        charVal d * pow10 (r0 :: rest').length + charsVal (r0 :: rest') from
        charsVal_cons d (r0 :: rest')]
      rw [charsVal_singleton]
      push_cast
      ring
    have hlen : (d :: r0 :: rest').length + kk = (r0 :: rest').length + (kk + 1) := by
      simp only [List.length_cons]
      omega
    rw [hlen]
    have hp : ((pow10 ((r0 :: rest').length + (kk + 1)) : ℕ) : ℚ) =
        (10:ℚ) ^ ((r0 :: rest').length : ℕ) * (10:ℚ) ^ ((kk + 1) : ℕ) := by
      rw [pow10_eq]
      push_cast
      rw [pow_add]
    rw [hp]
    have hzp : (10:ℚ) ^ (-((kk : ℤ) + 1)) = ((10:ℚ) ^ ((kk + 1) : ℕ))⁻¹ := by
      rw [zpow_neg]
      congr 1
      rw [show ((kk : ℤ) + 1) = ((kk + 1 : ℕ) : ℤ) from by push_cast; ring, zpow_natCast]
    rw [hzp, hbase]
    have hpne : (10:ℚ) ^ ((r0 :: rest').length : ℕ) ≠ 0 := by positivity
    have hqne : (10:ℚ) ^ ((kk + 1) : ℕ) ≠ 0 := by positivity
    rcases s with _ | _ <;>
      simp only [Bool.false_eq_true, if_false, if_true] <;>
      push_cast <;> (try field_simp) <;> (try ring)

/-- The `[1e-9, 1e-6)` band round trip: the single-digit display re-parses to
the bare integer digit and re-renders identically; the passed-through display
re-parses to the exact value and re-renders identically. -/
theorem roundTrip_small (v : Q) (s : Bool) (d : Char) (rest : List Char) (kk : Nat)
    (hS : ∀ c ∈ d :: rest, isDigitC c = true)
    (hd0 : d ≠ '0')
    (htz : (d :: rest).getLast? ≠ some '0')
    (hlen17 : (d :: rest).length ≤ 17)
    (hk6 : 6 ≤ kk) (hk8 : kk ≤ 8)
    (hval : v.val * ((pow10 ((d :: rest).length + kk) : ℕ) : ℚ) =
      (if s then (-1:ℚ) else 1) * (charsVal (d :: rest) : ℚ)) :
    formatNumber (parseDisplayValue (formatNumber (some v))) =
      formatNumber (some v) := by
  have hdd : isDigitC d = true := hS d (by simp)
  have h1 := formatNumber_small v s d rest kk hS hd0 htz hlen17 hk6 hk8 hval
  rcases rest with _ | ⟨r0, rest'⟩
  · rw [h1]
    simp only [List.isEmpty_nil, if_true]
    have hspec : specPlainFormat s (charVal d) [] =
        (⟨(if s then ['-'] else []) ++ [d]⟩ : String) := by
      rw [specPlainFormat, groupedNat_charVal d hdd]
      congr 1
      simp
    rw [← hspec]
    rw [parseDisplayValue, if_neg (specPlain_ne_sentinel s (charVal d) [] (by simp))]
    rw [stripCommas_specPlain s (charVal d) [] (by simp)]
    obtain ⟨q, hq, hqval⟩ := jsNumber_plain s (natChars (charVal d)) []
      (fun c hc => natChars_digits _ c hc) (natChars_ne_nil _) (by simp)
    rw [hq]
    rw [charsVal_natChars] at hqval
    have hlow : pow10 (([] : List Char).length) ≤
        (charVal d * pow10 (([] : List Char).length) + charsVal []) * pow10 6 := by
      show 1 ≤ (charVal d * 1 + 0) * pow10 6
      have hc1 := charVal_pos d hdd hd0
      have h6 := pow10_pos 6
      nlinarith
    have hhigh : charVal d < pow10 12 := by
      have hc10 := charVal_lt_10 d hdd
      have hp2 : pow10 1 ≤ pow10 12 := pow10_le_pow10 (by omega)
      have hp3 : pow10 1 = 10 := rfl
      omega
    have h17 : charVal d * pow10 (([] : List Char).length) + charsVal [] < pow10 17 := by
      show charVal d * 1 + 0 < pow10 17
      have hc10 := charVal_lt_10 d hdd
      have hp2 : pow10 1 ≤ pow10 17 := pow10_le_pow10 (by omega)
      have hp3 : pow10 1 = 10 := rfl
      omega
    exact formatNumber_plain q s (charVal d) [] (by simp) (fun h => absurd rfl h)
      hqval hlow hhigh h17
  · have hrest' : ∀ c ∈ r0 :: rest', isDigitC c = true :=
      fun c hc => hS c (List.mem_cons_of_mem d hc)
    rw [h1]
    simp only [List.isEmpty_cons, Bool.false_eq_true, if_false]
    rw [parseDisplay_smallRender s d (r0 :: rest') (kk + 1) hdd hrest']
    obtain ⟨q, hq, hqval⟩ := jsNumber_smallRender s d r0 rest' kk hdd hrest'
    rw [hq]
    have h2 := formatNumber_small q s d (r0 :: rest') kk hS hd0 htz hlen17 hk6 hk8 hqval
    rw [h2]
    simp only [List.isEmpty_cons, Bool.false_eq_true, if_false]

/-- C7 (counterexample to the original claim): `v = 1e-8` lies in the claimed
plain band `1e-9 ≤ |v| < 1e12`, its decimal expansion has integer part `0` and
fraction digits `00000001`, so the claimed rendering is `"0.00000001"`; but
`formatNumber` yields `"1"`, because `toString` writes the value as `"1e-8"`
and `parseInt` consumes only the leading `1`. -/
theorem claim_C7_counterexample :
    ((pow10Q (-9)).ble (Q.dec 1 8).babs = true ∧
      (Q.dec 1 8).babs.blt (pow10Q 12) = true ∧ (Q.dec 1 8).isZero = false) ∧
    (Q.dec 1 8).val * ((pow10 ("00000001".data).length : ℕ) : ℚ) =
      (if false then (-1:ℚ) else 1) *
        ((0 : ℚ) * ((pow10 ("00000001".data).length : ℕ) : ℚ) +
          (charsVal ("00000001".data) : ℚ)) ∧
    (∀ c ∈ "00000001".data, isDigitC c = true) ∧
    ("00000001".data).getLast? ≠ some '0' ∧
    specPlainFormat false 0 ("00000001".data) = "0.00000001" ∧
    formatNumber (some (Q.dec 1 8)) = "1" ∧
    ("1" : String) ≠ "0.00000001" := by
  refine ⟨by decide, ?_, by decide, by decide, by decide, by decide, by decide⟩
  have h1 : charsVal ("00000001".data) = 1 := by decide
  have h2 : ("00000001".data).length = 8 := by decide
  rw [h1, h2, Q.val_dec]
  rw [show ((pow10 8 : ℕ) : ℚ) = 10 ^ (8:ℕ) from by rw [pow10_eq]; push_cast; ring]
  norm_num

/-- C7 (as corrected): (1) on the band where `toString` is plain decimal —
canonical expansion `±(N + 0.F)` with `1e-6 ≤ |v|` (`pow10 L ≤ T * pow10 6`),
`N < 1e12` and at most 17 significant digits — `formatNumber` renders the sign,
the comma-grouped integer part and the fraction digits unchanged; (2) on the
exponential band (`|v| ≥ 1e12` or `0 < |v| < 1e-9`) it renders a normalized
seven-digit mantissa rounded to within one half unit, with no `'+'` in the
output.  The original claim extended (1) down to `1e-9`, which is false
(`claim_C7_counterexample`). -/
theorem claim_C7 :
    (∀ (v : Q) (s : Bool) (N : Nat) (F : List Char),
      (∀ c ∈ F, isDigitC c = true) →
      (F ≠ [] → F.getLast? ≠ some '0') →
      v.val * ((pow10 F.length : ℕ) : ℚ) = (if s then (-1:ℚ) else 1) *
        ((N : ℚ) * ((pow10 F.length : ℕ) : ℚ) + (charsVal F : ℚ)) →
      pow10 F.length ≤ (N * pow10 F.length + charsVal F) * pow10 6 →
      N < pow10 12 →
      N * pow10 F.length + charsVal F < pow10 17 →
      formatNumber (some v) = specPlainFormat s N F) ∧
    (∀ v : Q, v.isZero = false →
      ((pow10Q 12).ble v.babs || v.babs.blt (pow10Q (-9))) = true →
      ∃ m : Nat, ∃ e : Int,
        pow10 6 ≤ m ∧ m < pow10 7 ∧
        |(m:ℚ) - v.babs.val * (10:ℚ) ^ (6 - e)| ≤ 1/2 ∧
        formatNumber (some v) = ⟨expRender v m e⟩ ∧
        '+' ∉ expRender v m e) := by
  constructor
  · intro v s N F h1 h2 h3 h4 h5 h6
    exact formatNumber_plain v s N F h1 h2 h3 h4 h5 h6
  · intro v h1 h2
    obtain ⟨m, e, a1, a2, a3, _, _, a5⟩ := formatNumber_exp v h1 h2
    exact ⟨m, e, a1, a2, a3, a5, no_plus_expRender v m e⟩

/-- C7 witness: the plain part at `v = 1001.5` (display `"1,001.5"`) and the
exponential part at `v = 1e12`. -/
theorem claim_C7_witness :
    formatNumber (some (Q.dec 10015 1)) = specPlainFormat false 1001 ['5'] ∧
    (∃ m : Nat, ∃ e : Int,
      pow10 6 ≤ m ∧ m < pow10 7 ∧
      |(m:ℚ) - (Q.ofInt 1000000000000).babs.val * (10:ℚ) ^ (6 - e)| ≤ 1/2 ∧
      formatNumber (some (Q.ofInt 1000000000000)) =
        ⟨expRender (Q.ofInt 1000000000000) m e⟩ ∧
      '+' ∉ expRender (Q.ofInt 1000000000000) m e) := by
  constructor
  · apply claim_C7.1 (Q.dec 10015 1) false 1001 ['5'] (by decide) (by decide)
      ?_ (by decide) (by decide) (by decide)
    have h1 : charsVal ['5'] = 5 := by decide
    have h2 : (['5'] : List Char).length = 1 := by decide
    rw [h1, h2, Q.val_dec]
    rw [show ((pow10 1 : ℕ) : ℚ) = 10 ^ (1:ℕ) from by rw [pow10_eq]; push_cast; ring]
    norm_num
  · exact claim_C7.2 (Q.ofInt 1000000000000) (by decide) (by decide)

/-- C9 (counterexample to the original claim): at `v = 9.999999999e-10` the
first format rounds the mantissa up to `"1.000000e-9"`, whose re-parse `1e-9`
is no longer below the `1e-9` cutoff and therefore takes the plain branch,
printing `"1"`: `format ∘ parse ∘ format ≠ format`.  The final conjuncts show
`v` lies in the excluded sliver `[1e-9 - 5e-17, 1e-9)`. -/
theorem claim_C9_counterexample :
    formatNumber (some (Q.dec 9999999999 19)) = "1.000000e-9" ∧
    formatNumber (parseDisplayValue (formatNumber (some (Q.dec 9999999999 19)))) =
      "1" ∧
    ("1" : String) ≠ "1.000000e-9" ∧
    (Q.dec 9999999999 19).babs.blt (pow10Q (-9)) = true ∧
    (Q.dec 9999999999 19).babs.blt sliverQ = false := by
  refine ⟨by decide, by decide, by decide, by decide, by decide⟩

/-- C9 (as corrected): formatting composed with re-parsing is idempotent
everywhere except the rounding sliver `[1e-9 - 5e-17, 1e-9)`
(`claim_C9_counterexample`): (1) on the plain band (canonical expansion,
`1e-6 ≤ |v| < 1e12`, at most 17 significant digits), (2) for `|v| ≥ 1e12`,
(3) for `0 < |v| < 1e-9 - 5e-17`, (4) on the band `1e-9 ≤ |v| < 1e-6`
(canonical significant digits `d :: rest`, at most 17 of them, value
`±0.(d::rest) × 10^(-kk)` with `6 ≤ kk ≤ 8`), and (5) at zero;
`formatNumber` itself is a pure function of its argument in this model. -/
theorem claim_C9 :
    (∀ (v : Q) (s : Bool) (N : Nat) (F : List Char),
      (∀ c ∈ F, isDigitC c = true) →
      (F ≠ [] → F.getLast? ≠ some '0') →
      v.val * ((pow10 F.length : ℕ) : ℚ) = (if s then (-1:ℚ) else 1) *
        ((N : ℚ) * ((pow10 F.length : ℕ) : ℚ) + (charsVal F : ℚ)) →
      pow10 F.length ≤ (N * pow10 F.length + charsVal F) * pow10 6 →
      N < pow10 12 →
      N * pow10 F.length + charsVal F < pow10 17 →
      formatNumber (parseDisplayValue (formatNumber (some v))) =
        formatNumber (some v)) ∧
    (∀ v : Q, (pow10Q 12).ble v.babs = true →
      formatNumber (parseDisplayValue (formatNumber (some v))) =
        formatNumber (some v)) ∧
    (∀ v : Q, v.isZero = false → v.babs.blt sliverQ = true →
      formatNumber (parseDisplayValue (formatNumber (some v))) =
        formatNumber (some v)) ∧
    (∀ (v : Q) (s : Bool) (d : Char) (rest : List Char) (kk : Nat),
      (∀ c ∈ d :: rest, isDigitC c = true) →
      d ≠ '0' →
      (d :: rest).getLast? ≠ some '0' →
      (d :: rest).length ≤ 17 →
      6 ≤ kk → kk ≤ 8 →
      v.val * ((pow10 ((d :: rest).length + kk) : ℕ) : ℚ) =
        (if s then (-1:ℚ) else 1) * (charsVal (d :: rest) : ℚ) →
      formatNumber (parseDisplayValue (formatNumber (some v))) =
        formatNumber (some v)) ∧
    (∀ v : Q, v.isZero = true →
      formatNumber (parseDisplayValue (formatNumber (some v))) =
        formatNumber (some v)) := by
  refine ⟨?_, ?_, ?_, ?_, ?_⟩
  · intro v s N F h1 h2 h3 h4 h5 h6
    exact roundTrip_plain v s N F h1 h2 h3 h4 h5 h6
  · intro v h
    exact roundTrip_expTop v h
  · intro v h1 h2
    exact roundTrip_expBottom v h1 h2
  · intro v s d rest kk h1 h2 h3 h4 h5 h6 h7
    exact roundTrip_small v s d rest kk h1 h2 h3 h4 h5 h6 h7
  · intro v h
    exact roundTrip_zero v h

/-- C9 witness: idempotence instances produced by the five parts of C9 at
`1001.5`, `1e12`, `1e-10`, `1.5e-7`, `1e-8` and `0`. -/
theorem claim_C9_witness :
    (formatNumber (parseDisplayValue (formatNumber (some (Q.dec 10015 1)))) =
      formatNumber (some (Q.dec 10015 1))) ∧
    (formatNumber (parseDisplayValue (formatNumber (some (Q.ofInt 1000000000000)))) =
      formatNumber (some (Q.ofInt 1000000000000))) ∧
    (formatNumber (parseDisplayValue (formatNumber (some (Q.dec 1 10)))) =
      formatNumber (some (Q.dec 1 10))) ∧
    (formatNumber (parseDisplayValue (formatNumber (some (Q.dec 15 8)))) =
      formatNumber (some (Q.dec 15 8))) ∧
    (formatNumber (parseDisplayValue (formatNumber (some (Q.dec 1 8)))) =
      formatNumber (some (Q.dec 1 8))) ∧
    (formatNumber (parseDisplayValue (formatNumber (some (Q.ofInt 0)))) =
      formatNumber (some (Q.ofInt 0))) := by
  refine ⟨?_, ?_, ?_, ?_, ?_, ?_⟩
  · apply claim_C9.1 (Q.dec 10015 1) false 1001 ['5'] (by decide) (by decide)
      ?_ (by decide) (by decide) (by decide)
    have h1 : charsVal ['5'] = 5 := by decide
    have h2 : (['5'] : List Char).length = 1 := by decide
    rw [h1, h2, Q.val_dec]
    rw [show ((pow10 1 : ℕ) : ℚ) = 10 ^ (1:ℕ) from by rw [pow10_eq]; push_cast; ring]
    norm_num
  · exact claim_C9.2.1 (Q.ofInt 1000000000000) (by decide)
  · exact claim_C9.2.2.1 (Q.dec 1 10) (by decide) (by decide)
  · apply claim_C9.2.2.2.1 (Q.dec 15 8) false '1' ['5'] 6 (by decide) (by decide)
      (by decide) (by decide) (by decide) (by decide) ?_
    have h1 : charsVal ('1' :: ['5']) = 15 := by decide
    have h2 : ('1' :: ['5']).length + 6 = 8 := by decide
    rw [h1, h2, Q.val_dec]
    rw [show ((pow10 8 : ℕ) : ℚ) = 10 ^ (8:ℕ) from by rw [pow10_eq]; push_cast; ring]
    norm_num
  · apply claim_C9.2.2.2.1 (Q.dec 1 8) false '1' [] 7 (by decide) (by decide)
      (by decide) (by decide) (by decide) (by decide) ?_
    have h1 : charsVal ('1' :: ([] : List Char)) = 1 := by decide
    have h2 : ('1' :: ([] : List Char)).length + 7 = 8 := by decide
    rw [h1, h2, Q.val_dec]
    rw [show ((pow10 8 : ℕ) : ℚ) = 10 ^ (8:ℕ) from by rw [pow10_eq]; push_cast; ring]
    norm_num
  · exact claim_C9.2.2.2.2 (Q.ofInt 0) (by decide)
